import Mathlib

/-!
# Verification of the Talos colony-simulation core

Shallow embedding of the task scheduling / grid pathfinding / region
detection engine (tiles.js, pathfinding.js, rooms.js, items.js, state.js,
tasks.js, colonist.js, systems.js — latest versions in the repository),
together with proofs and refutations of the specified properties.

Conventions:
* JS numbers used as tile coordinates are embedded as `Int`; counters and
  amounts (always non-negative integers in the source) as `Nat`.
* The grid `state.tiles` is embedded as a total function `Int → Int → Tile`;
  every access in the source is bounds-checked before indexing, so
  out-of-bounds cells of the function are never observed.
* JS `Map`s are embedded as association lists in insertion order
  (`Map.set` on an existing key updates in place, otherwise appends),
  JS `Set`s as duplicate-free lists (only `has`/`add` are used).
-/

set_option maxHeartbeats 1000000

namespace Talos

/-! ## Tile system (tiles.js) -/

inductive Tile where
  | GRASS | TREE | ROCK | WALL | FLOOR | STOCKPILE | STUMP | RUBBLE | DOOR
  | FOUNDATION | BED | WORKBENCH | CRATE
  deriving DecidableEq, Repr

inductive ResourceType where
  | wood | stone
  deriving DecidableEq, Repr

/-- `TILE_DATA[tile].walkable === true` (metadata lookup is total: the
inductive type plays the role of the `getTileData` grass fallback). -/
def tileWalkable : Tile → Bool
  | .GRASS | .FLOOR | .STOCKPILE | .STUMP | .RUBBLE | .DOOR => true
  | _ => false

/-- `TILE_DATA[tile].buildable === true`. -/
def isBuildable : Tile → Bool
  | .GRASS | .STUMP | .RUBBLE => true
  | _ => false

/-- `TILE_DATA[tile].gatherable === true`. -/
def isGatherable : Tile → Bool
  | .TREE | .ROCK => true
  | _ => false

/-- `TILE_DATA[tile].resource || null`. -/
def getResourceType : Tile → Option ResourceType
  | .TREE => some .wood
  | .ROCK => some .stone
  | _ => none

/-- `TILE_DATA[tile].depletedTile ?? TILE.GRASS`. -/
def getDepletedTile : Tile → Tile
  | .TREE => .STUMP
  | .ROCK => .RUBBLE
  | _ => .GRASS

/-- `TILE_DATA[tile].demolishable === true`. -/
def isDemolishable : Tile → Bool
  | .WALL | .DOOR => true
  | _ => false

/-! ## Configuration (config.js) -/

def mapWidth : Int := 30
def mapHeight : Int := 22
def tileSize : Int := 32
def colonistSpeed : Int := 2
def gatherTime : Nat := 60
def buildTime : Nat := 45
def demolishTime : Nat := 30

/-! ## Map utilities (map.js) -/

abbrev Pos := Int × Int

/-- The grid: `state.tiles[y][x]` is `g x y`. -/
def Grid := Int → Int → Tile

def isInBounds (x y : Int) : Bool :=
  decide (0 ≤ x ∧ x < mapWidth ∧ 0 ≤ y ∧ y < mapHeight)

/-- `tileToPixel`: the pixel centre of a tile. -/
def tileToPixel (tileX tileY : Int) : Pos :=
  (tileX * tileSize + tileSize / 2, tileY * tileSize + tileSize / 2)

/-- `pixelToTile`: `Math.floor(px / tileSize)` (flooring division). -/
def pixelToTile (px py : Int) : Pos :=
  (px.fdiv tileSize, py.fdiv tileSize)

/-- `setTile` (state.js): writes the cell if in bounds, else a no-op. -/
def setTileG (g : Grid) (x y : Int) (tile : Tile) : Grid :=
  if isInBounds x y then
    fun a b => if a = x ∧ b = y then tile else g a b
  else g

/-! ## Pathfinding (pathfinding.js) -/

def isWalkable (g : Grid) (x y : Int) : Bool :=
  isInBounds x y && tileWalkable (g x y)

/-- The four cardinal neighbours of a cell, in the source's direction order
(up, down, left, right). -/
def adjacentCells (p : Pos) : List Pos :=
  [(p.1, p.2 - 1), (p.1, p.2 + 1), (p.1 - 1, p.2), (p.1 + 1, p.2)]

/-- `getNeighbors`: walkable cardinal neighbours, in direction order. -/
def getNeighbors (g : Grid) (x y : Int) : List Pos :=
  (adjacentCells (x, y)).filter (fun p => isWalkable g p.1 p.2)

/-- `getWalkableAdjacent` is the same computation as `getNeighbors`. -/
def getWalkableAdjacent (g : Grid) (x y : Int) : List Pos :=
  (adjacentCells (x, y)).filter (fun p => isWalkable g p.1 p.2)

/-- Manhattan distance heuristic. -/
def heuristic (ax ay bx bty : Int) : Nat :=
  (ax - bx).natAbs + (ay - bty).natAbs

def heuristicP (a b : Pos) : Nat := heuristic a.1 a.2 b.1 b.2

/-- The `best/bestDist` minimisation loop used both by the goal substitution
in `findPath` and by `findWorkPosition`: first element attaining the
minimal heuristic distance to `w` (strict-`<` updates keep the first). -/
def pickNearest (w : Pos) (l : List Pos) : Option Pos :=
  l.foldl
    (fun acc a =>
      match acc with
      | none => some a
      | some b => if heuristicP w a < heuristicP w b then some a else some b)
    none

/-- The goal-substitution prologue of `findPath`: a walkable goal is kept;
a non-walkable goal is replaced by its walkable neighbour closest to the
start, or the search fails if it has none. -/
def goalAfterSubstitution (g : Grid) (startX startY goalX goalY : Int) : Option Pos :=
  if isWalkable g goalX goalY then some (goalX, goalY)
  else pickNearest (startX, startY) (getWalkableAdjacent g goalX goalY)

/-- An A* search node.  The source stores a `parent` reference and
reconstructs the path by walking the parent chain; since parents are
snapshots of node objects at relaxation time, the reconstructed path is
exactly the `path` list recorded here (start cell first, node cell last). -/
structure ANode where
  x : Int
  y : Int
  g : Nat
  f : Nat
  path : List Pos
  deriving DecidableEq, Repr

/-- The open set: a JS `Map` keyed by cell, in insertion order. -/
abbrev OpenList := List (Pos × ANode)

def mapGet (m : OpenList) (k : Pos) : Option ANode :=
  (m.find? (fun e => e.1 == k)).map Prod.snd

/-- JS `Map.set`: update in place if present, else append. -/
def mapSet (m : OpenList) (k : Pos) (v : ANode) : OpenList :=
  if m.any (fun e => e.1 == k) then
    m.map (fun e => if e.1 == k then (k, v) else e)
  else m ++ [(k, v)]

/-- JS `Map.delete`. -/
def mapDelete (m : OpenList) (k : Pos) : OpenList :=
  m.filter (fun e => !(e.1 == k))

/-- The open-set scan `for (const [key, node] of openSet) if (node.f < current.f)`:
first entry with minimal f-score. -/
def pickMin (m : OpenList) : Option (Pos × ANode) :=
  m.foldl
    (fun acc e =>
      match acc with
      | none => some e
      | some c => if e.2.f < c.2.f then some e else some c)
    none

/-- Relaxation of one neighbour of the current node. -/
def relaxStep (goal : Pos) (cur : ANode) (closedSet : List Pos)
    (o : OpenList) (n : Pos) : OpenList :=
  if closedSet.contains n then o
  else
    let gscore := cur.g + 1
    if (match mapGet o n with
        | none => true
        | some existing => gscore < existing.g) then
      mapSet o n
        ⟨n.1, n.2, gscore, gscore + heuristic n.1 n.2 goal.1 goal.2,
          cur.path ++ [n]⟩
    else o

/-- The A* main loop.  The source's `while (openSet.size > 0)` terminates
because each iteration moves a fresh cell to the closed set; `fuel` is an
upper bound on the iteration count (shown sufficient in the completeness
proof below), and `none` is returned when the open set empties. -/
def astarLoop (gr : Grid) (goal : Pos) :
    Nat → OpenList → List Pos → Option (List Pos)
  | 0, _, _ => none
  | fuel + 1, openSet, closedSet =>
    match pickMin openSet with
    | none => none
    | some (key, cur) =>
      if (cur.x, cur.y) = goal then some cur.path
      else
        let openSet' := mapDelete openSet key
        let closedSet' := key :: closedSet
        let openSet'' :=
          (getNeighbors gr cur.x cur.y).foldl (relaxStep goal cur closedSet') openSet'
        astarLoop gr goal fuel openSet'' closedSet'

/-- One more than the number of cells that can ever enter the closed set
(all in-bounds cells, plus a possibly out-of-bounds start). -/
def astarFuel : Nat := mapWidth.toNat * mapHeight.toNat + 2

/-- `findPath(state, startX, startY, goalX, goalY)`. -/
def findPath (gr : Grid) (startX startY goalX goalY : Int) :
    Option (List Pos) :=
  match goalAfterSubstitution gr startX startY goalX goalY with
  | none => none
  | some goal =>
    if (startX, startY) = goal then some [(startX, startY)]
    else
      astarLoop gr goal astarFuel
        [((startX, startY),
          ⟨startX, startY, 0, heuristic startX startY goal.1 goal.2,
            [(startX, startY)]⟩)]
        []

/-- `findWorkPosition(state, targetX, targetY, workerX, workerY)`. -/
def findWorkPosition (g : Grid) (targetX targetY workerX workerY : Int) :
    Option Pos :=
  let adjacent := getWalkableAdjacent g targetX targetY
  if adjacent.isEmpty then none
  else
    match adjacent.find? (fun a => a.1 == workerX && a.2 == workerY) with
    | some a => some a
    | none => pickNearest (workerX, workerY) adjacent

/-! ## Specification-side path predicates

A valid path is a non-empty cell sequence starting at the start cell in
which consecutive cells are cardinally adjacent and every cell after the
first is walkable; reachability and shortest distance are phrased through
these paths. -/

def validFrom (gr : Grid) : Pos → List Pos → Bool
  | _, [] => true
  | a, b :: rest =>
    isWalkable gr b.1 b.2 && (adjacentCells a).contains b && validFrom gr b rest

def IsPath (gr : Grid) (s t : Pos) (p : List Pos) : Prop :=
  ∃ rest, p = s :: rest ∧ validFrom gr s rest = true ∧ p.getLast? = some t

def Reachable (gr : Grid) (s t : Pos) : Prop := ∃ p, IsPath gr s t p

end Talos
namespace Talos

/-! ## A* correctness: path and heuristic lemmas -/

theorem mem_adjacentCells {a b : Pos} :
    b ∈ adjacentCells a ↔
      b = (a.1, a.2 - 1) ∨ b = (a.1, a.2 + 1) ∨
      b = (a.1 - 1, a.2) ∨ b = (a.1 + 1, a.2) := by
  simp [adjacentCells]

theorem heuristicP_self (a : Pos) : heuristicP a a = 0 := by
  simp [heuristicP, heuristic]

theorem heuristicP_adj {a b : Pos} (h : b ∈ adjacentCells a) :
    heuristicP a b = 1 := by
  rcases mem_adjacentCells.mp h with h | h | h | h <;> subst h <;>
    (simp only [heuristicP, heuristic]; omega)

theorem heuristicP_triangle (a b c : Pos) :
    heuristicP a c ≤ heuristicP a b + heuristicP b c := by
  simp only [heuristicP, heuristic]
  omega

theorem mem_getNeighbors {gr : Grid} {x y : Int} {p : Pos} :
    p ∈ getNeighbors gr x y ↔
      p ∈ adjacentCells (x, y) ∧ isWalkable gr p.1 p.2 = true := by
  simp [getNeighbors, List.mem_filter]

theorem validFrom_append (gr : Grid) (r1 : List Pos) (a : Pos) (r2 : List Pos) :
    validFrom gr a (r1 ++ r2) =
      (validFrom gr a r1 && validFrom gr (r1.getLast?.getD a) r2) := by
  induction r1 generalizing a with
  | nil => simp [validFrom]
  | cons b rest ih =>
    simp only [List.cons_append, validFrom, List.append_eq, ih b,
      Bool.and_assoc, List.getLast?_cons, List.getLastD, Option.getD_some]

theorem IsPath.nonempty {gr : Grid} {s t : Pos} {p : List Pos}
    (h : IsPath gr s t p) : p ≠ [] := by
  obtain ⟨rest, hp, -, -⟩ := h
  simp [hp]

theorem IsPath.length_pos {gr : Grid} {s t : Pos} {p : List Pos}
    (h : IsPath gr s t p) : 1 ≤ p.length := by
  obtain ⟨rest, hp, -, -⟩ := h
  simp [hp]

theorem isPath_single {gr : Grid} (s : Pos) : IsPath gr s s [s] :=
  ⟨[], rfl, rfl, rfl⟩

/-- Extending a valid path by one walkable adjacent cell. -/
theorem IsPath.snoc {gr : Grid} {s c nb : Pos} {p : List Pos}
    (h : IsPath gr s c p) (hw : isWalkable gr nb.1 nb.2 = true)
    (ha : nb ∈ adjacentCells c) : IsPath gr s nb (p ++ [nb]) := by
  obtain ⟨rest, hp, hv, hl⟩ := h
  subst hp
  have hlast : rest.getLast?.getD s = c := by
    simpa [List.getLast?_cons, List.getLastD] using hl
  refine ⟨rest ++ [nb], by simp, ?_, ?_⟩
  · rw [validFrom_append, hv, hlast]
    simp only [validFrom, hw, Bool.true_and, Bool.and_true, Bool.and_self]
    exact List.elem_eq_true_of_mem ha
  · show ((s :: rest) ++ [nb]).getLast? = some nb
    exact List.getLast?_concat _

end Talos
namespace Talos

/-! ## A* correctness: association-list map lemmas -/

theorem find?_cons_ite {α : Type} (p : α → Bool) (a : α) (l : List α) :
    (a :: l).find? p = if p a then some a else l.find? p := by
  cases h : p a <;> simp [List.find?, h]

theorem mapGet_mem {m : OpenList} {k : Pos} {n : ANode}
    (h : mapGet m k = some n) : (k, n) ∈ m := by
  unfold mapGet at h
  obtain ⟨e, he, hsnd⟩ := Option.map_eq_some'.mp h
  have hk : e.1 = k := by
    have := List.find?_some he
    simpa using this
  have hmem := List.mem_of_find?_eq_some he
  obtain ⟨e1, e2⟩ := e
  simp only at hk hsnd
  rw [hk, hsnd] at hmem
  exact hmem

theorem mapGet_eq_none {m : OpenList} {k : Pos} :
    mapGet m k = none ↔ ∀ kv ∈ m, kv.1 ≠ k := by
  unfold mapGet
  simp [List.find?_eq_none]

theorem mem_mapGet {m : OpenList} {k : Pos} {n : ANode}
    (hnd : (m.map Prod.fst).Nodup) (h : (k, n) ∈ m) : mapGet m k = some n := by
  induction m with
  | nil => simp at h
  | cons e rest ih =>
    simp only [List.map_cons, List.nodup_cons] at hnd
    rcases List.mem_cons.mp h with h | h
    · subst h
      unfold mapGet
      rw [find?_cons_ite, if_pos (by simp)]
      rfl
    · have hne : ¬((fun (e : Pos × ANode) => e.1 == k) e = true) := by
        simp only [beq_iff_eq]
        intro hk
        exact hnd.1 (hk ▸ List.mem_map_of_mem Prod.fst h)
      have := ih hnd.2 h
      unfold mapGet at this ⊢
      rw [find?_cons_ite, if_neg hne]
      exact this

theorem mem_mapSet {m : OpenList} {k : Pos} {v : ANode} {kv : Pos × ANode}
    (h : kv ∈ mapSet m k v) : kv ∈ m ∨ kv = (k, v) := by
  unfold mapSet at h
  split at h
  · obtain ⟨e, he, hkv⟩ := List.mem_map.mp h
    by_cases hk : (e.1 == k) = true
    · right; rw [if_pos hk] at hkv; exact hkv.symm
    · left; rw [if_neg hk] at hkv; exact hkv ▸ he
  · rcases List.mem_append.mp h with h | h
    · exact Or.inl h
    · exact Or.inr (by simpa using h)

theorem find?_mapSet_update (m : OpenList) (k : Pos) (v : ANode)
    (hany : m.any (fun e => e.1 == k) = true) :
    (m.map (fun e => if e.1 == k then (k, v) else e)).find?
        (fun e => e.1 == k) = some (k, v) := by
  induction m with
  | nil => simp at hany
  | cons e rest ih =>
    by_cases hek : (e.1 == k) = true
    · simp only [List.map_cons, if_pos hek]
      rw [find?_cons_ite, if_pos (by simp)]
    · simp only [List.map_cons, if_neg hek]
      rw [find?_cons_ite, if_neg hek]
      refine ih ?_
      rw [List.any_cons, Bool.or_eq_true] at hany
      rcases hany with h | h
      · exact absurd h hek
      · exact h

theorem mapGet_mapSet_self {m : OpenList} {k : Pos} {v : ANode} :
    mapGet (mapSet m k v) k = some v := by
  unfold mapSet
  split
  case isTrue h =>
    unfold mapGet
    rw [find?_mapSet_update m k v h]
    rfl
  case isFalse h =>
    have hnone : m.find? (fun e => e.1 == k) = none := by
      rw [List.find?_eq_none]
      intro kv hkv hk
      exact h (List.any_eq_true.mpr ⟨kv, hkv, hk⟩)
    unfold mapGet
    rw [List.find?_append, hnone]
    simp only [Option.none_or]
    rw [find?_cons_ite, if_pos (by simp)]
    rfl

theorem find?_mapSet_map_other (m : OpenList) (k k' : Pos) (v : ANode)
    (hne : k' ≠ k) :
    (m.map (fun e => if e.1 == k then (k, v) else e)).find?
        (fun e => e.1 == k') = m.find? (fun e => e.1 == k') := by
  induction m with
  | nil => simp
  | cons e rest ih =>
    by_cases hek : (e.1 == k) = true
    · simp only [List.map_cons, if_pos hek]
      have h1 : ¬((fun (e : Pos × ANode) => e.1 == k') (k, v) = true) := by
        simp only [beq_iff_eq]
        exact fun hh => hne hh.symm
      have h2 : ¬((fun (e : Pos × ANode) => e.1 == k') e = true) := by
        simp only [beq_iff_eq] at hek ⊢
        rw [hek]
        exact fun hh => hne hh.symm
      rw [find?_cons_ite, if_neg h1, find?_cons_ite, if_neg h2]
      exact ih
    · simp only [List.map_cons, if_neg hek]
      by_cases hek' : ((fun (e : Pos × ANode) => e.1 == k') e = true)
      · rw [find?_cons_ite, if_pos hek', find?_cons_ite, if_pos hek']
      · rw [find?_cons_ite, if_neg hek', find?_cons_ite, if_neg hek']
        exact ih

theorem mapGet_mapSet_other {m : OpenList} {k k' : Pos} {v : ANode}
    (hne : k' ≠ k) : mapGet (mapSet m k v) k' = mapGet m k' := by
  unfold mapSet
  split
  · unfold mapGet
    rw [find?_mapSet_map_other m k k' v hne]
  · unfold mapGet
    rw [List.find?_append]
    cases hf : m.find? (fun e => e.1 == k') with
    | some e => simp
    | none =>
      have h1 : ¬((fun (e : Pos × ANode) => e.1 == k') (k, v) = true) := by
        simp only [beq_iff_eq]
        exact fun hh => hne hh.symm
      simp only [Option.none_or]
      rw [find?_cons_ite, if_neg h1]
      rfl

theorem find?_filterne_eq_none (l : OpenList) (k : Pos) :
    (l.filter (fun e => !(e.1 == k))).find? (fun e => e.1 == k) = none := by
  rw [List.find?_eq_none]
  intro a ha
  have := List.of_mem_filter ha
  simpa using this

theorem find?_filterne_other (l : OpenList) (k k' : Pos) (h : k' ≠ k) :
    (l.filter (fun e => !(e.1 == k))).find? (fun e => e.1 == k') =
      l.find? (fun e => e.1 == k') := by
  induction l with
  | nil => rfl
  | cons e rest ih =>
    rw [List.filter_cons]
    cases hq : (e.1 == k) with
    | true =>
      have hp : ¬((fun (x : Pos × ANode) => x.1 == k') e = true) := by
        simp only [beq_iff_eq] at hq ⊢
        rw [hq]
        exact fun hh => h hh.symm
      rw [if_neg (show ¬((!true) = true) by decide), find?_cons_ite, if_neg hp]
      exact ih
    | false =>
      rw [if_pos (show ((!false) = true) by decide), find?_cons_ite, find?_cons_ite]
      split
      · rfl
      · exact ih

theorem mapGet_mapDelete {m : OpenList} {k k' : Pos} :
    mapGet (mapDelete m k) k' = if k' = k then none else mapGet m k' := by
  unfold mapDelete mapGet
  by_cases hkk : k' = k
  · subst hkk
    rw [if_pos rfl, find?_filterne_eq_none]
    rfl
  · rw [if_neg hkk, find?_filterne_other m k k' hkk]

theorem mem_mapDelete {m : OpenList} {k : Pos} {kv : Pos × ANode}
    (h : kv ∈ mapDelete m k) : kv ∈ m ∧ kv.1 ≠ k := by
  unfold mapDelete at h
  have := List.of_mem_filter h
  refine ⟨List.mem_of_mem_filter h, ?_⟩
  simpa using this

theorem mapDelete_keys_sublist (m : OpenList) (k : Pos) :
    ((mapDelete m k).map Prod.fst).Sublist (m.map Prod.fst) :=
  ((List.filter_sublist m).map Prod.fst)

theorem mapSet_keys {m : OpenList} {k : Pos} {v : ANode} :
    ((mapSet m k v).map Prod.fst) = m.map Prod.fst ∨
      ((mapSet m k v).map Prod.fst) = m.map Prod.fst ++ [k] := by
  unfold mapSet
  split
  · left
    rw [List.map_map]
    refine List.map_congr_left ?_
    intro e _
    by_cases hek : (e.1 == k) = true
    · simp only [Function.comp, if_pos hek]
      simp only [beq_iff_eq] at hek
      simp [hek]
    · simp only [Function.comp, if_neg hek]
  · right
    simp

end Talos
namespace Talos

/-! ## A* correctness: lowest-f-score selection lemmas -/

def pickMinF (acc : Option (Pos × ANode)) (e : Pos × ANode) :
    Option (Pos × ANode) :=
  match acc with
  | none => some e
  | some c => if e.2.f < c.2.f then some e else some c

theorem pickMin_eq_foldl (m : OpenList) : pickMin m = m.foldl pickMinF none := rfl

theorem foldl_pickMinF_ne_none :
    ∀ (l : List (Pos × ANode)) (c : Pos × ANode),
      l.foldl pickMinF (some c) ≠ none := by
  intro l
  induction l with
  | nil => intro c h; simp at h
  | cons e rest ih =>
    intro c
    show rest.foldl pickMinF (pickMinF (some c) e) ≠ none
    by_cases hlt : e.2.f < c.2.f
    · rw [show pickMinF (some c) e = some e from by simp [pickMinF, hlt]]
      exact ih e
    · rw [show pickMinF (some c) e = some c from by simp [pickMinF, hlt]]
      exact ih c

theorem foldl_pickMinF_mem :
    ∀ (l : List (Pos × ANode)) (acc : Option (Pos × ANode)) (r : Pos × ANode),
      l.foldl pickMinF acc = some r → acc = some r ∨ r ∈ l := by
  intro l
  induction l with
  | nil => intro acc r h; exact Or.inl h
  | cons e rest ih =>
    intro acc r h
    have h' : rest.foldl pickMinF (pickMinF acc e) = some r := h
    rcases ih (pickMinF acc e) r h' with hacc | hmem
    · unfold pickMinF at hacc
      cases acc with
      | none => exact Or.inr (by simp [← Option.some_inj.mp hacc])
      | some c =>
        simp only at hacc
        split at hacc
        · exact Or.inr (by simp [← Option.some_inj.mp hacc])
        · exact Or.inl hacc
    · exact Or.inr (List.mem_cons_of_mem _ hmem)

theorem foldl_pickMinF_min :
    ∀ (l : List (Pos × ANode)) (acc : Option (Pos × ANode)) (r : Pos × ANode),
      l.foldl pickMinF acc = some r →
        (∀ e ∈ l, r.2.f ≤ e.2.f) ∧ (∀ c, acc = some c → r.2.f ≤ c.2.f) := by
  intro l
  induction l with
  | nil =>
    intro acc r h
    refine ⟨by simp, fun c hc => ?_⟩
    simp only [List.foldl_nil] at h
    rw [hc] at h
    rw [Option.some_inj.mp h]
  | cons e rest ih =>
    intro acc r h
    have h' : rest.foldl pickMinF (pickMinF acc e) = some r := h
    obtain ⟨hrest, hacc'⟩ := ih (pickMinF acc e) r h'
    have hre : r.2.f ≤ e.2.f := by
      cases acc with
      | none => exact hacc' e rfl
      | some c =>
        by_cases hlt : e.2.f < c.2.f
        · exact hacc' e (by simp [pickMinF, hlt])
        · have hcb := hacc' c (by simp [pickMinF, hlt])
          omega
    refine ⟨fun e' he' => ?_, fun c hc => ?_⟩
    · rcases List.mem_cons.mp he' with rfl | hm
      · exact hre
      · exact hrest e' hm
    · subst hc
      by_cases hlt : e.2.f < c.2.f
      · have := hacc' e (by simp [pickMinF, hlt])
        omega
      · exact hacc' c (by simp [pickMinF, hlt])

theorem pickMin_mem {m : OpenList} {kv : Pos × ANode}
    (h : pickMin m = some kv) : kv ∈ m := by
  rw [pickMin_eq_foldl] at h
  rcases foldl_pickMinF_mem m none kv h with h | h
  · exact absurd h (by simp)
  · exact h

theorem pickMin_min {m : OpenList} {kv : Pos × ANode}
    (h : pickMin m = some kv) : ∀ e ∈ m, kv.2.f ≤ e.2.f := by
  rw [pickMin_eq_foldl] at h
  exact (foldl_pickMinF_min m none kv h).1

theorem pickMin_eq_none {m : OpenList} (h : pickMin m = none) : m = [] := by
  rw [pickMin_eq_foldl] at h
  cases m with
  | nil => rfl
  | cons e rest =>
    exact absurd h (foldl_pickMinF_ne_none rest e)

end Talos
namespace Talos

/-! ## A* correctness: the search invariant -/

/-- Well-formedness of a search node: its recorded path is a valid path
from the start to the node's cell, its g-score is the path's edge count and
its f-score is g plus the heuristic towards the search goal. -/
def NodeWF (gr : Grid) (s goal : Pos) (n : ANode) : Prop :=
  IsPath gr s (n.x, n.y) n.path ∧ n.path.length = n.g + 1 ∧
  n.f = n.g + heuristicP (n.x, n.y) goal

/-- `m` is the length (in edges) of a shortest valid path from `s` to `c`. -/
def OptDist (gr : Grid) (s c : Pos) (m : Nat) : Prop :=
  (∃ p, IsPath gr s c p ∧ p.length = m + 1) ∧
  ∀ p, IsPath gr s c p → m + 1 ≤ p.length

/-- The node relaxation inserts for neighbour `n` of the current node. -/
def relaxNode (goal : Pos) (cur : ANode) (n : Pos) : ANode :=
  ⟨n.1, n.2, cur.g + 1, cur.g + 1 + heuristic n.1 n.2 goal.1 goal.2,
    cur.path ++ [n]⟩

theorem relaxStep_eq (goal : Pos) (cur : ANode) (C : List Pos)
    (o : OpenList) (n : Pos) :
    relaxStep goal cur C o n =
      if C.contains n then o
      else if (match mapGet o n with
               | none => true
               | some existing => cur.g + 1 < existing.g) then
        mapSet o n (relaxNode goal cur n)
      else o := rfl

/-- The main-loop invariant of the A* search. -/
structure AInv (gr : Grid) (s goal : Pos) (openSet : OpenList)
    (closedSet : List Pos) : Prop where
  keys_eq : ∀ kv ∈ openSet, kv.1 = (kv.2.x, kv.2.y)
  keys_nodup : (openSet.map Prod.fst).Nodup
  sound : ∀ kv ∈ openSet, NodeWF gr s goal kv.2
  disj : ∀ kv ∈ openSet, kv.1 ∉ closedSet
  closed_nodup : closedSet.Nodup
  open_cells : ∀ kv ∈ openSet, kv.1 = s ∨ isWalkable gr kv.1.1 kv.1.2 = true
  closed_cells : ∀ c ∈ closedSet, c = s ∨ isWalkable gr c.1 c.2 = true
  goal_not_closed : goal ∉ closedSet
  start_cov : (∃ n, mapGet openSet s = some n ∧ n.g = 0) ∨ s ∈ closedSet
  closed_opt : ∀ c ∈ closedSet, ∃ m, OptDist gr s c m ∧
      ∀ nb ∈ getNeighbors gr c.1 c.2, nb ∉ closedSet →
        ∃ n, mapGet openSet nb = some n ∧ n.g ≤ m + 1

/-! ### Relaxation lemmas -/

section Relax

variable (goal : Pos) (cur : ANode) (C : List Pos)

theorem relaxStep_get_other {o : OpenList} {n k : Pos} (hne : k ≠ n) :
    mapGet (relaxStep goal cur C o n) k = mapGet o k := by
  rw [relaxStep_eq]
  split
  · rfl
  · split
    · exact mapGet_mapSet_other hne
    · rfl

theorem relaxStep_get_mono {o : OpenList} {n k : Pos} {v : ANode}
    (h : mapGet o k = some v) :
    ∃ v', mapGet (relaxStep goal cur C o n) k = some v' ∧ v'.g ≤ v.g := by
  by_cases hkn : k = n
  · subst hkn
    rw [relaxStep_eq]
    split
    · exact ⟨v, h, le_refl _⟩
    · rw [h]
      by_cases hlt : cur.g + 1 < v.g
      · rw [if_pos (by simp [hlt])]
        refine ⟨relaxNode goal cur k, mapGet_mapSet_self, ?_⟩
        simpa [relaxNode] using Nat.le_of_lt hlt
      · rw [if_neg (by simp [hlt])]
        exact ⟨v, h, le_refl _⟩
  · rw [relaxStep_get_other goal cur C hkn]
    exact ⟨v, h, le_refl _⟩

theorem relaxStep_relaxes {o : OpenList} {n : Pos} (hn : n ∉ C) :
    ∃ v', mapGet (relaxStep goal cur C o n) n = some v' ∧ v'.g ≤ cur.g + 1 := by
  rw [relaxStep_eq]
  rw [if_neg (by simpa using hn)]
  cases h : mapGet o n with
  | none =>
    refine ⟨relaxNode goal cur n, ?_, le_refl _⟩
    rw [if_pos (by rfl)]
    exact mapGet_mapSet_self
  | some v =>
    by_cases hlt : cur.g + 1 < v.g
    · refine ⟨relaxNode goal cur n, ?_, le_refl _⟩
      rw [if_pos (by simp [hlt])]
      exact mapGet_mapSet_self
    · refine ⟨v, ?_, by omega⟩
      rw [if_neg (by simp [hlt])]
      exact h

theorem relaxStep_mem {o : OpenList} {n : Pos} {kv : Pos × ANode}
    (h : kv ∈ relaxStep goal cur C o n) :
    kv ∈ o ∨ (n ∉ C ∧ kv = (n, relaxNode goal cur n)) := by
  rw [relaxStep_eq] at h
  split at h
  case isTrue hc => exact Or.inl h
  case isFalse hc =>
    split at h
    · rcases mem_mapSet h with h | h
      · exact Or.inl h
      · exact Or.inr ⟨by simpa using hc, h⟩
    · exact Or.inl h

theorem mapSet_keys_nodup {m : OpenList} {k : Pos} {v : ANode}
    (h : (m.map Prod.fst).Nodup) : ((mapSet m k v).map Prod.fst).Nodup := by
  unfold mapSet
  split
  case isTrue hany =>
    rw [List.map_map]
    have : (Prod.fst ∘ fun e => if e.1 == k then (k, v) else e) =
        (Prod.fst : Pos × ANode → Pos) := by
      funext e
      by_cases hek : (e.1 == k) = true
      · simp only [Function.comp, if_pos hek]
        simp only [beq_iff_eq] at hek
        simp [hek]
      · simp only [Function.comp, if_neg hek]
    rw [this]
    exact h
  case isFalse hany =>
    rw [List.map_append]
    simp only [List.map_cons, List.map_nil]
    rw [List.nodup_append]
    refine ⟨h, List.nodup_singleton k, ?_⟩
    intro a ha
    simp only [List.mem_singleton]
    intro hak
    subst hak
    obtain ⟨e, he, hek⟩ := List.mem_map.mp ha
    exact hany (List.any_eq_true.mpr ⟨e, he, by simp [hek]⟩)

theorem relaxStep_keys_nodup {o : OpenList} {n : Pos}
    (h : (o.map Prod.fst).Nodup) :
    (((relaxStep goal cur C o n).map Prod.fst)).Nodup := by
  rw [relaxStep_eq]
  split
  · exact h
  · split
    · exact mapSet_keys_nodup h
    · exact h

end Relax

end Talos
namespace Talos

section RelaxFold

variable (goal : Pos) (cur : ANode) (C : List Pos)

theorem relaxFold_get_other {o : OpenList} {ns : List Pos} {k : Pos}
    (hk : k ∉ ns) :
    mapGet (ns.foldl (relaxStep goal cur C) o) k = mapGet o k := by
  induction ns generalizing o with
  | nil => rfl
  | cons n rest ih =>
    have hkn : k ≠ n := fun h => hk (h ▸ List.mem_cons_self n rest)
    rw [List.foldl_cons, ih (fun h => hk (List.mem_cons_of_mem _ h)),
      relaxStep_get_other goal cur C hkn]

theorem relaxFold_get_mono {o : OpenList} {ns : List Pos} {k : Pos} {v : ANode}
    (h : mapGet o k = some v) :
    ∃ v', mapGet (ns.foldl (relaxStep goal cur C) o) k = some v' ∧
      v'.g ≤ v.g := by
  induction ns generalizing o v with
  | nil => exact ⟨v, h, le_refl _⟩
  | cons n rest ih =>
    obtain ⟨v1, h1, hg1⟩ := relaxStep_get_mono goal cur C (n := n) h
    obtain ⟨v', h', hg'⟩ := ih h1
    exact ⟨v', h', le_trans hg' hg1⟩

theorem relaxFold_relaxes {o : OpenList} {ns : List Pos} {n : Pos}
    (hmem : n ∈ ns) (hn : n ∉ C) :
    ∃ v', mapGet (ns.foldl (relaxStep goal cur C) o) n = some v' ∧
      v'.g ≤ cur.g + 1 := by
  induction ns generalizing o with
  | nil => simp at hmem
  | cons m rest ih =>
    rw [List.foldl_cons]
    rcases List.mem_cons.mp hmem with rfl | hmem'
    · obtain ⟨v1, h1, hg1⟩ := relaxStep_relaxes goal cur C (o := o) hn
      obtain ⟨v', h', hg'⟩ := @relaxFold_get_mono goal cur C _ rest _ _ h1
      exact ⟨v', h', le_trans hg' hg1⟩
    · exact ih hmem'

theorem relaxFold_mem {o : OpenList} {ns : List Pos} {kv : Pos × ANode}
    (h : kv ∈ ns.foldl (relaxStep goal cur C) o) :
    kv ∈ o ∨ ∃ n ∈ ns, n ∉ C ∧ kv = (n, relaxNode goal cur n) := by
  induction ns generalizing o with
  | nil => exact Or.inl h
  | cons m rest ih =>
    rw [List.foldl_cons] at h
    rcases ih h with h' | ⟨n, hn, hnc, hkv⟩
    · rcases relaxStep_mem goal cur C h' with h'' | ⟨hnc, hkv⟩
      · exact Or.inl h''
      · exact Or.inr ⟨m, List.mem_cons_self m rest, hnc, hkv⟩
    · exact Or.inr ⟨n, List.mem_cons_of_mem _ hn, hnc, hkv⟩

theorem relaxFold_keys_nodup {o : OpenList} {ns : List Pos}
    (h : (o.map Prod.fst).Nodup) :
    (((ns.foldl (relaxStep goal cur C) o)).map Prod.fst).Nodup := by
  induction ns generalizing o with
  | nil => exact h
  | cons m rest ih =>
    rw [List.foldl_cons]
    exact ih (relaxStep_keys_nodup goal cur C h)

end RelaxFold

end Talos
namespace Talos

theorem getLast?_cons_eq {α : Type} (a : α) (l : List α) :
    (a :: l).getLast? = some (l.getLast?.getD a) := by
  rw [List.getLast?_cons]

/-- Splitting the final edge off a valid path of at least two cells. -/
theorem isPath_split_last {gr : Grid} {s v : Pos} {p : List Pos}
    (h : IsPath gr s v p) (hlen : 2 ≤ p.length) :
    ∃ q u, p = q ++ [v] ∧ IsPath gr s u q ∧ v ∈ adjacentCells u ∧
      isWalkable gr v.1 v.2 = true ∧ q.length + 1 = p.length := by
  obtain ⟨rest, rfl, hv, hl⟩ := h
  cases rest with
  | nil => simp at hlen
  | cons r0 rs =>
    obtain ⟨init, last, hsplit⟩ :=
      (List.eq_nil_or_concat (r0 :: rs)).resolve_left (by simp)
    rw [List.concat_eq_append] at hsplit
    have hlast : last = v := by
      rw [hsplit] at hl
      have : ((s :: init) ++ [last]).getLast? = some v := by
        simpa using hl
      rw [List.getLast?_concat] at this
      exact Option.some_inj.mp this
    subst hlast
    rw [hsplit] at hv
    rw [validFrom_append] at hv
    have hv1 : validFrom gr s init = true := by
      cases hq : validFrom gr s init
      · rw [hq] at hv; simp at hv
      · rfl
    have hv2 : validFrom gr (init.getLast?.getD s) [last] = true := by
      cases hq : validFrom gr (init.getLast?.getD s) [last]
      · rw [hq] at hv; simp at hv
      · rfl
    simp only [validFrom, Bool.and_eq_true] at hv2
    refine ⟨s :: init, init.getLast?.getD s, by simp [hsplit], ?_, ?_, ?_, ?_⟩
    · exact ⟨init, rfl, hv1, getLast?_cons_eq s init⟩
    · exact List.mem_of_elem_eq_true hv2.1.2
    · exact hv2.1.1
    · simp [hsplit]

/-- Frontier cover: for any valid path to a cell `v` not yet closed, some
open node lies on the way, with its g-score plus remaining heuristic
bounded by the path's edge count.  This is the completeness engine of the
search: it combines the start coverage, the closed-node optimality and the
relaxation of closed nodes' neighbours. -/
theorem frontier_cover {gr : Grid} {s goal : Pos} {openSet : OpenList}
    {C : List Pos} (inv : AInv gr s goal openSet C) :
    ∀ (len : Nat) (p : List Pos) (v : Pos), p.length ≤ len →
      IsPath gr s v p → v ∉ C →
      ∃ kv ∈ openSet, kv.2.g + heuristicP kv.1 v + 1 ≤ p.length := by
  intro len
  induction len with
  | zero =>
    intro p v hlen hp hv
    have := hp.length_pos
    omega
  | succ N ih =>
    intro p v hlen hp hv
    by_cases hvs : v = s
    · subst hvs
      rcases inv.start_cov with ⟨n, hget, hg⟩ | hsC
      · refine ⟨(v, n), mapGet_mem hget, ?_⟩
        have h0 : heuristicP (v, n).1 v = 0 := heuristicP_self v
        have := hp.length_pos
        simp only [h0, hg]
        omega
      · exact absurd hsC hv
    · have hlen2 : 2 ≤ p.length := by
        obtain ⟨rest, rfl, hval, hl⟩ := hp
        cases rest with
        | nil =>
          simp only [List.getLast?_singleton, Option.some_inj] at hl
          exact absurd hl (fun hh => hvs hh.symm)
        | cons a b => simp
      obtain ⟨q, u, hpq, hqu, hadj, hwalk, hql⟩ := isPath_split_last hp hlen2
      by_cases huC : u ∈ C
      · obtain ⟨m, hopt, hnb⟩ := inv.closed_opt u huC
        have hvnb : v ∈ getNeighbors gr u.1 u.2 := mem_getNeighbors.mpr ⟨hadj, hwalk⟩
        obtain ⟨n, hget, hng⟩ := hnb v hvnb hv
        refine ⟨(v, n), mapGet_mem hget, ?_⟩
        have hm := hopt.2 q hqu
        have h0 : heuristicP (v, n).1 v = 0 := heuristicP_self v
        simp only [h0]
        omega
      · obtain ⟨kv, hkv, hbound⟩ := ih q u (by omega) hqu huC
        refine ⟨kv, hkv, ?_⟩
        have htri := heuristicP_triangle kv.1 u v
        rw [heuristicP_adj hadj] at htri
        omega

/-- When the node with the lowest f-score is removed from the open set,
its g-score is the true shortest distance to its cell (this is where
admissibility/consistency of the Manhattan heuristic is used). -/
theorem pop_opt {gr : Grid} {s goal : Pos} {openSet : OpenList} {C : List Pos}
    {key : Pos} {cur : ANode} (inv : AInv gr s goal openSet C)
    (hpick : pickMin openSet = some (key, cur)) :
    OptDist gr s key cur.g := by
  have hmem := pickMin_mem hpick
  have hwf := inv.sound _ hmem
  have hkey : key = (cur.x, cur.y) := inv.keys_eq _ hmem
  constructor
  · refine ⟨cur.path, ?_, by rw [hwf.2.1]⟩
    rw [hkey]
    exact hwf.1
  · intro p hp
    have hkC : key ∉ C := inv.disj _ hmem
    obtain ⟨kv, hkvmem, hbound⟩ :=
      frontier_cover inv p.length p key (le_refl _) hp hkC
    have hmin := pickMin_min hpick kv hkvmem
    have hkvwf := inv.sound _ hkvmem
    have hkveq : kv.1 = (kv.2.x, kv.2.y) := inv.keys_eq _ hkvmem
    have hcurf : cur.f = cur.g + heuristicP key goal := by
      rw [hwf.2.2, hkey]
    have hkvf : kv.2.f = kv.2.g + heuristicP kv.1 goal := by
      rw [hkvwf.2.2, hkveq]
    have htri := heuristicP_triangle kv.1 key goal
    simp only [hcurf, hkvf] at hmin
    omega

end Talos
namespace Talos

/-- One non-goal iteration of the A* loop preserves the search invariant. -/
theorem inv_preserved {gr : Grid} {s goal : Pos} {openSet : OpenList}
    {C : List Pos} {key : Pos} {cur : ANode}
    (inv : AInv gr s goal openSet C)
    (hpick : pickMin openSet = some (key, cur))
    (hng : (cur.x, cur.y) ≠ goal) :
    AInv gr s goal
      ((getNeighbors gr cur.x cur.y).foldl
        (relaxStep goal cur (key :: C)) (mapDelete openSet key))
      (key :: C) := by
  have hmem := pickMin_mem hpick
  have hkey : key = (cur.x, cur.y) := inv.keys_eq _ hmem
  have hcurwf := inv.sound _ hmem
  have hkeyC : key ∉ C := inv.disj _ hmem
  set C' := key :: C with hC'
  set o' := mapDelete openSet key with ho'
  set ns := getNeighbors gr cur.x cur.y with hns
  have h_old_mem : ∀ kv ∈ o', kv ∈ openSet ∧ kv.1 ≠ key := fun kv h => mem_mapDelete h
  have h_new_node : ∀ n ∈ ns,
      n ∈ adjacentCells (cur.x, cur.y) ∧ isWalkable gr n.1 n.2 = true :=
    fun n h => mem_getNeighbors.mp h
  have h_new_wf : ∀ n ∈ ns, NodeWF gr s goal (relaxNode goal cur n) := by
    intro n hn
    obtain ⟨hadj, hw⟩ := h_new_node n hn
    refine ⟨?_, ?_, rfl⟩
    · have hp : IsPath gr s (cur.x, cur.y) cur.path := hcurwf.1
      have := hp.snoc hw hadj
      simpa [relaxNode] using this
    · simp [relaxNode, hcurwf.2.1]
  constructor
  · -- keys_eq
    intro kv hkv
    rcases relaxFold_mem goal cur C' hkv with h | ⟨n, hn, hnc, rfl⟩
    · exact inv.keys_eq _ (h_old_mem _ h).1
    · simp [relaxNode]
  · -- keys_nodup
    exact relaxFold_keys_nodup goal cur C'
      ((mapDelete_keys_sublist openSet key).nodup inv.keys_nodup)
  · -- sound
    intro kv hkv
    rcases relaxFold_mem goal cur C' hkv with h | ⟨n, hn, hnc, rfl⟩
    · exact inv.sound _ (h_old_mem _ h).1
    · exact h_new_wf n hn
  · -- disj
    intro kv hkv
    rcases relaxFold_mem goal cur C' hkv with h | ⟨n, hn, hnc, rfl⟩
    · obtain ⟨hmem', hne⟩ := h_old_mem _ h
      intro hin
      rcases List.mem_cons.mp hin with h' | h'
      · exact hne h'
      · exact inv.disj _ hmem' h'
    · exact hnc
  · -- closed_nodup
    exact List.nodup_cons.mpr ⟨hkeyC, inv.closed_nodup⟩
  · -- open_cells
    intro kv hkv
    rcases relaxFold_mem goal cur C' hkv with h | ⟨n, hn, hnc, rfl⟩
    · exact inv.open_cells _ (h_old_mem _ h).1
    · exact Or.inr (h_new_node n hn).2
  · -- closed_cells
    intro c hc
    rcases List.mem_cons.mp hc with rfl | hc'
    · exact inv.open_cells _ hmem
    · exact inv.closed_cells c hc'
  · -- goal_not_closed
    intro hin
    rcases List.mem_cons.mp hin with h' | h'
    · exact hng (hkey ▸ h').symm
    · exact inv.goal_not_closed h'
  · -- start_cov
    rcases inv.start_cov with ⟨n0, hget, hg⟩ | hsC
    · by_cases hsk : s = key
      · exact Or.inr (hsk ▸ List.mem_cons_self key C)
      · have hget' : mapGet o' s = some n0 := by
          rw [ho', mapGet_mapDelete, if_neg hsk]
          exact hget
        obtain ⟨n', hn', hg'⟩ := @relaxFold_get_mono goal cur C' _ ns _ _ hget'
        exact Or.inl ⟨n', hn', by omega⟩
    · exact Or.inr (List.mem_cons_of_mem _ hsC)
  · -- closed_opt
    intro c hc
    rcases List.mem_cons.mp hc with rfl | hc'
    · refine ⟨cur.g, pop_opt inv hpick, ?_⟩
      intro nb hnb hnbC
      have hnb' : nb ∈ ns := by
        have h2 := hnb
        rw [hkey] at h2
        simpa [hns] using h2
      exact relaxFold_relaxes goal cur C' hnb' hnbC
    · obtain ⟨m, hopt, hnbs⟩ := inv.closed_opt c hc'
      refine ⟨m, hopt, ?_⟩
      intro nb hnb hnbC
      have hnbC0 : nb ∉ C := fun h => hnbC (List.mem_cons_of_mem _ h)
      have hnbk : nb ≠ key := fun h => hnbC (h ▸ List.mem_cons_self key C)
      obtain ⟨n1, hget1, hg1⟩ := hnbs nb hnb hnbC0
      have hget1' : mapGet o' nb = some n1 := by
        rw [ho', mapGet_mapDelete, if_neg hnbk]
        exact hget1
      obtain ⟨n', hn', hg'⟩ := @relaxFold_get_mono goal cur C' _ ns _ _ hget1'
      exact ⟨n', hn', le_trans hg' hg1⟩

end Talos
namespace Talos

/-! ### Termination bound: closable cells are limited by the grid size -/

def allCells : List Pos :=
  (List.range mapHeight.toNat).bind
    (fun y => (List.range mapWidth.toNat).map (fun x => ((x : Int), (y : Int))))

theorem mem_allCells {x y : Int} (h : isInBounds x y = true) :
    (x, y) ∈ allCells := by
  simp only [isInBounds, decide_eq_true_eq, mapWidth, mapHeight] at h
  have hy : y.toNat ∈ List.range mapHeight.toNat := by
    rw [List.mem_range]
    simp only [mapHeight]
    omega
  have hx : x.toNat ∈ List.range mapWidth.toNat := by
    rw [List.mem_range]
    simp only [mapWidth]
    omega
  have hx' : ((x.toNat : Int), (y.toNat : Int)) ∈
      (List.range mapWidth.toNat).map (fun a : Nat => ((a : Int), (y.toNat : Int))) :=
    List.mem_map.mpr ⟨x.toNat, hx, rfl⟩
  have hmem : ((x.toNat : Int), (y.toNat : Int)) ∈ allCells :=
    List.mem_bind.mpr ⟨y.toNat, hy, hx'⟩
  have hxx : (x.toNat : Int) = x := by omega
  have hyy : (y.toNat : Int) = y := by omega
  rw [hxx, hyy] at hmem
  exact hmem

set_option maxRecDepth 10000 in
theorem allCells_length : (allCells).length = 660 := by decide

theorem closed_length_le {gr : Grid} {C : List Pos} {s : Pos}
    (hnd : C.Nodup)
    (hcells : ∀ c ∈ C, c = s ∨ isWalkable gr c.1 c.2 = true) :
    C.length ≤ 661 := by
  have hsub : ∀ c ∈ C, c ∈ s :: allCells := by
    intro c hc
    rcases hcells c hc with rfl | hw
    · exact List.mem_cons_self _ _
    · refine List.mem_cons_of_mem _ ?_
      have hib : isInBounds c.1 c.2 = true := by
        simp only [isWalkable, Bool.and_eq_true] at hw
        exact hw.1
      have := mem_allCells hib
      simpa using this
  have h1 : C.toFinset.card = C.length := List.toFinset_card_of_nodup hnd
  have h2 : C.toFinset ⊆ (s :: allCells).toFinset := by
    intro a ha
    rw [List.mem_toFinset] at ha ⊢
    exact hsub a ha
  have h3 := Finset.card_le_card h2
  have h4 := List.toFinset_card_le (s :: allCells)
  have h5 : (s :: allCells).length = 661 := by
    simp [allCells_length]
  omega

/-! ### Completeness and absence-soundness of the loop -/

theorem astarLoop_complete {gr : Grid} {s goal : Pos} :
    ∀ (fuel : Nat) (openSet : OpenList) (C : List Pos),
      AInv gr s goal openSet C → Reachable gr s goal →
      astarFuel ≤ C.length + fuel →
      ∃ p, astarLoop gr goal fuel openSet C = some p ∧ IsPath gr s goal p ∧
        ∀ q, IsPath gr s goal q → p.length ≤ q.length := by
  intro fuel
  induction fuel with
  | zero =>
    intro openSet C inv hreach hfuel
    exfalso
    have h1 : C.length ≤ 661 := closed_length_le inv.closed_nodup inv.closed_cells
    have h2 : astarFuel = 662 := by decide
    omega
  | succ N ih =>
    intro openSet C inv hreach hfuel
    obtain ⟨p0, hp0⟩ := hreach
    obtain ⟨kv0, hkv0, -⟩ :=
      frontier_cover inv p0.length p0 goal (le_refl _) hp0 inv.goal_not_closed
    cases hpick : pickMin openSet with
    | none =>
      rw [pickMin_eq_none hpick] at hkv0
      simp at hkv0
    | some kc =>
      obtain ⟨key, cur⟩ := kc
      have hmem := pickMin_mem hpick
      have hkey : key = (cur.x, cur.y) := inv.keys_eq _ hmem
      have hwf := inv.sound _ hmem
      by_cases hgoal : (cur.x, cur.y) = goal
      · refine ⟨cur.path, ?_, ?_, ?_⟩
        · show astarLoop gr goal (N + 1) openSet C = some cur.path
          unfold astarLoop
          rw [hpick]
          simp [hgoal]
        · exact hgoal ▸ hwf.1
        · intro q hq
          have hopt : OptDist gr s key cur.g := pop_opt inv hpick
          have hlen : cur.path.length = cur.g + 1 := hwf.2.1
          have hq' : IsPath gr s key q := by
            rw [hkey, hgoal]
            exact hq
          have := hopt.2 q hq'
          omega
      · have inv' := inv_preserved inv hpick hgoal
        have hkeyC : key ∉ C := inv.disj _ hmem
        obtain ⟨p, hp, hpath, hmin⟩ :=
          ih _ (key :: C) inv' ⟨p0, hp0⟩ (by simp only [List.length_cons]; omega)
        refine ⟨p, ?_, hpath, hmin⟩
        show astarLoop gr goal (N + 1) openSet C = some p
        unfold astarLoop
        rw [hpick]
        simp only [hgoal, if_false]
        exact hp

theorem astarLoop_unreachable {gr : Grid} {s goal : Pos}
    (hun : ¬ Reachable gr s goal) :
    ∀ (fuel : Nat) (openSet : OpenList) (C : List Pos),
      AInv gr s goal openSet C →
      astarLoop gr goal fuel openSet C = none := by
  intro fuel
  induction fuel with
  | zero => intro openSet C _; rfl
  | succ N ih =>
    intro openSet C inv
    cases hpick : pickMin openSet with
    | none =>
      unfold astarLoop
      rw [hpick]
    | some kc =>
      obtain ⟨key, cur⟩ := kc
      by_cases hgoal : (cur.x, cur.y) = goal
      · exfalso
        have hwf := inv.sound _ (pickMin_mem hpick)
        exact hun ⟨cur.path, hgoal ▸ hwf.1⟩
      · have inv' := inv_preserved inv hpick hgoal
        unfold astarLoop
        rw [hpick]
        simp only [hgoal, if_false]
        exact ih _ _ inv'

/-- The invariant holds for the loop's initial state. -/
theorem AInv_init (gr : Grid) (s goal : Pos) :
    AInv gr s goal
      [(s, ⟨s.1, s.2, 0, heuristic s.1 s.2 goal.1 goal.2, [s]⟩)] [] := by
  constructor
  · intro kv hkv
    rcases List.mem_singleton.mp hkv with rfl
    rfl
  · simp
  · intro kv hkv
    rcases List.mem_singleton.mp hkv with rfl
    refine ⟨?_, rfl, by simp [heuristicP]⟩
    have := @isPath_single gr s
    simpa using this
  · intro kv _
    simp
  · exact List.nodup_nil
  · intro kv hkv
    rcases List.mem_singleton.mp hkv with rfl
    exact Or.inl rfl
  · intro c hc
    simp at hc
  · simp
  · refine Or.inl ⟨⟨s.1, s.2, 0, heuristic s.1 s.2 goal.1 goal.2, [s]⟩, ?_, rfl⟩
    unfold mapGet
    rw [find?_cons_ite, if_pos (by simp)]
    rfl
  · intro c hc
    simp at hc

end Talos
namespace Talos

/-! ### Nearest-neighbour selection lemmas -/

def pickNearF (w : Pos) (acc : Option Pos) (a : Pos) : Option Pos :=
  match acc with
  | none => some a
  | some b => if heuristicP w a < heuristicP w b then some a else some b

theorem pickNearest_eq_foldl (w : Pos) (l : List Pos) :
    pickNearest w l = l.foldl (pickNearF w) none := rfl

theorem foldl_pickNearF_ne_none (w : Pos) :
    ∀ (l : List Pos) (c : Pos), l.foldl (pickNearF w) (some c) ≠ none := by
  intro l
  induction l with
  | nil => intro c h; simp at h
  | cons e rest ih =>
    intro c
    show rest.foldl (pickNearF w) (pickNearF w (some c) e) ≠ none
    by_cases hlt : heuristicP w e < heuristicP w c
    · rw [show pickNearF w (some c) e = some e from by simp [pickNearF, hlt]]
      exact ih e
    · rw [show pickNearF w (some c) e = some c from by simp [pickNearF, hlt]]
      exact ih c

theorem foldl_pickNearF_mem (w : Pos) :
    ∀ (l : List Pos) (acc : Option Pos) (r : Pos),
      l.foldl (pickNearF w) acc = some r → acc = some r ∨ r ∈ l := by
  intro l
  induction l with
  | nil => intro acc r h; exact Or.inl h
  | cons e rest ih =>
    intro acc r h
    rcases ih (pickNearF w acc e) r h with hacc | hmem
    · cases acc with
      | none => exact Or.inr (by simp [← Option.some_inj.mp hacc])
      | some c =>
        unfold pickNearF at hacc
        simp only at hacc
        split at hacc
        · exact Or.inr (by simp [← Option.some_inj.mp hacc])
        · exact Or.inl hacc
    · exact Or.inr (List.mem_cons_of_mem _ hmem)

theorem foldl_pickNearF_min (w : Pos) :
    ∀ (l : List Pos) (acc : Option Pos) (r : Pos),
      l.foldl (pickNearF w) acc = some r →
        (∀ a ∈ l, heuristicP w r ≤ heuristicP w a) ∧
        (∀ c, acc = some c → heuristicP w r ≤ heuristicP w c) := by
  intro l
  induction l with
  | nil =>
    intro acc r h
    refine ⟨by simp, fun c hc => ?_⟩
    simp only [List.foldl_nil] at h
    rw [hc] at h
    rw [Option.some_inj.mp h]
  | cons e rest ih =>
    intro acc r h
    obtain ⟨hrest, hacc'⟩ := ih (pickNearF w acc e) r h
    have hre : heuristicP w r ≤ heuristicP w e := by
      cases acc with
      | none => exact hacc' e rfl
      | some c =>
        by_cases hlt : heuristicP w e < heuristicP w c
        · exact hacc' e (by simp [pickNearF, hlt])
        · have := hacc' c (by simp [pickNearF, hlt])
          omega
    refine ⟨fun a ha => ?_, fun c hc => ?_⟩
    · rcases List.mem_cons.mp ha with rfl | hm
      · exact hre
      · exact hrest a hm
    · subst hc
      by_cases hlt : heuristicP w e < heuristicP w c
      · have := hacc' e (by simp [pickNearF, hlt])
        omega
      · exact hacc' c (by simp [pickNearF, hlt])

theorem pickNearest_mem {w : Pos} {l : List Pos} {r : Pos}
    (h : pickNearest w l = some r) :
    r ∈ l ∧ ∀ a ∈ l, heuristicP w r ≤ heuristicP w a := by
  rw [pickNearest_eq_foldl] at h
  refine ⟨?_, (foldl_pickNearF_min w l none r h).1⟩
  rcases foldl_pickNearF_mem w l none r h with h' | h'
  · exact absurd h' (by simp)
  · exact h'

theorem pickNearest_ne_none {w : Pos} {l : List Pos} (hl : l ≠ []) :
    pickNearest w l ≠ none := by
  cases l with
  | nil => exact absurd rfl hl
  | cons e rest =>
    rw [pickNearest_eq_foldl]
    exact foldl_pickNearF_ne_none w rest e

theorem mem_getWalkableAdjacent {gr : Grid} {x y : Int} {p : Pos} :
    p ∈ getWalkableAdjacent gr x y ↔
      p ∈ adjacentCells (x, y) ∧ isWalkable gr p.1 p.2 = true := by
  simp [getWalkableAdjacent, List.mem_filter]

end Talos
namespace Talos

/-- C1: A* shortest-path correctness.  For every grid and every (start,
goal) pair with a walkable goal reachable through 4-connected walkable
cells, `findPath` returns a valid path (start first, goal last, each
consecutive pair cardinally adjacent, every cell after the start walkable)
of minimal length; and whenever the possibly-substituted goal is
unreachable from the start, `findPath` returns `null` (`none`). -/
theorem C1_astar_shortest_correct (gr : Grid) (sx sy gx gy : Int) :
    (isWalkable gr gx gy = true → Reachable gr (sx, sy) (gx, gy) →
      ∃ p, findPath gr sx sy gx gy = some p ∧ IsPath gr (sx, sy) (gx, gy) p ∧
        ∀ q, IsPath gr (sx, sy) (gx, gy) q → p.length ≤ q.length) ∧
    (∀ goal', goalAfterSubstitution gr sx sy gx gy = some goal' →
      ¬ Reachable gr (sx, sy) goal' → findPath gr sx sy gx gy = none) := by
  constructor
  · intro hw hreach
    have hsub : goalAfterSubstitution gr sx sy gx gy = some (gx, gy) := by
      unfold goalAfterSubstitution
      rw [if_pos hw]
    have hfp : findPath gr sx sy gx gy =
        (if (sx, sy) = (gx, gy) then some [(sx, sy)]
         else astarLoop gr (gx, gy) astarFuel
           [((sx, sy),
             ⟨sx, sy, 0, heuristic sx sy gx gy, [(sx, sy)]⟩)] []) := by
      unfold findPath
      rw [hsub]
    by_cases heq : ((sx, sy) : Pos) = (gx, gy)
    · rw [if_pos heq] at hfp
      refine ⟨[(sx, sy)], hfp, ?_, ?_⟩
      · rw [← heq]
        exact isPath_single (sx, sy)
      · intro q hq
        have := hq.length_pos
        simpa using this
    · rw [if_neg heq] at hfp
      obtain ⟨p, hloop, hpath, hmin⟩ :=
        @astarLoop_complete gr (sx, sy) (gx, gy) astarFuel _ []
          (AInv_init gr (sx, sy) (gx, gy)) hreach (by simp)
      exact ⟨p, hfp ▸ hloop, hpath, hmin⟩
  · intro goal' hsub hun
    have hfp : findPath gr sx sy gx gy =
        (if (sx, sy) = goal' then some [(sx, sy)]
         else astarLoop gr goal' astarFuel
           [((sx, sy),
             ⟨sx, sy, 0, heuristic sx sy goal'.1 goal'.2, [(sx, sy)]⟩)] []) := by
      unfold findPath
      rw [hsub]
    by_cases heq : ((sx, sy) : Pos) = goal'
    · exfalso
      refine hun ⟨[(sx, sy)], ?_⟩
      rw [← heq]
      exact isPath_single (sx, sy)
    · rw [if_neg heq] at hfp
      rw [hfp]
      exact astarLoop_unreachable hun astarFuel _ [] (AInv_init gr (sx, sy) goal')

/-- C2: goal substitution and immediate failure.  A non-walkable goal with
at least one walkable cardinal neighbour is replaced by a walkable
neighbour of minimal Manhattan distance to the start and the search runs
toward it; with no walkable neighbour `findPath` fails with no search; and
when the start equals the (possibly substituted) goal the single-cell path
is returned. -/
theorem C2_goal_substitution (gr : Grid) (sx sy gx gy : Int) :
    (isWalkable gr gx gy = false → getWalkableAdjacent gr gx gy ≠ [] →
      ∃ n, goalAfterSubstitution gr sx sy gx gy = some n ∧
        n ∈ getWalkableAdjacent gr gx gy ∧
        (∀ m ∈ getWalkableAdjacent gr gx gy,
          heuristicP (sx, sy) n ≤ heuristicP (sx, sy) m) ∧
        findPath gr sx sy gx gy = findPath gr sx sy n.1 n.2) ∧
    (isWalkable gr gx gy = false → getWalkableAdjacent gr gx gy = [] →
      findPath gr sx sy gx gy = none) ∧
    (∀ n, goalAfterSubstitution gr sx sy gx gy = some n → (sx, sy) = n →
      findPath gr sx sy gx gy = some [(sx, sy)]) := by
  refine ⟨?_, ?_, ?_⟩
  · intro hw hne
    have hsub : goalAfterSubstitution gr sx sy gx gy =
        pickNearest (sx, sy) (getWalkableAdjacent gr gx gy) := by
      unfold goalAfterSubstitution
      rw [if_neg (by simp [hw])]
    cases hpn : pickNearest (sx, sy) (getWalkableAdjacent gr gx gy) with
    | none => exact absurd hpn (pickNearest_ne_none hne)
    | some n =>
      obtain ⟨hmem, hmin⟩ := pickNearest_mem hpn
      have hwn : isWalkable gr n.1 n.2 = true :=
        (mem_getWalkableAdjacent.mp hmem).2
      refine ⟨n, hsub.trans hpn, hmem, hmin, ?_⟩
      have hsub2 : goalAfterSubstitution gr sx sy n.1 n.2 = some n := by
        unfold goalAfterSubstitution
        rw [if_pos hwn]
      have h1 : findPath gr sx sy gx gy =
          (if (sx, sy) = n then some [(sx, sy)]
           else astarLoop gr n astarFuel
             [((sx, sy),
               ⟨sx, sy, 0, heuristic sx sy n.1 n.2, [(sx, sy)]⟩)] []) := by
        unfold findPath
        rw [hsub.trans hpn]
      have h2 : findPath gr sx sy n.1 n.2 =
          (if (sx, sy) = n then some [(sx, sy)]
           else astarLoop gr n astarFuel
             [((sx, sy),
               ⟨sx, sy, 0, heuristic sx sy n.1 n.2, [(sx, sy)]⟩)] []) := by
        unfold findPath
        rw [hsub2]
      rw [h1, h2]
  · intro hw hempty
    have hsub : goalAfterSubstitution gr sx sy gx gy = none := by
      unfold goalAfterSubstitution
      rw [if_neg (by simp [hw]), hempty]
      rfl
    unfold findPath
    rw [hsub]
  · intro n hsub heq
    have hfp : findPath gr sx sy gx gy =
        (if (sx, sy) = n then some [(sx, sy)]
         else astarLoop gr n astarFuel
           [((sx, sy),
             ⟨sx, sy, 0, heuristic sx sy n.1 n.2, [(sx, sy)]⟩)] []) := by
      unfold findPath
      rw [hsub]
    rw [hfp, if_pos heq]

end Talos
namespace Talos

/-! ### Concrete grids used by the witnesses -/

/-- A fully open (all-grass) grid. -/
def openGrid : Grid := fun _ _ => Tile.GRASS

/-- Two walkable cells, (0,0) and (5,5), separated by walls everywhere. -/
def isolatedGrid : Grid := fun x y =>
  if (x = 0 ∧ y = 0) ∨ (x = 5 ∧ y = 5) then Tile.GRASS else Tile.WALL

/-- An open grid with a single (non-walkable) tree at (3,3). -/
def treeGrid : Grid := fun x y =>
  if x = 3 ∧ y = 3 then Tile.TREE else Tile.GRASS

/-- A grid that is wall everywhere. -/
def wallFieldGrid : Grid := fun _ _ => Tile.WALL

theorem isolatedGrid_unreachable : ¬ Reachable isolatedGrid (0, 0) (5, 5) := by
  rintro ⟨p, rest, rfl, hval, hlast⟩
  cases rest with
  | nil => exact absurd hlast (by decide)
  | cons b rest2 =>
    rw [show validFrom isolatedGrid (0, 0) (b :: rest2) =
        (isWalkable isolatedGrid b.1 b.2 &&
          (adjacentCells ((0 : Int), (0 : Int))).contains b &&
            validFrom isolatedGrid b rest2) from by rw [validFrom]] at hval
    rw [Bool.and_eq_true, Bool.and_eq_true] at hval
    obtain ⟨⟨hwb, hmemb⟩, -⟩ := hval
    have hb : b ∈ adjacentCells ((0 : Int), (0 : Int)) :=
      List.mem_of_elem_eq_true hmemb
    rcases mem_adjacentCells.mp hb with rfl | rfl | rfl | rfl <;>
      exact absurd hwb (by decide)

theorem C1_astar_shortest_correct_witness :
    (isWalkable openGrid 0 1 = true) ∧ Reachable openGrid (0, 0) (0, 1) ∧
    (∃ p, findPath openGrid 0 0 0 1 = some p ∧
      IsPath openGrid (0, 0) (0, 1) p ∧
      ∀ q, IsPath openGrid (0, 0) (0, 1) q → p.length ≤ q.length) ∧
    (goalAfterSubstitution isolatedGrid 0 0 5 5 = some (5, 5)) ∧
    ¬ Reachable isolatedGrid (0, 0) (5, 5) ∧
    findPath isolatedGrid 0 0 5 5 = none := by
  have hreach : Reachable openGrid (0, 0) (0, 1) :=
    ⟨[(0, 0), (0, 1)], [(0, 1)], rfl, by decide, rfl⟩
  refine ⟨by decide, hreach,
    (C1_astar_shortest_correct openGrid 0 0 0 1).1 (by decide) hreach,
    by decide, isolatedGrid_unreachable,
    (C1_astar_shortest_correct isolatedGrid 0 0 5 5).2 (5, 5) (by decide)
      isolatedGrid_unreachable⟩

theorem C2_goal_substitution_witness :
    (isWalkable treeGrid 3 3 = false) ∧
    (getWalkableAdjacent treeGrid 3 3 ≠ []) ∧
    (∃ n, goalAfterSubstitution treeGrid 0 0 3 3 = some n ∧
      n ∈ getWalkableAdjacent treeGrid 3 3 ∧
      (∀ m ∈ getWalkableAdjacent treeGrid 3 3,
        heuristicP (0, 0) n ≤ heuristicP (0, 0) m) ∧
      findPath treeGrid 0 0 3 3 = findPath treeGrid 0 0 n.1 n.2) ∧
    (isWalkable wallFieldGrid 3 3 = false) ∧
    (getWalkableAdjacent wallFieldGrid 3 3 = []) ∧
    findPath wallFieldGrid 0 0 3 3 = none ∧
    (goalAfterSubstitution openGrid 2 2 2 2 = some (2, 2)) ∧
    findPath openGrid 2 2 2 2 = some [(2, 2)] := by
  refine ⟨by decide, by decide,
    (C2_goal_substitution treeGrid 0 0 3 3).1 (by decide) (by decide),
    by decide, by decide,
    (C2_goal_substitution wallFieldGrid 0 0 3 3).2.1 (by decide) (by decide),
    by decide,
    (C2_goal_substitution openGrid 2 2 2 2).2.2 (2, 2) (by decide) (by decide)⟩

end Talos
namespace Talos

/-! ## Room detection (rooms.js) -/

/-- `isWall`: in-bounds and wall-tagged. -/
def isWall (g : Grid) (x y : Int) : Bool :=
  isInBounds x y && (g x y == Tile.WALL)

/-- `isInterior`: in-bounds and not wall/tree/rock. -/
def isInterior (g : Grid) (x y : Int) : Bool :=
  isInBounds x y &&
    !(g x y == Tile.WALL) && !(g x y == Tile.TREE) && !(g x y == Tile.ROCK)

/-- Iteration bound for the flood-fill stack loop: the stack receives at
most one initial entry plus four pushes per freshly visited in-bounds cell. -/
def floodFillFuel : Nat := 4 * (mapWidth.toNat * mapHeight.toNat) + 2

/-- The `while (stack.length > 0)` loop of `floodFill`.  The JS `Set` of
visited keys is a duplicate-free list, the JS array stack is a list with
its top first. Returns (tiles, touchesEdge, visited). -/
def floodFillLoop (g : Grid) :
    Nat → List Pos → List Pos → List Pos → Bool →
      (List Pos × Bool × List Pos)
  | 0, _, visited, tiles, touches => (tiles, touches, visited)
  | fuel + 1, stack, visited, tiles, touches =>
    match stack with
    | [] => (tiles, touches, visited)
    | (x, y) :: rest =>
      if visited.contains (x, y) then
        floodFillLoop g fuel rest visited tiles touches
      else if !(isInBounds x y) then
        floodFillLoop g fuel rest visited tiles true
      else if isWall g x y then
        floodFillLoop g fuel rest visited tiles touches
      else if !(isInterior g x y) then
        floodFillLoop g fuel rest visited tiles touches
      else
        let visited' := (x, y) :: visited
        let tiles' := tiles ++ [(x, y)]
        let touches' := touches ||
          decide (x = 0 ∨ x = mapWidth - 1 ∨ y = 0 ∨ y = mapHeight - 1)
        let stack' := (x, y - 1) :: (x, y + 1) :: (x - 1, y) :: (x + 1, y) :: rest
        floodFillLoop g fuel stack' visited' tiles' touches'

/-- `floodFill(state, startX, startY, visited)`. -/
def floodFill (g : Grid) (startX startY : Int) (visited : List Pos) :
    (List Pos × Bool × List Pos) :=
  floodFillLoop g floodFillFuel [(startX, startY)] visited [] false

/-- `findBoundingWalls`: the wall cells cardinally adjacent to a set of
tiles, deduplicated in insertion order (the JS key `Set`). -/
def findBoundingWalls (g : Grid) (tiles : List Pos) : List Pos :=
  tiles.foldl
    (fun walls p =>
      [(p.1 + 1, p.2), (p.1 - 1, p.2), (p.1, p.2 + 1), (p.1, p.2 - 1)].foldl
        (fun ws n =>
          if isWall g n.1 n.2 then
            (if ws.contains n then ws else ws ++ [n])
          else ws)
        walls)
    []

structure Bounds where
  minX : Int
  minY : Int
  maxX : Int
  maxY : Int
  width : Int
  height : Int
  deriving DecidableEq, Repr

/-- `getBounds`.  The JS ±Infinity seeds are modelled by seeding the fold
with the first tile; the empty case (Infinity bounds in JS) never arises,
as rooms always have at least one tile. -/
def getBounds : List Pos → Bounds
  | [] => ⟨0, 0, 0, 0, 1, 1⟩
  | t :: rest =>
    let minX := rest.foldl (fun a p => min a p.1) t.1
    let minY := rest.foldl (fun a p => min a p.2) t.2
    let maxX := rest.foldl (fun a p => max a p.1) t.1
    let maxY := rest.foldl (fun a p => max a p.2) t.2
    ⟨minX, minY, maxX, maxY, maxX - minX + 1, maxY - minY + 1⟩

structure Room where
  id : Nat
  tiles : List Pos
  walls : List Pos
  bounds : Bounds
  size : Nat
  name : String
  deriving DecidableEq, Repr

/-- One step of the `detectRooms` scan over the grid cells, threading the
visited set, the accumulated room list and the `nextRoomId` counter. -/
def detectStep (g : Grid) (acc : List Pos × List Room × Nat) (p : Pos) :
    List Pos × List Room × Nat :=
  if acc.1.contains p then acc
  else if isWall g p.1 p.2 then acc
  else if !(isInterior g p.1 p.2) then acc
  else
    let r := floodFill g p.1 p.2 acc.1
    if !r.2.1 && decide (0 < r.1.length) then
      (r.2.2,
        acc.2.1 ++ [⟨acc.2.2, r.1, findBoundingWalls g r.1, getBounds r.1,
          r.1.length, "Room " ++ toString (acc.2.2 + 1)⟩],
        acc.2.2 + 1)
    else (r.2.2, acc.2.1, acc.2.2)

/-- `detectRooms(state)`: full row-major rescan.  The module counter
`nextRoomId` is passed and returned explicitly. -/
def detectRooms (g : Grid) (startId : Nat) : List Room × Nat :=
  let acc := allCells.foldl (detectStep g) ([], [], startId)
  (acc.2.1, acc.2.2)

end Talos
namespace Talos

/-- The id-independent data of a room: cell membership, boundary-wall set,
bounding box and size. -/
def roomData (r : Room) : List Pos × List Pos × Bounds × Nat :=
  (r.tiles, r.walls, r.bounds, r.size)

theorem detectStep_data (g : Grid) (p : Pos)
    (acc1 acc2 : List Pos × List Room × Nat)
    (hv : acc1.1 = acc2.1)
    (hd : (acc1.2.1).map roomData = (acc2.2.1).map roomData) :
    (detectStep g acc1 p).1 = (detectStep g acc2 p).1 ∧
    ((detectStep g acc1 p).2.1).map roomData =
      ((detectStep g acc2 p).2.1).map roomData := by
  unfold detectStep
  rw [← hv]
  by_cases h1 : acc1.1.contains p = true
  · rw [if_pos h1, if_pos h1]
    exact ⟨hv, hd⟩
  · rw [if_neg h1, if_neg h1]
    by_cases h2 : isWall g p.1 p.2 = true
    · rw [if_pos h2, if_pos h2]
      exact ⟨hv, hd⟩
    · rw [if_neg h2, if_neg h2]
      by_cases h3 : (!(isInterior g p.1 p.2)) = true
      · rw [if_pos h3, if_pos h3]
        exact ⟨hv, hd⟩
      · rw [if_neg h3, if_neg h3]
        by_cases h4 : ((!(floodFill g p.1 p.2 acc1.1).2.1 &&
            decide (0 < (floodFill g p.1 p.2 acc1.1).1.length)) = true)
        · rw [if_pos h4, if_pos h4]
          refine ⟨rfl, ?_⟩
          rw [List.map_append, List.map_append, hd]
          rfl
        · rw [if_neg h4, if_neg h4]
          exact ⟨rfl, hd⟩

theorem detectFold_data (g : Grid) :
    ∀ (cells : List Pos) (acc1 acc2 : List Pos × List Room × Nat),
      acc1.1 = acc2.1 →
      (acc1.2.1).map roomData = (acc2.2.1).map roomData →
      ((cells.foldl (detectStep g) acc1).2.1).map roomData =
        ((cells.foldl (detectStep g) acc2).2.1).map roomData := by
  intro cells
  induction cells with
  | nil => intro acc1 acc2 _ hd; exact hd
  | cons p rest ih =>
    intro acc1 acc2 hv hd
    obtain ⟨hv', hd'⟩ := detectStep_data g p acc1 acc2 hv hd
    simp only [List.foldl_cons]
    exact ih (detectStep g acc1 p) (detectStep g acc2 p) hv' hd'

/-- C7: region-detection idempotence.  Rescanning an unchanged grid
produces rooms with identical cell membership, boundary-wall sets, bounds
and sizes, whatever the id counter's position is on each run (ids and
names are the only counter-dependent fields). -/
theorem C7_detectRooms_idempotent (g : Grid) (n m : Nat) :
    ((detectRooms g n).1).map roomData = ((detectRooms g m).1).map roomData := by
  unfold detectRooms
  simp only
  exact detectFold_data g allCells ([], [], n) ([], [], m) rfl rfl

end Talos
namespace Talos

/-! ## Simulation data model (state.js, items.js, tasks.js, colonist.js) -/

inductive StackLocation where
  | ground | stockpile
  deriving DecidableEq, Repr

/-- An item stack (items.js `createItemStack`). -/
structure Stack where
  id : Nat
  type : ResourceType
  amount : Nat
  location : StackLocation
  x : Int
  y : Int
  deriving DecidableEq, Repr

inductive TaskKind where
  | gather | build | demolish | haul | pickup | furniture
  deriving DecidableEq, Repr

/-- The building identifiers of the `BUILDINGS` catalog (config.js). -/
inductive BuildKind where
  | wall | floor | door | stockpile
  deriving DecidableEq, Repr

def buildingCost : BuildKind → List (ResourceType × Nat)
  | .wall => [(.stone, 1)]
  | .floor => [(.wood, 1)]
  | .door => [(.wood, 2)]
  | .stockpile => []

def buildingTile : BuildKind → Tile
  | .wall => .WALL
  | .floor => .FLOOR
  | .door => .DOOR
  | .stockpile => .STOCKPILE

/-- A task record without its follow-up field.  Only `assigned` is ever
mutated after creation (`originalTile`, used transiently during work, is
not needed by any claim and is omitted). -/
structure TaskBase where
  id : Nat
  kind : TaskKind
  x : Int
  y : Int
  resource : Option ResourceType := none
  buildType : Option BuildKind := none
  stackId : Option Nat := none
  assigned : Option Nat := none
  pendingAfterDemolish : Bool := false
  deriving DecidableEq, Repr

/-- A task.  The only follow-up tasks the source ever creates are plain
build tasks (door-over-wall), so the nesting is one level deep. -/
structure Task extends TaskBase where
  followUpTask : Option TaskBase := none
  deriving DecidableEq, Repr

/-- A colonist.  Pixel positions are integers: colonists spawn at tile
centres and all movement steps the game produces are axis-aligned with
speed 2, so coordinates stay integral (see `updateColonistMovement`). -/
structure Colonist where
  id : Nat
  name : String := ""
  x : Int
  y : Int
  task : Option Task := none
  carrying : Option (ResourceType × Nat) := none
  carryingStackId : Option Nat := none
  workProgress : Nat := 0
  path : List Pos := []
  pathIndex : Nat := 0
  targetX : Option Int := none
  targetY : Option Int := none
  wandering : Bool := false
  deriving DecidableEq, Repr

/-- The game state (state.js `createState`, latest version; `rooms`,
`buildMode` and `ui` fields are owned by excluded collaborators and are
not part of any claim).  The module-level `nextTaskId`/`nextStackId`
counters are made explicit state. -/
structure SimState where
  tiles : Grid
  colonists : List Colonist
  tasks : List Task
  stockpiles : List Pos
  itemStacks : List Stack
  nextTaskId : Nat
  nextStackId : Nat

/-! ### items.js -/

def findGroundStackAt (st : SimState) (x y : Int) : Option Stack :=
  st.itemStacks.find? (fun s =>
    s.location == StackLocation.ground && s.x == x && s.y == y)

def findStockpileStackAt (st : SimState) (x y : Int) : Option Stack :=
  st.itemStacks.find? (fun s =>
    s.location == StackLocation.stockpile && s.x == x && s.y == y)

def getGroundStacks (st : SimState) : List Stack :=
  st.itemStacks.filter (fun s => s.location == StackLocation.ground)

def getStockpileStacks (st : SimState) : List Stack :=
  st.itemStacks.filter (fun s => s.location == StackLocation.stockpile)

def getTotalStockpileResources (st : SimState) (resourceType : ResourceType) : Nat :=
  ((st.itemStacks.filter (fun s =>
    s.location == StackLocation.stockpile && s.type == resourceType)).map
      Stack.amount).sum

/-- The running `bestDist` comparison: an empty tracker is `Infinity`. -/
def betterThan (dist : Nat) : Option (Pos × Nat) → Bool
  | none => true
  | some b => decide (dist < b.2)

/-- One iteration of the `findAvailableStockpile` scan, tracking
(best same-type match, best empty cell) with their distances. -/
def stockpileScanStep (st : SimState) (resourceType : ResourceType)
    (fromX fromY : Int) (acc : Option (Pos × Nat) × Option (Pos × Nat))
    (sp : Pos) : Option (Pos × Nat) × Option (Pos × Nat) :=
  let dist := (sp.1 - fromX).natAbs + (sp.2 - fromY).natAbs
  match findStockpileStackAt st sp.1 sp.2 with
  | some s =>
    if s.type == resourceType && betterThan dist acc.1 then
      (some (sp, dist), acc.2)
    else acc
  | none =>
    if betterThan dist acc.2 then (acc.1, some (sp, dist))
    else acc

/-- `findAvailableStockpile`: prefer the nearest same-type stockpile cell,
fall back to the nearest empty one. -/
def findAvailableStockpile (st : SimState) (resourceType : ResourceType)
    (fromX fromY : Int) : Option Pos :=
  let r := st.stockpiles.foldl (stockpileScanStep st resourceType fromX fromY)
    (none, none)
  match r.1 with
  | some bm => some bm.1
  | none =>
    match r.2 with
    | some be => some be.1
    | none => none

/-! ### state.js resource ledger (latest, stack-backed version) -/

/-- `getResources`: per-type stockpile totals (the source materialises the
two-field record `{wood, stone}`; `ResourceType` has exactly those two
inhabitants). -/
def getResources (st : SimState) (r : ResourceType) : Nat :=
  getTotalStockpileResources st r

def canAfford (st : SimState) (cost : List (ResourceType × Nat)) : Bool :=
  cost.all (fun e => !(decide (getResources st e.1 < e.2)))

/-- The stack-draining loop of `payCost` for one cost entry: skip
non-stockpile or other-type stacks, stop once nothing remains, consume
whole stacks (zeroing them) and finish with a partial take. -/
def drainStacks (r : ResourceType) : List Stack → Nat → List Stack
  | [], _ => []
  | s :: rest, remaining =>
    if s.location ≠ StackLocation.stockpile ∨ s.type ≠ r then
      s :: drainStacks r rest remaining
    else if remaining = 0 then s :: rest
    else if s.amount ≤ remaining then
      { s with amount := 0 } :: drainStacks r rest (remaining - s.amount)
    else
      { s with amount := s.amount - remaining } :: drainStacks r rest 0

/-- `payCost`: all-or-nothing. Affordability of the whole cost map is
checked before any mutation; on success each entry is drained from the
stockpile stacks and emptied stacks are pruned. -/
def payCost (st : SimState) (cost : List (ResourceType × Nat)) :
    Bool × SimState :=
  if !(canAfford st cost) then (false, st)
  else
    (true,
      { st with itemStacks := cost.foldl (fun acc e => (drainStacks e.1 acc e.2).filter (fun s => decide (0 < s.amount))) st.itemStacks })

end Talos
namespace Talos

/-! ## C5: ledger atomicity -/

/-- Structural per-type stockpile total over a stack list. -/
def totalList (r : ResourceType) : List Stack → Nat
  | [] => 0
  | s :: rest =>
    (if s.location = StackLocation.stockpile ∧ s.type = r then s.amount else 0) +
      totalList r rest

theorem getTotal_eq_totalList (st : SimState) (r : ResourceType) :
    getTotalStockpileResources st r = totalList r st.itemStacks := by
  unfold getTotalStockpileResources
  induction st.itemStacks with
  | nil => rfl
  | cons s rest ih =>
    rw [List.filter_cons]
    by_cases h : (s.location = StackLocation.stockpile ∧ s.type = r)
    · have hb : (s.location == StackLocation.stockpile && s.type == r) = true := by
        simp [h.1, h.2]
      rw [if_pos hb]
      simp only [List.map_cons, List.sum_cons, totalList, if_pos h, ih]
    · have hb : ¬((s.location == StackLocation.stockpile && s.type == r) = true) := by
        simp only [Bool.and_eq_true, beq_iff_eq]
        exact fun hh => h hh
      rw [if_neg hb]
      simp only [totalList, if_neg h, ih, Nat.zero_add]

theorem totalList_filter_pos (r : ResourceType) (l : List Stack) :
    totalList r (l.filter (fun s => decide (0 < s.amount))) = totalList r l := by
  induction l with
  | nil => rfl
  | cons s rest ih =>
    rw [List.filter_cons]
    by_cases h : (0 < s.amount)
    · rw [if_pos (by simpa using h)]
      simp only [totalList, ih]
    · rw [if_neg (by simpa using h)]
      have hs : s.amount = 0 := by omega
      simp only [totalList, ih, hs, ite_self, Nat.zero_add]

theorem drainStacks_zero (r : ResourceType) (l : List Stack) :
    drainStacks r l 0 = l := by
  induction l with
  | nil => rfl
  | cons s rest ih =>
    unfold drainStacks
    by_cases h : (s.location ≠ StackLocation.stockpile ∨ s.type ≠ r)
    · rw [if_pos h, ih]
    · rw [if_neg h, if_pos rfl]

theorem drainStacks_total_self (r : ResourceType) :
    ∀ (l : List Stack) (k : Nat), k ≤ totalList r l →
      totalList r (drainStacks r l k) + k = totalList r l := by
  intro l
  induction l with
  | nil =>
    intro k hk
    simp only [totalList] at hk
    simp only [drainStacks, totalList]
    omega
  | cons s rest ih =>
    intro k hk
    unfold drainStacks
    by_cases h : (s.location ≠ StackLocation.stockpile ∨ s.type ≠ r)
    · rw [if_pos h]
      have hz : ¬(s.location = StackLocation.stockpile ∧ s.type = r) := by
        rcases h with h | h
        · exact fun hh => h hh.1
        · exact fun hh => h hh.2
      simp only [totalList, if_neg hz, Nat.zero_add] at hk ⊢
      exact ih k hk
    · rw [if_neg h]
      push_neg at h
      have hz : (s.location = StackLocation.stockpile ∧ s.type = r) := h
      simp only [totalList, if_pos hz] at hk ⊢
      by_cases hk0 : k = 0
      · rw [if_pos hk0]
        simp only [totalList, if_pos hz]
        omega
      · rw [if_neg hk0]
        by_cases hle : s.amount ≤ k
        · rw [if_pos hle]
          simp only [totalList, if_pos hz]
          have := ih (k - s.amount) (by omega)
          omega
        · rw [if_neg hle]
          simp only [totalList, if_pos hz, drainStacks_zero]
          omega

theorem drainStacks_total_other (r r' : ResourceType) (hne : r' ≠ r) :
    ∀ (l : List Stack) (k : Nat),
      totalList r' (drainStacks r l k) = totalList r' l := by
  intro l
  induction l with
  | nil => intro k; rfl
  | cons s rest ih =>
    intro k
    unfold drainStacks
    by_cases h : (s.location ≠ StackLocation.stockpile ∨ s.type ≠ r)
    · rw [if_pos h]
      simp only [totalList, ih]
    · rw [if_neg h]
      push_neg at h
      have hz : ¬(s.location = StackLocation.stockpile ∧ s.type = r') := by
        intro hh
        exact hne (hh.2 ▸ h.2 ▸ rfl)
      by_cases hk0 : k = 0
      · rw [if_pos hk0]
      · rw [if_neg hk0]
        by_cases hle : s.amount ≤ k
        · rw [if_pos hle]
          have hz2 : ¬(({ s with amount := 0 } : Stack).location = StackLocation.stockpile ∧
              ({ s with amount := 0 } : Stack).type = r') := hz
          simp only [totalList, if_neg hz, if_neg hz2, ih, Nat.zero_add]
        · rw [if_neg hle]
          have hz2 : ¬(({ s with amount := s.amount - k } : Stack).location = StackLocation.stockpile ∧
              ({ s with amount := s.amount - k } : Stack).type = r') := hz
          simp only [totalList, if_neg hz, if_neg hz2, drainStacks_zero, Nat.zero_add]

theorem drainStacks_ground (r : ResourceType) :
    ∀ (l : List Stack) (k : Nat),
      (drainStacks r l k).filter (fun s => s.location == StackLocation.ground) =
        l.filter (fun s => s.location == StackLocation.ground) := by
  intro l
  induction l with
  | nil => intro k; rfl
  | cons s rest ih =>
    intro k
    unfold drainStacks
    by_cases h : (s.location ≠ StackLocation.stockpile ∨ s.type ≠ r)
    · rw [if_pos h]
      rw [List.filter_cons, List.filter_cons]
      split <;> rw [ih]
    · rw [if_neg h]
      push_neg at h
      have hng : ¬((s.location == StackLocation.ground) = true) := by
        simp only [beq_iff_eq, h.1]
        intro hh
        cases hh
      by_cases hk0 : k = 0
      · rw [if_pos hk0]
      · rw [if_neg hk0]
        by_cases hle : s.amount ≤ k
        · rw [if_pos hle]
          rw [List.filter_cons, List.filter_cons, if_neg hng, if_neg hng, ih]
        · rw [if_neg hle]
          rw [List.filter_cons, List.filter_cons, if_neg hng, if_neg hng,
            drainStacks_zero]

end Talos
namespace Talos

/-- The amount a cost map requires of one resource type. -/
def costAmt : List (ResourceType × Nat) → ResourceType → Nat
  | [], _ => 0
  | e :: rest, r => (if e.1 = r then e.2 else 0) + costAmt rest r

theorem filter_ground_filter_pos (l : List Stack)
    (hpos : ∀ s ∈ l, s.location = StackLocation.ground → 0 < s.amount) :
    (l.filter (fun s => decide (0 < s.amount))).filter
        (fun s => s.location == StackLocation.ground) =
      l.filter (fun s => s.location == StackLocation.ground) := by
  rw [List.filter_comm]
  refine List.filter_eq_self.mpr ?_
  intro s hs
  have hmem := List.mem_of_mem_filter hs
  have hground := List.of_mem_filter hs
  simp only [beq_iff_eq] at hground
  simpa using hpos s hmem hground

theorem canAfford_iff (st : SimState) (cost : List (ResourceType × Nat)) :
    canAfford st cost = true ↔
      ∀ e ∈ cost, e.2 ≤ getTotalStockpileResources st e.1 := by
  unfold canAfford getResources
  rw [List.all_eq_true]
  constructor
  · intro h e he
    have := h e he
    simp only [Bool.not_eq_true', decide_eq_false_iff_not, Nat.not_lt] at this
    exact this
  · intro h e he
    simp only [Bool.not_eq_true', decide_eq_false_iff_not, Nat.not_lt]
    exact h e he

/-- The cumulative effect of `payCost`'s per-entry draining fold. -/
theorem payFold_props :
    ∀ (cost : List (ResourceType × Nat)) (l : List Stack),
      (cost.map Prod.fst).Nodup →
      (∀ e ∈ cost, e.2 ≤ totalList e.1 l) →
      (∀ s ∈ l, 0 < s.amount) →
      (∀ r, totalList r
          (cost.foldl (fun acc e => (drainStacks e.1 acc e.2).filter
            (fun s => decide (0 < s.amount))) l) + costAmt cost r =
            totalList r l) ∧
      (∀ s ∈ (cost.foldl (fun acc e => (drainStacks e.1 acc e.2).filter
          (fun s => decide (0 < s.amount))) l), 0 < s.amount) ∧
      ((cost.foldl (fun acc e => (drainStacks e.1 acc e.2).filter
          (fun s => decide (0 < s.amount))) l).filter
            (fun s => s.location == StackLocation.ground) =
        l.filter (fun s => s.location == StackLocation.ground)) := by
  intro cost
  induction cost with
  | nil =>
    intro l _ _ hpos
    exact ⟨fun r => by simp [costAmt], hpos, rfl⟩
  | cons e rest ih =>
    intro l hnd hsuff hpos
    simp only [List.map_cons, List.nodup_cons] at hnd
    have hsuffe : e.2 ≤ totalList e.1 l := hsuff e (List.mem_cons_self e rest)
    set l1 := (drainStacks e.1 l e.2).filter (fun s => decide (0 < s.amount))
      with hl1
    have htot1 : ∀ r, totalList r l1 =
        if r = e.1 then totalList r l - e.2 else totalList r l := by
      intro r
      rw [hl1, totalList_filter_pos]
      by_cases hr : r = e.1
      · rw [if_pos hr]
        subst hr
        have := drainStacks_total_self e.1 l e.2 hsuffe
        omega
      · rw [if_neg hr]
        exact drainStacks_total_other e.1 r hr l e.2
    have hpos1 : ∀ s ∈ l1, 0 < s.amount := by
      intro s hs
      have := List.of_mem_filter hs
      simpa using this
    have hsuff1 : ∀ e' ∈ rest, e'.2 ≤ totalList e'.1 l1 := by
      intro e' he'
      have hne : e'.1 ≠ e.1 := by
        intro hh
        exact hnd.1 (hh ▸ List.mem_map_of_mem Prod.fst he')
      rw [htot1 e'.1, if_neg hne]
      exact hsuff e' (List.mem_cons_of_mem _ he')
    have hground1 : l1.filter (fun s => s.location == StackLocation.ground) =
        l.filter (fun s => s.location == StackLocation.ground) := by
      rw [hl1]
      rw [filter_ground_filter_pos _ ?_, drainStacks_ground]
      intro s hs hg
      have := drainStacks_ground e.1 l e.2
      have hmem : s ∈ (drainStacks e.1 l e.2).filter
          (fun s => s.location == StackLocation.ground) := by
        refine List.mem_filter.mpr ⟨hs, by simp [hg]⟩
      rw [this] at hmem
      have hmem2 := List.mem_of_mem_filter hmem
      exact hpos s hmem2
    obtain ⟨ihtot, ihpos, ihground⟩ := ih l1 hnd.2 hsuff1 hpos1
    refine ⟨?_, ?_, ?_⟩
    · intro r
      have h1 := ihtot r
      rw [htot1 r] at h1
      simp only [List.foldl_cons, costAmt]
      rw [← hl1]
      by_cases hr : e.1 = r
      · subst hr
        simp only [eq_self_iff_true, if_true] at h1 ⊢
        omega
      · rw [if_neg hr]
        rw [if_neg (fun hh => hr hh.symm)] at h1
        omega
    · simp only [List.foldl_cons]
      rw [← hl1]
      exact ihpos
    · simp only [List.foldl_cons]
      rw [← hl1, ihground, hground1]

end Talos
namespace Talos

/-- C5: ledger atomicity.  When every required type is sufficiently
stocked, `payCost` succeeds and deducts exactly the requested amount of
each type from stockpile stacks, leaving only positive stacks (emptied
stacks are pruned) and ground stacks untouched; when some required type is
insufficient it fails and returns the state unmodified. -/
theorem C5_payCost_atomic (st : SimState) (cost : List (ResourceType × Nat))
    (hnd : (cost.map Prod.fst).Nodup)
    (hpos : ∀ s ∈ st.itemStacks, 0 < s.amount) :
    ((∀ e ∈ cost, e.2 ≤ getTotalStockpileResources st e.1) →
      (payCost st cost).1 = true ∧
      (∀ r, getTotalStockpileResources (payCost st cost).2 r + costAmt cost r =
        getTotalStockpileResources st r) ∧
      (∀ s ∈ (payCost st cost).2.itemStacks, 0 < s.amount) ∧
      ((payCost st cost).2.itemStacks.filter
          (fun s => s.location == StackLocation.ground) =
        st.itemStacks.filter (fun s => s.location == StackLocation.ground))) ∧
    ((∃ e ∈ cost, getTotalStockpileResources st e.1 < e.2) →
      payCost st cost = (false, st)) := by
  constructor
  · intro hsuff
    have hca : canAfford st cost = true := (canAfford_iff st cost).mpr hsuff
    have hpc : payCost st cost =
        (true, { st with itemStacks := cost.foldl (fun acc e => (drainStacks e.1 acc e.2).filter (fun s => decide (0 < s.amount))) st.itemStacks }) := by
      unfold payCost
      rw [if_neg (by rw [hca]; exact (by decide : ¬((!true) = true)))]
    have hsuff' : ∀ e ∈ cost, e.2 ≤ totalList e.1 st.itemStacks := by
      intro e he
      rw [← getTotal_eq_totalList]
      exact hsuff e he
    obtain ⟨htot, hpos', hground⟩ := payFold_props cost st.itemStacks hnd hsuff' hpos
    refine ⟨by rw [hpc], ?_, ?_, ?_⟩
    · intro r
      rw [hpc, getTotal_eq_totalList, getTotal_eq_totalList]
      exact htot r
    · intro s hs
      rw [hpc] at hs
      exact hpos' s hs
    · rw [hpc]
      exact hground
  · rintro ⟨e, he, hlt⟩
    have hca : canAfford st cost = false := by
      cases h : canAfford st cost
      · rfl
      · exfalso
        have := (canAfford_iff st cost).mp h e he
        omega
    unfold payCost
    rw [if_pos (by rw [hca]; rfl)]

/-- A small concrete state: one wood stack of 3 in the stockpile at (0,0). -/
def ledgerState : SimState :=
  { tiles := openGrid
    colonists := []
    tasks := []
    stockpiles := [(0, 0)]
    itemStacks := [⟨0, ResourceType.wood, 3, StackLocation.stockpile, 0, 0⟩]
    nextTaskId := 0
    nextStackId := 1 }

theorem C5_payCost_atomic_witness :
    (((([(ResourceType.wood, 2)] : List (ResourceType × Nat)).map
        Prod.fst).Nodup) ∧
      (∀ s ∈ ledgerState.itemStacks, 0 < s.amount) ∧
      (∀ e ∈ ([(ResourceType.wood, 2)] : List (ResourceType × Nat)),
        e.2 ≤ getTotalStockpileResources ledgerState e.1) ∧
      ((payCost ledgerState [(ResourceType.wood, 2)]).1 = true ∧
        (∀ r, getTotalStockpileResources
            (payCost ledgerState [(ResourceType.wood, 2)]).2 r +
            costAmt [(ResourceType.wood, 2)] r =
          getTotalStockpileResources ledgerState r) ∧
        (∀ s ∈ (payCost ledgerState [(ResourceType.wood, 2)]).2.itemStacks,
          0 < s.amount) ∧
        ((payCost ledgerState [(ResourceType.wood, 2)]).2.itemStacks.filter
            (fun s => s.location == StackLocation.ground) =
          ledgerState.itemStacks.filter
            (fun s => s.location == StackLocation.ground)))) ∧
    ((∃ e ∈ ([(ResourceType.stone, 5)] : List (ResourceType × Nat)),
        getTotalStockpileResources ledgerState e.1 < e.2) ∧
      payCost ledgerState [(ResourceType.stone, 5)] = (false, ledgerState)) := by
  refine ⟨⟨by decide, ?_, ?_, ?_⟩, ?_, ?_⟩
  · intro s hs
    fin_cases hs <;> decide
  · intro e he
    fin_cases he <;> decide
  · exact (C5_payCost_atomic ledgerState [(ResourceType.wood, 2)] (by decide)
      (by intro s hs; fin_cases hs <;> decide)).1
      (by intro e he; fin_cases he <;> decide)
  · exact ⟨(ResourceType.stone, 5), by decide, by decide⟩
  · exact (C5_payCost_atomic ledgerState [(ResourceType.stone, 5)] (by decide)
      (by intro s hs; fin_cases hs <;> decide)).2
      ⟨(ResourceType.stone, 5), by decide, by decide⟩

end Talos
namespace Talos

/-! ### C8: storage selection (`findAvailableStockpile`) -/

/-- Manhattan distance of a stockpile cell from the query position. -/
def spDist (fromX fromY : Int) (sp : Pos) : Nat :=
  (sp.1 - fromX).natAbs + (sp.2 - fromY).natAbs

/-- The cell's first stockpile stack exists and has the wanted type
(what the scan's `stack.type === resourceType` branch tests). -/
def isMatchCell (st : SimState) (r : ResourceType) (sp : Pos) : Bool :=
  match findStockpileStackAt st sp.1 sp.2 with
  | some s => s.type == r
  | none => false

/-- The cell has no stockpile stack at all. -/
def isEmptyCell (st : SimState) (sp : Pos) : Bool :=
  (findStockpileStackAt st sp.1 sp.2).isNone

/-- The cell holds some stockpile stack of type `t` (the spec's notion of
a storage cell "holding" a resource, independent of stack order). -/
def cellHolds (st : SimState) (sp : Pos) (t : ResourceType) : Bool :=
  st.itemStacks.any (fun s =>
    s.location == StackLocation.stockpile && s.x == sp.1 && s.y == sp.2 &&
      s.type == t)

/-- What a first-minimum tracker of the scan promises about a prefix `l`
of the stockpile list, for cells selected by `p`. -/
def BestFor (fromX fromY : Int) (p : Pos → Bool) (l : List Pos) :
    Option (Pos × Nat) → Prop
  | none => ∀ sp ∈ l, p sp = false
  | some b => b.1 ∈ l ∧ p b.1 = true ∧ b.2 = spDist fromX fromY b.1 ∧
      ∀ sp ∈ l, p sp = true → b.2 ≤ spDist fromX fromY sp

theorem bestFor_extend_not (fromX fromY : Int) (p : Pos → Bool) (l : List Pos)
    (acc : Option (Pos × Nat)) (sp : Pos) (hsp : p sp = false)
    (h : BestFor fromX fromY p l acc) :
    BestFor fromX fromY p (l ++ [sp]) acc := by
  cases acc with
  | none =>
    intro sp' hsp'
    rcases List.mem_append.mp hsp' with hl | hr
    · exact h sp' hl
    · rw [List.mem_singleton.mp hr]; exact hsp
  | some b =>
    obtain ⟨hmem, hp, hd, hmin⟩ := h
    refine ⟨List.mem_append.mpr (Or.inl hmem), hp, hd, ?_⟩
    intro sp' hsp' hp'
    rcases List.mem_append.mp hsp' with hl | hr
    · exact hmin sp' hl hp'
    · rw [List.mem_singleton.mp hr] at hp'
      rw [hsp] at hp'
      cases hp'

theorem bestFor_extend_keep (fromX fromY : Int) (p : Pos → Bool) (l : List Pos)
    (b : Pos × Nat) (sp : Pos)
    (hle : b.2 ≤ spDist fromX fromY sp)
    (h : BestFor fromX fromY p l (some b)) :
    BestFor fromX fromY p (l ++ [sp]) (some b) := by
  obtain ⟨hmem, hp, hd, hmin⟩ := h
  refine ⟨List.mem_append.mpr (Or.inl hmem), hp, hd, ?_⟩
  intro sp' hsp' hp'
  rcases List.mem_append.mp hsp' with hl | hr
  · exact hmin sp' hl hp'
  · rw [List.mem_singleton.mp hr]; exact hle

theorem bestFor_extend_take (fromX fromY : Int) (p : Pos → Bool) (l : List Pos)
    (acc : Option (Pos × Nat)) (sp : Pos) (hsp : p sp = true)
    (hbt : betterThan (spDist fromX fromY sp) acc = true)
    (h : BestFor fromX fromY p l acc) :
    BestFor fromX fromY p (l ++ [sp]) (some (sp, spDist fromX fromY sp)) := by
  refine ⟨List.mem_append.mpr (Or.inr (List.mem_singleton.mpr rfl)), hsp, rfl, ?_⟩
  intro sp' hsp' hp'
  rcases List.mem_append.mp hsp' with hl | hr
  · cases acc with
    | none => rw [h sp' hl] at hp'; cases hp'
    | some b =>
      obtain ⟨-, -, -, hmin⟩ := h
      have hlt : spDist fromX fromY sp < b.2 := by
        simpa [betterThan] using hbt
      exact le_of_lt (lt_of_lt_of_le hlt (hmin sp' hl hp'))
  · rw [List.mem_singleton.mp hr]

theorem scanStep_inv (st : SimState) (r : ResourceType) (fromX fromY : Int)
    (l : List Pos) (acc : Option (Pos × Nat) × Option (Pos × Nat)) (sp : Pos)
    (h1 : BestFor fromX fromY (isMatchCell st r) l acc.1)
    (h2 : BestFor fromX fromY (isEmptyCell st) l acc.2) :
    BestFor fromX fromY (isMatchCell st r) (l ++ [sp])
      (stockpileScanStep st r fromX fromY acc sp).1 ∧
    BestFor fromX fromY (isEmptyCell st) (l ++ [sp])
      (stockpileScanStep st r fromX fromY acc sp).2 := by
  have hdist : ((sp.1 - fromX).natAbs + (sp.2 - fromY).natAbs) =
      spDist fromX fromY sp := rfl
  cases hf : findStockpileStackAt st sp.1 sp.2 with
  | some s =>
    have hne : isEmptyCell st sp = false := by
      simp [isEmptyCell, hf]
    have hmc : isMatchCell st r sp = (s.type == r) := by
      simp [isMatchCell, hf]
    by_cases hc : (s.type == r && betterThan (spDist fromX fromY sp) acc.1) = true
    · have hstep : stockpileScanStep st r fromX fromY acc sp =
          (some (sp, spDist fromX fromY sp), acc.2) := by
        simp only [stockpileScanStep, hf, hdist]
        rw [if_pos hc]
      rw [hstep]
      rw [Bool.and_eq_true] at hc
      obtain ⟨hty, hbt⟩ := hc
      constructor
      · exact bestFor_extend_take fromX fromY _ l acc.1 sp
          (by rw [hmc, hty]) hbt h1
      · exact bestFor_extend_not fromX fromY _ l acc.2 sp hne h2
    · have hstep : stockpileScanStep st r fromX fromY acc sp = acc := by
        simp only [stockpileScanStep, hf, hdist]
        rw [if_neg hc]
      rw [hstep]
      refine ⟨?_, bestFor_extend_not fromX fromY _ l acc.2 sp hne h2⟩
      by_cases hty : (s.type == r) = true
      · have hbt : betterThan (spDist fromX fromY sp) acc.1 = false := by
          cases hb : betterThan (spDist fromX fromY sp) acc.1
          · rfl
          · exact absurd (by rw [Bool.and_eq_true]; exact ⟨hty, hb⟩) hc
        cases hacc : acc.1 with
        | none => rw [hacc] at hbt; simp [betterThan] at hbt
        | some b =>
          rw [hacc] at hbt h1
          have hge : b.2 ≤ spDist fromX fromY sp := by
            have := hbt
            simp only [betterThan, decide_eq_false_iff_not, not_lt] at this
            exact this
          exact bestFor_extend_keep fromX fromY _ l b sp hge h1
      · exact bestFor_extend_not fromX fromY _ l acc.1 sp
          (by rw [hmc]; exact Bool.not_eq_true _ ▸ (by simpa using hty)) h1
  | none =>
    have hne : isEmptyCell st sp = true := by
      simp [isEmptyCell, hf]
    have hmc : isMatchCell st r sp = false := by
      simp [isMatchCell, hf]
    by_cases hc : betterThan (spDist fromX fromY sp) acc.2 = true
    · have hstep : stockpileScanStep st r fromX fromY acc sp =
          (acc.1, some (sp, spDist fromX fromY sp)) := by
        simp only [stockpileScanStep, hf, hdist]
        rw [if_pos hc]
      rw [hstep]
      exact ⟨bestFor_extend_not fromX fromY _ l acc.1 sp hmc h1,
        bestFor_extend_take fromX fromY _ l acc.2 sp hne hc h2⟩
    · have hstep : stockpileScanStep st r fromX fromY acc sp = acc := by
        simp only [stockpileScanStep, hf, hdist]
        rw [if_neg hc]
      rw [hstep]
      refine ⟨bestFor_extend_not fromX fromY _ l acc.1 sp hmc h1, ?_⟩
      cases hacc : acc.2 with
      | none =>
        rw [hacc] at hc; simp [betterThan] at hc
      | some b =>
        rw [hacc] at h2
        have hge : b.2 ≤ spDist fromX fromY sp := by
          rw [hacc] at hc
          simp only [betterThan, decide_eq_true_eq, not_lt] at hc
          omega
        exact bestFor_extend_keep fromX fromY _ l b sp hge h2

theorem scanFold_inv (st : SimState) (r : ResourceType) (fromX fromY : Int)
    (rest : List Pos) :
    ∀ (l : List Pos) (acc : Option (Pos × Nat) × Option (Pos × Nat)),
    BestFor fromX fromY (isMatchCell st r) l acc.1 →
    BestFor fromX fromY (isEmptyCell st) l acc.2 →
    BestFor fromX fromY (isMatchCell st r) (l ++ rest)
      (rest.foldl (stockpileScanStep st r fromX fromY) acc).1 ∧
    BestFor fromX fromY (isEmptyCell st) (l ++ rest)
      (rest.foldl (stockpileScanStep st r fromX fromY) acc).2 := by
  induction rest with
  | nil =>
    intro l acc h1 h2
    simpa using ⟨h1, h2⟩
  | cons a as ih =>
    intro l acc h1 h2
    obtain ⟨h1', h2'⟩ := scanStep_inv st r fromX fromY l acc a h1 h2
    have := ih (l ++ [a]) (stockpileScanStep st r fromX fromY acc a) h1' h2'
    simpa [List.append_assoc] using this

/-- The full characterization of the scan over the whole stockpile list. -/
theorem findAvailableStockpile_spec (st : SimState) (r : ResourceType)
    (fromX fromY : Int) :
    BestFor fromX fromY (isMatchCell st r) st.stockpiles
      (st.stockpiles.foldl (stockpileScanStep st r fromX fromY) (none, none)).1 ∧
    BestFor fromX fromY (isEmptyCell st) st.stockpiles
      (st.stockpiles.foldl (stockpileScanStep st r fromX fromY) (none, none)).2 := by
  have := scanFold_inv st r fromX fromY st.stockpiles [] (none, none)
    (by intro sp h; cases h) (by intro sp h; cases h)
  simpa using this

end Talos
namespace Talos

theorem cellHolds_iff (st : SimState) (sp : Pos) (t : ResourceType) :
    cellHolds st sp t = true ↔ ∃ s ∈ st.itemStacks,
      s.location = StackLocation.stockpile ∧ s.x = sp.1 ∧ s.y = sp.2 ∧
        s.type = t := by
  simp [cellHolds, List.any_eq_true, Bool.and_eq_true, and_assoc]

theorem findStockpileStackAt_eq_none_iff (st : SimState) (x y : Int) :
    findStockpileStackAt st x y = none ↔ ∀ s ∈ st.itemStacks,
      ¬(s.location = StackLocation.stockpile ∧ s.x = x ∧ s.y = y) := by
  simp [findStockpileStackAt, List.find?_eq_none, Bool.and_eq_true, and_assoc,
    not_and]

theorem findStockpileStackAt_mem (st : SimState) (x y : Int) (s : Stack)
    (h : findStockpileStackAt st x y = some s) :
    s ∈ st.itemStacks ∧ s.location = StackLocation.stockpile ∧ s.x = x ∧
      s.y = y := by
  have hm := List.mem_of_find?_eq_some h
  have hp := List.find?_some h
  simp only [Bool.and_eq_true, beq_iff_eq] at hp
  exact ⟨hm, hp.1.1, hp.1.2, hp.2⟩

theorem findStockpileStackAt_isSome (st : SimState) (x y : Int) (s : Stack)
    (hs : s ∈ st.itemStacks) (h1 : s.location = StackLocation.stockpile)
    (h2 : s.x = x) (h3 : s.y = y) :
    ∃ s', findStockpileStackAt st x y = some s' := by
  have : (st.itemStacks.find? (fun s =>
      s.location == StackLocation.stockpile && s.x == x && s.y == y)).isSome :=
    List.find?_isSome.mpr ⟨s, hs, by simp [h1, h2, h3]⟩
  rw [Option.isSome_iff_exists] at this
  exact this

theorem isEmptyCell_iff (st : SimState) (sp : Pos) :
    isEmptyCell st sp = true ↔ ∀ t, cellHolds st sp t = false := by
  constructor
  · intro h t
    rw [isEmptyCell, Option.isNone_iff_eq_none] at h
    rw [findStockpileStackAt_eq_none_iff] at h
    cases hq : cellHolds st sp t
    · rfl
    · obtain ⟨s, hs, hl, hx, hy, -⟩ := (cellHolds_iff st sp t).mp hq
      exact absurd ⟨hl, hx, hy⟩ (h s hs)
  · intro h
    rw [isEmptyCell, Option.isNone_iff_eq_none]
    rw [findStockpileStackAt_eq_none_iff]
    rintro s hs ⟨hl, hx, hy⟩
    have := (cellHolds_iff st sp s.type).mpr ⟨s, hs, hl, hx, hy, rfl⟩
    rw [h s.type] at this
    cases this

theorem isMatchCell_iff (st : SimState) (r : ResourceType) (sp : Pos)
    (hone : ∀ s1 ∈ st.itemStacks, ∀ s2 ∈ st.itemStacks,
      s1.location = StackLocation.stockpile →
      s2.location = StackLocation.stockpile →
      s1.x = s2.x → s1.y = s2.y → s1 = s2) :
    isMatchCell st r sp = true ↔ cellHolds st sp r = true := by
  constructor
  · intro h
    cases hf : findStockpileStackAt st sp.1 sp.2 with
    | none => rw [isMatchCell, hf] at h; cases h
    | some s =>
      rw [isMatchCell, hf, beq_iff_eq] at h
      obtain ⟨hm, hl, hx, hy⟩ := findStockpileStackAt_mem st sp.1 sp.2 s hf
      exact (cellHolds_iff st sp r).mpr ⟨s, hm, hl, hx, hy, h⟩
  · intro h
    obtain ⟨s, hs, hl, hx, hy, ht⟩ := (cellHolds_iff st sp r).mp h
    obtain ⟨s', hf⟩ := findStockpileStackAt_isSome st sp.1 sp.2 s hs hl hx hy
    obtain ⟨hm', hl', hx', hy'⟩ := findStockpileStackAt_mem st sp.1 sp.2 s' hf
    have : s' = s := hone s' hm' s hs hl' hl (hx'.trans hx.symm) (hy'.trans hy.symm)
    rw [isMatchCell, hf, beq_iff_eq, this, ht]

/-- C8: storage selection, amended with the hypothesis that each cell
holds at most one stockpile stack (the scan only inspects the first stack
found at a cell, so with duplicate stacks on one cell a same-type stack
hidden behind another is missed — see the counterexample).  Under that
hypothesis: a returned cell is always a listed stockpile cell that either
holds the wanted type or holds nothing; if some stockpile cell holds the
wanted type, the nearest such cell (by Manhattan distance, first wins
ties) is returned; otherwise if some stockpile cell is empty, the nearest
empty one is returned; otherwise the result is `none`. -/
theorem C8_storage_selection (st : SimState) (r : ResourceType)
    (fromX fromY : Int)
    (hone : ∀ s1 ∈ st.itemStacks, ∀ s2 ∈ st.itemStacks,
      s1.location = StackLocation.stockpile →
      s2.location = StackLocation.stockpile →
      s1.x = s2.x → s1.y = s2.y → s1 = s2) :
    (∀ sp, findAvailableStockpile st r fromX fromY = some sp →
      sp ∈ st.stockpiles ∧
        (cellHolds st sp r = true ∨ ∀ t, cellHolds st sp t = false)) ∧
    ((∃ sp ∈ st.stockpiles, cellHolds st sp r = true) →
      ∃ sp ∈ st.stockpiles, findAvailableStockpile st r fromX fromY = some sp ∧
        cellHolds st sp r = true ∧
        ∀ sp' ∈ st.stockpiles, cellHolds st sp' r = true →
          spDist fromX fromY sp ≤ spDist fromX fromY sp') ∧
    ((∀ sp ∈ st.stockpiles, cellHolds st sp r = false) →
      (∃ sp ∈ st.stockpiles, ∀ t, cellHolds st sp t = false) →
      ∃ sp ∈ st.stockpiles, findAvailableStockpile st r fromX fromY = some sp ∧
        (∀ t, cellHolds st sp t = false) ∧
        ∀ sp' ∈ st.stockpiles, (∀ t, cellHolds st sp' t = false) →
          spDist fromX fromY sp ≤ spDist fromX fromY sp') ∧
    ((∀ sp ∈ st.stockpiles, cellHolds st sp r = false ∧
        ¬(∀ t, cellHolds st sp t = false)) →
      findAvailableStockpile st r fromX fromY = none) := by
  obtain ⟨hm, he⟩ := findAvailableStockpile_spec st r fromX fromY
  have hfa : findAvailableStockpile st r fromX fromY =
      (match (st.stockpiles.foldl (stockpileScanStep st r fromX fromY)
          (none, none)).1 with
        | some bm => some bm.1
        | none =>
          match (st.stockpiles.foldl (stockpileScanStep st r fromX fromY)
              (none, none)).2 with
          | some be => some be.1
          | none => none) := rfl
  refine ⟨?_, ?_, ?_, ?_⟩
  · intro sp hsp
    cases h1 : (st.stockpiles.foldl (stockpileScanStep st r fromX fromY)
        (none, none)).1 with
    | some b =>
      rw [h1] at hfa hm
      rw [hfa] at hsp
      obtain ⟨hmem, hp, -, -⟩ := hm
      cases hsp
      exact ⟨hmem, Or.inl ((isMatchCell_iff st r b.1 hone).mp hp)⟩
    | none =>
      rw [h1] at hfa
      cases h2 : (st.stockpiles.foldl (stockpileScanStep st r fromX fromY)
          (none, none)).2 with
      | some b =>
        rw [h2] at hfa he
        rw [hfa] at hsp
        obtain ⟨hmem, hp, -, -⟩ := he
        cases hsp
        exact ⟨hmem, Or.inr ((isEmptyCell_iff st b.1).mp hp)⟩
      | none =>
        rw [h2] at hfa
        rw [hfa] at hsp
        cases hsp
  · rintro ⟨sp0, hsp0, hhold⟩
    cases h1 : (st.stockpiles.foldl (stockpileScanStep st r fromX fromY)
        (none, none)).1 with
    | none =>
      rw [h1] at hm
      have := hm sp0 hsp0
      rw [(isMatchCell_iff st r sp0 hone).mpr hhold] at this
      cases this
    | some b =>
      rw [h1] at hfa hm
      obtain ⟨hmem, hp, hd, hmin⟩ := hm
      refine ⟨b.1, hmem, hfa, (isMatchCell_iff st r b.1 hone).mp hp, ?_⟩
      intro sp' hsp' hp'
      rw [hd.symm]
      exact hmin sp' hsp' ((isMatchCell_iff st r sp' hone).mpr hp')
  · rintro hnom ⟨sp0, hsp0, hempty⟩
    have h1 : (st.stockpiles.foldl (stockpileScanStep st r fromX fromY)
        (none, none)).1 = none := by
      cases h1 : (st.stockpiles.foldl (stockpileScanStep st r fromX fromY)
          (none, none)).1 with
      | none => rfl
      | some b =>
        rw [h1] at hm
        obtain ⟨hmem, hp, -, -⟩ := hm
        have := hnom b.1 hmem
        rw [(isMatchCell_iff st r b.1 hone).mp hp] at this
        cases this
    rw [h1] at hfa
    cases h2 : (st.stockpiles.foldl (stockpileScanStep st r fromX fromY)
        (none, none)).2 with
    | none =>
      rw [h2] at he
      have := he sp0 hsp0
      rw [(isEmptyCell_iff st sp0).mpr hempty] at this
      cases this
    | some b =>
      rw [h2] at hfa he
      obtain ⟨hmem, hp, hd, hmin⟩ := he
      refine ⟨b.1, hmem, hfa, (isEmptyCell_iff st b.1).mp hp, ?_⟩
      intro sp' hsp' hp'
      rw [hd.symm]
      exact hmin sp' hsp' ((isEmptyCell_iff st sp').mpr hp')
  · intro hall
    have h1 : (st.stockpiles.foldl (stockpileScanStep st r fromX fromY)
        (none, none)).1 = none := by
      cases h1 : (st.stockpiles.foldl (stockpileScanStep st r fromX fromY)
          (none, none)).1 with
      | none => rfl
      | some b =>
        rw [h1] at hm
        obtain ⟨hmem, hp, -, -⟩ := hm
        have := (hall b.1 hmem).1
        rw [(isMatchCell_iff st r b.1 hone).mp hp] at this
        cases this
    have h2 : (st.stockpiles.foldl (stockpileScanStep st r fromX fromY)
        (none, none)).2 = none := by
      cases h2 : (st.stockpiles.foldl (stockpileScanStep st r fromX fromY)
          (none, none)).2 with
      | none => rfl
      | some b =>
        rw [h2] at he
        obtain ⟨hmem, hp, -, -⟩ := he
        exact absurd ((isEmptyCell_iff st b.1).mp hp) (hall b.1 hmem).2
    rw [h1, h2] at hfa
    exact hfa

/-- A state with two stockpile stacks (stone first, wood second) on the
single stockpile cell (0, 0). -/
def mixedStockState : SimState :=
  { tiles := openGrid
    colonists := []
    tasks := []
    stockpiles := [(0, 0)]
    itemStacks := [⟨0, ResourceType.stone, 1, StackLocation.stockpile, 0, 0⟩,
                   ⟨1, ResourceType.wood, 1, StackLocation.stockpile, 0, 0⟩]
    nextTaskId := 0
    nextStackId := 2 }

/-- C8 counterexample: with two stacks on one stockpile cell, the cell
holds a wood stack, yet `findAvailableStockpile` for wood returns `none`
— the scan only sees the first stack at the cell (stone), so the claimed
"nearest same-type cell if any exists" rule fails as stated. -/
theorem C8_storage_selection_cex :
    cellHolds mixedStockState (0, 0) ResourceType.wood = true ∧
    (0, 0) ∈ mixedStockState.stockpiles ∧
    findAvailableStockpile mixedStockState ResourceType.wood 0 0 = none := by
  refine ⟨by decide, by decide, by decide⟩

/-- Stockpile cells: a stone stack at (0,0), an empty cell at (2,0), a
wood stack at (5,0); one stack per cell. -/
def storageState : SimState :=
  { tiles := openGrid
    colonists := []
    tasks := []
    stockpiles := [(0, 0), (2, 0), (5, 0)]
    itemStacks := [⟨0, ResourceType.stone, 2, StackLocation.stockpile, 0, 0⟩,
                   ⟨1, ResourceType.wood, 2, StackLocation.stockpile, 5, 0⟩]
    nextTaskId := 0
    nextStackId := 2 }

theorem C8_storage_selection_witness :
    (∀ s1 ∈ storageState.itemStacks, ∀ s2 ∈ storageState.itemStacks,
      s1.location = StackLocation.stockpile →
      s2.location = StackLocation.stockpile →
      s1.x = s2.x → s1.y = s2.y → s1 = s2) ∧
    (∃ sp ∈ storageState.stockpiles,
      cellHolds storageState sp ResourceType.wood = true) ∧
    (∃ sp ∈ storageState.stockpiles,
      findAvailableStockpile storageState ResourceType.wood 0 0 = some sp ∧
      cellHolds storageState sp ResourceType.wood = true ∧
      ∀ sp' ∈ storageState.stockpiles,
        cellHolds storageState sp' ResourceType.wood = true →
          spDist 0 0 sp ≤ spDist 0 0 sp') :=
  ⟨by decide, by decide,
    (C8_storage_selection storageState ResourceType.wood 0 0 (by decide)).2.1
      (by decide)⟩

end Talos
namespace Talos

/-! ## Task factories and scheduling (tasks.js, colonist.js, the update
loop of the game-systems module)

JS task and colonist objects are aliased mutable records; the embedding
threads an explicit `SimState` and performs the aliased updates by id
(ids are unique in every reachable state, see `SimInv`).  The
module-level `nextTaskId` / `nextStackId` counters are the corresponding
`SimState` fields; a factory mints `st.nextTaskId` and its caller's
wrapper records the increment. -/

def isIdle (c : Colonist) : Bool :=
  c.task.isNone

def isCarrying (c : Colonist) : Bool :=
  c.carrying.isSome

def getColonistTile (c : Colonist) : Pos :=
  pixelToTile c.x c.y

/-- `createGatherTask` (the in-bounds tile read `getTile` is exercised
only after the `isInBounds` guard, where it equals the grid lookup). -/
def createGatherTask (st : SimState) (tileX tileY : Int) : Option Task :=
  if !(isInBounds tileX tileY) then none
  else
    let tile := st.tiles tileX tileY
    if !(isGatherable tile) then none
    else if st.tasks.any (fun t =>
        t.kind == TaskKind.gather && t.x == tileX && t.y == tileY) then none
    else some { id := st.nextTaskId, kind := .gather, x := tileX, y := tileY,
                resource := getResourceType tile }

def createDemolishTask (st : SimState) (tileX tileY : Int) : Option Task :=
  if !(isInBounds tileX tileY) then none
  else
    let tile := st.tiles tileX tileY
    if !(isDemolishable tile) then none
    else if st.tasks.any (fun t =>
        t.kind == TaskKind.demolish && t.x == tileX && t.y == tileY) then none
    else some { id := st.nextTaskId, kind := .demolish, x := tileX, y := tileY }

/-- `createBuildTask`.  The door-over-wall branch mints two ids (demolish
task plus pending follow-up build task) and deducts the cost; the normal
branch mints one.  `payCost` is state-passing, so the function returns
the created task together with the updated state. -/
def createBuildTask (st : SimState) (tileX tileY : Int)
    (buildType : BuildKind) : Option Task × SimState :=
  if !(isInBounds tileX tileY) then (none, st)
  else
    let tile := st.tiles tileX tileY
    if buildType == BuildKind.door && tile == Tile.WALL then
      let pr := payCost st (buildingCost buildType)
      if !pr.1 then (none, st)
      else
        let bt : TaskBase :=
          { id := st.nextTaskId + 1, kind := .build, x := tileX, y := tileY,
            buildType := some buildType, pendingAfterDemolish := true }
        (some { id := st.nextTaskId, kind := .demolish, x := tileX,
                y := tileY, followUpTask := some bt },
         { pr.2 with nextTaskId := st.nextTaskId + 2 })
    else if !(isBuildable tile) then (none, st)
    else
      let pr := payCost st (buildingCost buildType)
      if !pr.1 then (none, st)
      else
        (some { id := st.nextTaskId, kind := .build, x := tileX, y := tileY,
                buildType := some buildType },
         { pr.2 with nextTaskId := st.nextTaskId + 1 })

def createPickupTask (st : SimState) (stack : Stack) : Option Task :=
  if st.tasks.any (fun t =>
      t.kind == TaskKind.pickup && t.stackId == some stack.id) then none
  else some { id := st.nextTaskId, kind := .pickup, x := stack.x,
              y := stack.y, stackId := some stack.id,
              resource := some stack.type }

def createHaulTask (st : SimState) (c : Colonist) : Option Task :=
  match c.carrying with
  | none => none
  | some carry =>
    let ct := getColonistTile c
    match findAvailableStockpile st carry.1 ct.1 ct.2 with
    | none => none
    | some sp =>
      some { id := st.nextTaskId, kind := .haul, x := sp.1, y := sp.2,
             assigned := some c.id }

/-- `removeTask` removes the (unique) queue entry by identity; by-id
removal of the first match is the same operation once ids are unique. -/
def removeTaskById : List Task → Nat → List Task
  | [], _ => []
  | t :: rest, tid => if t.id == tid then rest else t :: removeTaskById rest tid

def removeStackById : List Stack → Nat → List Stack
  | [], _ => []
  | s :: rest, sid => if s.id == sid then rest else s :: removeStackById rest sid

/-- `task.assigned = who` through the queue (aliased object update). -/
def setTaskAssigned (tasks : List Task) (tid : Nat) (who : Option Nat) :
    List Task :=
  tasks.map (fun t => if t.id == tid then { t with assigned := who } else t)

/-- An aliased colonist update by id. -/
def updateCol (cs : List Colonist) (cid : Nat) (f : Colonist → Colonist) :
    List Colonist :=
  cs.map (fun c => if c.id == cid then f c else c)

def findCol (st : SimState) (cid : Nat) : Option Colonist :=
  st.colonists.find? (fun c => c.id == cid)

def clearTaskFields (c : Colonist) : Colonist :=
  { c with task := none, workProgress := 0, path := [], pathIndex := 0,
           targetX := none, targetY := none }

/-- `clearTask(colonist, unassign)` (colonist.js): with `unassign`, the
held task's `assigned` is reset through the queue alias first. -/
def clearTask (st : SimState) (cid : Nat) (unassign : Bool) : SimState :=
  match findCol st cid with
  | none => st
  | some c =>
    let st1 :=
      if unassign then
        match c.task with
        | some t => { st with tasks := setTaskAssigned st.tasks t.id none }
        | none => st
      else st
    { st1 with colonists := updateCol st1.colonists cid clearTaskFields }

/-- `setPath` + `setTarget` on task assignment: store the task, the
route, and the first waypoint's pixel centre. -/
def setPathTarget (c : Colonist) (t : Task) (path : List Pos) : Colonist :=
  match path with
  | [] => c
  | p :: _ =>
    { c with task := some t, path := path, pathIndex := 0,
             targetX := some (tileToPixel p.1 p.2).1,
             targetY := some (tileToPixel p.1 p.2).2 }

def applyCreateGather (st : SimState) (x y : Int) : SimState :=
  match createGatherTask st x y with
  | none => st
  | some t => { st with tasks := st.tasks ++ [t],
                        nextTaskId := st.nextTaskId + 1 }

def applyCreateDemolish (st : SimState) (x y : Int) : SimState :=
  match createDemolishTask st x y with
  | none => st
  | some t => { st with tasks := st.tasks ++ [t],
                        nextTaskId := st.nextTaskId + 1 }

def applyCreateBuild (st : SimState) (x y : Int) (b : BuildKind) : SimState :=
  match createBuildTask st x y b with
  | (none, st') => st'
  | (some t, st') => { st' with tasks := st'.tasks ++ [t] }

def applyCreatePickup (st : SimState) (s : Stack) : SimState :=
  match createPickupTask st s with
  | none => st
  | some t => { st with tasks := st.tasks ++ [t],
                        nextTaskId := st.nextTaskId + 1 }

/-- Phase 1 of `assignTasks`: synthesize pickup tasks for unhauled ground
stacks that have an available stockpile. -/
def pickupSynthStep (st : SimState) (stack : Stack) : SimState :=
  if st.tasks.any (fun t =>
      t.kind == TaskKind.pickup && t.stackId == some stack.id) then st
  else
    match findAvailableStockpile st stack.type stack.x stack.y with
    | none => st
    | some _ => applyCreatePickup st stack

def pickupSynthesis (st : SimState) : SimState :=
  (getGroundStacks st).foldl pickupSynthStep st

/-- The work-position / direct target of a task for a colonist standing
at `ct` (pickup goes to the stack cell, everything else to a work
position adjacent to the target). -/
def taskTarget (st : SimState) (ct : Pos) (t : Task) : Option Pos :=
  if t.kind == TaskKind.pickup then some (t.x, t.y)
  else findWorkPosition st.tiles t.x t.y ct.1 ct.2

/-- Phase 2's inner loop: the first unassigned task with a resolvable
work position and a non-empty path, with that path. -/
def scanTasks (st : SimState) (ct : Pos) : List Task → Option (Task × List Pos)
  | [] => none
  | t :: rest =>
    if t.assigned == none then
      match taskTarget st ct t with
      | none => scanTasks st ct rest
      | some tgt =>
        match findPath st.tiles ct.1 ct.2 tgt.1 tgt.2 with
        | none => scanTasks st ct rest
        | some path =>
          if path.isEmpty then scanTasks st ct rest else some (t, path)
    else scanTasks st ct rest

/-- One colonist's turn in phase 2 of `assignTasks`: carrying colonists
get a freshly minted haul task (the id is consumed even when pathfinding
then fails); idle ones claim the first viable queue task. -/
def colonistAssignStep (st : SimState) (c0 : Colonist) : SimState :=
  if !(isIdle c0) then st
  else if isCarrying c0 then
    match createHaulTask st c0 with
    | none => st
    | some ht =>
      let st1 := { st with nextTaskId := st.nextTaskId + 1 }
      let ct := getColonistTile c0
      match findPath st1.tiles ct.1 ct.2 ht.x ht.y with
      | none => st1
      | some path =>
        if path.isEmpty then st1
        else
          let cs := updateCol st1.colonists c0.id (fun c => setPathTarget c ht path)
          { st1 with colonists := cs }
  else
    match scanTasks st (getColonistTile c0) st.tasks with
    | none => st
    | some (t, path) =>
      let cs := updateCol st.colonists c0.id (fun c => setPathTarget c { t with assigned := some c0.id } path)
      { st with tasks := setTaskAssigned st.tasks t.id (some c0.id), colonists := cs }

/-- `assignTasks`: pickup synthesis, then the colonist loop (the JS
`for…of` iterates the colonist array as it stood at loop entry; only a
colonist's own turn mutates that colonist, and the task effects are
threaded through the state). -/
def assignTasks (st : SimState) : SimState :=
  let st1 := pickupSynthesis st
  st1.colonists.foldl colonistAssignStep st1

/-- `updateColonistMovement`.  JS positions are floats; colonists spawn
at tile centres and all scheduler-produced waypoint steps are
axis-aligned, so positions stay integral and `(dx / dist) * speed` is
the exact integer step whenever `dist > speed`; the embedding's integer
square root and division agree with the float computation on every state
the game produces. -/
def updateColonistMovement (st : SimState) (cid : Nat) : SimState :=
  match findCol st cid with
  | none => st
  | some c =>
    match c.targetX, c.targetY with
    | some tx, some ty =>
      let tt := pixelToTile tx ty
      if !(isWalkable st.tiles tt.1 tt.2) then clearTask st cid true
      else
        let dx := tx - c.x
        let dy := ty - c.y
        let dist := Nat.sqrt (dx * dx + dy * dy).toNat
        if colonistSpeed < (dist : Int) then
          let nx := c.x + dx * colonistSpeed / (dist : Int)
          let ny := c.y + dy * colonistSpeed / (dist : Int)
          let nt := pixelToTile nx ny
          let ct := pixelToTile c.x c.y
          if (nt.1 == ct.1 && nt.2 == ct.2) ||
              isWalkable st.tiles nt.1 nt.2 then
            let cs := updateCol st.colonists cid (fun c' => { c' with x := nx, y := ny })
            { st with colonists := cs }
          else clearTask st cid true
        else
          let csSnap := updateCol st.colonists cid (fun c' => { c' with x := tx, y := ty })
          let stSnap := { st with colonists := csSnap }
          if c.pathIndex + 1 < c.path.length then
            match c.path.get? (c.pathIndex + 1) with
            | some wp =>
              if isWalkable st.tiles wp.1 wp.2 then
                let adv := fun (c' : Colonist) =>
                  { c' with pathIndex := c.pathIndex + 1,
                            targetX := some (tileToPixel wp.1 wp.2).1,
                            targetY := some (tileToPixel wp.1 wp.2).2 }
                { stSnap with colonists := updateCol stSnap.colonists cid adv }
              else clearTask stSnap cid true
            | none => stSnap
          else stSnap
    | _, _ => st

/-- A work tick (`processXxxWork` below the completion threshold). -/
def applyWorkTick (st : SimState) (cid : Nat) : SimState :=
  match findCol st cid with
  | none => st
  | some c =>
    if c.task.isSome then
      let cs := updateCol st.colonists cid (fun c' => { c' with workProgress := c'.workProgress + 1 })
      { st with colonists := cs }
    else st

/-- Wandering / free movement summarized: any rewrite of a colonist's
position, route and wander flag that leaves task, carrying and work
progress alone (over-approximates `maybeStartWandering` and the
unblocked movement branches). -/
def applyColMutate (st : SimState) (cid : Nat) (x y : Int) (path : List Pos)
    (pIdx : Nat) (tx ty : Option Int) (w : Bool) : SimState :=
  let f := fun (c : Colonist) =>
    { c with x := x, y := y, path := path, pathIndex := pIdx,
             targetX := tx, targetY := ty, wandering := w }
  { st with colonists := updateCol st.colonists cid f }

/-- `completeGather`: drop a 1-unit ground stack at the tile, deplete the
tile, remove the task, reset the colonist.  A gather task always carries
its resource (set at creation); the `none` branch is unreachable. -/
def completeGather (st : SimState) (cid : Nat) : SimState :=
  match findCol st cid with
  | none => st
  | some c =>
    match c.task with
    | none => st
    | some t =>
      if t.kind == TaskKind.gather then
        match t.resource with
        | none => st
        | some r =>
          let stack : Stack :=
            { id := st.nextStackId, type := r, amount := 1,
              location := .ground, x := t.x, y := t.y }
          let st1 := { st with
            itemStacks := st.itemStacks ++ [stack],
            nextStackId := st.nextStackId + 1,
            tiles := setTileG st.tiles t.x t.y (getDepletedTile (st.tiles t.x t.y)) }
          let st2 := { st1 with tasks := removeTaskById st1.tasks t.id }
          clearTask st2 cid false
      else st

/-- `completePickup`: pick the stack up (if it still exists), remove the
task, reset the colonist. -/
def completePickup (st : SimState) (cid : Nat) : SimState :=
  match findCol st cid with
  | none => st
  | some c =>
    match c.task with
    | none => st
    | some t =>
      if t.kind == TaskKind.pickup then
        let st1 :=
          match st.itemStacks.find? (fun s => t.stackId == some s.id) with
          | some stack =>
            let pick := fun (c' : Colonist) =>
              { c' with carrying := some (stack.type, stack.amount),
                        carryingStackId := some stack.id }
            { st with
              colonists := updateCol st.colonists cid pick,
              itemStacks := removeStackById st.itemStacks stack.id }
          | none => st
        let st2 := { st1 with tasks := removeTaskById st1.tasks t.id }
        clearTask st2 cid false
      else st

/-- `completeHaul`: deposit into the existing stack at the stockpile cell
or mint a new one; only the colonist is reset (haul tasks are not queue
entries, so there is no `removeTask`). -/
def completeHaul (st : SimState) (cid : Nat) : SimState :=
  match findCol st cid with
  | none => st
  | some c =>
    match c.task with
    | none => st
    | some t =>
      if t.kind == TaskKind.haul then
        let st1 :=
          match c.carrying with
          | none => st
          | some carry =>
            let st' :=
              match findStockpileStackAt st t.x t.y with
              | some es =>
                let dep := fun (s : Stack) =>
                  if s.id == es.id then { s with amount := s.amount + carry.2 } else s
                { st with itemStacks := st.itemStacks.map dep }
              | none =>
                let stack : Stack :=
                  { id := st.nextStackId, type := carry.1, amount := carry.2,
                    location := .stockpile, x := t.x, y := t.y }
                { st with
                  itemStacks := st.itemStacks ++ [stack],
                  nextStackId := st.nextStackId + 1 }
            let drop := fun (c' : Colonist) =>
              { c' with carrying := none, carryingStackId := none }
            { st' with colonists := updateCol st'.colonists cid drop }
        clearTask st1 cid false
      else st

/-- `completeDemolish`: rubble the tile, enqueue the follow-up task if
present, remove the task, reset the colonist (`detectRooms` only
rewrites `state.rooms`, which is outside `SimState`). -/
def completeDemolish (st : SimState) (cid : Nat) : SimState :=
  match findCol st cid with
  | none => st
  | some c =>
    match c.task with
    | none => st
    | some t =>
      if t.kind == TaskKind.demolish then
        let st1 := { st with tiles := setTileG st.tiles t.x t.y Tile.RUBBLE }
        let st2 :=
          match t.followUpTask with
          | some bt => { st1 with tasks := st1.tasks ++ [({ toTaskBase := bt } : Task)] }
          | none => st1
        let st3 := { st2 with tasks := removeTaskById st2.tasks t.id }
        clearTask st3 cid false
      else st

/-- `completeBuild`: place the building tile, register new stockpile
cells, remove the task, reset the colonist. -/
def completeBuild (st : SimState) (cid : Nat) : SimState :=
  match findCol st cid with
  | none => st
  | some c =>
    match c.task with
    | none => st
    | some t =>
      if t.kind == TaskKind.build then
        let st1 :=
          match t.buildType with
          | none => st
          | some b =>
            let st' := { st with tiles := setTileG st.tiles t.x t.y (buildingTile b) }
            if b == BuildKind.stockpile then
              { st' with stockpiles := st'.stockpiles ++ [(t.x, t.y)] }
            else st'
        let st2 := { st1 with tasks := removeTaskById st1.tasks t.id }
        clearTask st2 cid false
      else st

/-- One simulation step: a UI task creation, an `assignTasks` pass, or a
per-colonist movement / work / release / completion event.  Completion
events fire whenever the colonist holds a task of the right kind — an
over-approximation of the work-progress and adjacency gates, so every
behaviour of the game is a behaviour of this relation. -/
inductive Step : SimState → SimState → Prop where
  | createGather (st : SimState) (x y : Int) :
      Step st (applyCreateGather st x y)
  | createDemolish (st : SimState) (x y : Int) :
      Step st (applyCreateDemolish st x y)
  | createBuild (st : SimState) (x y : Int) (b : BuildKind) :
      Step st (applyCreateBuild st x y b)
  | createPickup (st : SimState) (s : Stack) :
      Step st (applyCreatePickup st s)
  | assign (st : SimState) : Step st (assignTasks st)
  | move (st : SimState) (cid : Nat) :
      Step st (updateColonistMovement st cid)
  | mutate (st : SimState) (cid : Nat) (x y : Int) (path : List Pos)
      (pIdx : Nat) (tx ty : Option Int) (w : Bool) :
      Step st (applyColMutate st cid x y path pIdx tx ty w)
  | workTick (st : SimState) (cid : Nat) : Step st (applyWorkTick st cid)
  | release (st : SimState) (cid : Nat) : Step st (clearTask st cid true)
  | finishGather (st : SimState) (cid : Nat) : Step st (completeGather st cid)
  | finishPickup (st : SimState) (cid : Nat) : Step st (completePickup st cid)
  | finishHaul (st : SimState) (cid : Nat) : Step st (completeHaul st cid)
  | finishBuild (st : SimState) (cid : Nat) : Step st (completeBuild st cid)
  | finishDemolish (st : SimState) (cid : Nat) :
      Step st (completeDemolish st cid)

/-- `createState` plus colonist spawning: empty queues and ledgers, fresh
counters, distinct colonist ids, everyone idle and empty-handed. -/
def Init (st : SimState) : Prop :=
  st.tasks = [] ∧ st.itemStacks = [] ∧ st.stockpiles = [] ∧
  (st.colonists.map Colonist.id).Nodup ∧
  (∀ c ∈ st.colonists, c.task = none ∧ c.carrying = none) ∧
  st.nextTaskId = 0 ∧ st.nextStackId = 0

def ReachableSim (st : SimState) : Prop :=
  ∃ st0, Init st0 ∧ Relation.ReflTransGen Step st0 st

end Talos
namespace Talos

/-! ## Task-system invariants

`TaskInv` packages what the scheduler maintains about the task queue,
the colonists and the id counter; `SimInv` is its instantiation at a
state.  The queue-id bookkeeping counts queue entries (`taskIds`) and
the ids of pending follow-up tasks stored inside queue entries
(`followIds`). -/

def taskIds (l : List Task) : List Nat := l.map (fun t => t.id)

def followIds (l : List Task) : List Nat :=
  l.filterMap (fun t => t.followUpTask.map TaskBase.id)

theorem mem_taskIds {l : List Task} {i : Nat} :
    i ∈ taskIds l ↔ ∃ t ∈ l, t.id = i := by
  simp [taskIds]

theorem mem_followIds {l : List Task} {i : Nat} :
    i ∈ followIds l ↔ ∃ t ∈ l, ∃ bt, t.followUpTask = some bt ∧ bt.id = i := by
  constructor
  · intro h
    obtain ⟨t, hmem, hg⟩ := List.mem_filterMap.mp h
    obtain ⟨bt, hbt, hid⟩ := Option.map_eq_some'.mp hg
    exact ⟨t, hmem, bt, hbt, hid⟩
  · rintro ⟨t, hmem, bt, hbt, hid⟩
    exact List.mem_filterMap.mpr ⟨t, hmem, by rw [hbt]; simpa using hid⟩

theorem taskIds_append (l l' : List Task) :
    taskIds (l ++ l') = taskIds l ++ taskIds l' := by
  simp [taskIds]

theorem followIds_append (l l' : List Task) :
    followIds (l ++ l') = followIds l ++ followIds l' := by
  simp [followIds]

theorem taskIds_cons (t : Task) (l : List Task) :
    taskIds (t :: l) = t.id :: taskIds l := rfl

/-- Two list entries mapped by `g` to the same `some` value are the same
entry when the `filterMap` image has no duplicates. -/
theorem nodup_filterMap_inj {α β : Type} {g : α → Option β} :
    ∀ {l : List α}, (l.filterMap g).Nodup →
      ∀ a ∈ l, ∀ b ∈ l, ∀ v, g a = some v → g b = some v → a = b := by
  intro l
  induction l with
  | nil => intro _ a ha; cases ha
  | cons x xs ih =>
    intro hnd a ha b hb v hga hgb
    have htail : (xs.filterMap g).Nodup := by
      rcases hx : g x with - | w
      · rwa [List.filterMap_cons_none hx] at hnd
      · rw [List.filterMap_cons_some hx] at hnd
        exact hnd.of_cons
    rcases List.mem_cons.mp ha with rfl | ha' <;>
      rcases List.mem_cons.mp hb with rfl | hb'
    · rfl
    · exfalso
      rw [List.filterMap_cons_some hga] at hnd
      exact (List.nodup_cons.mp hnd).1
        (List.mem_filterMap.mpr ⟨b, hb', hgb⟩)
    · exfalso
      rw [List.filterMap_cons_some hgb] at hnd
      exact (List.nodup_cons.mp hnd).1
        (List.mem_filterMap.mpr ⟨a, ha', hga⟩)
    · exact ih htail a ha' b hb' v hga hgb

/-- Two list entries with the same image are the same entry when the
mapped list has no duplicates. -/
theorem nodup_map_inj {α β : Type} {f : α → β} {l : List α}
    (h : (l.map f).Nodup) :
    ∀ a ∈ l, ∀ b ∈ l, f a = f b → a = b := by
  intro a ha b hb hab
  have hfm : l.filterMap (fun x => some (f x)) = l.map f := by
    rw [show (fun x => some (f x)) = some ∘ f from rfl, List.filterMap_eq_map]
  have hn : (l.filterMap (fun x => some (f x))).Nodup := by rw [hfm]; exact h
  exact nodup_filterMap_inj hn a ha b hb (f a) rfl (by rw [hab])

theorem removeTaskById_sublist (l : List Task) (tid : Nat) :
    List.Sublist (removeTaskById l tid) l := by
  induction l with
  | nil => simp [removeTaskById]
  | cons t rest ih =>
    rw [removeTaskById]
    by_cases h : (t.id == tid) = true
    · rw [if_pos h]
      exact List.sublist_cons_self t rest
    · rw [if_neg h]
      exact List.Sublist.cons₂ t ih

theorem removeTaskById_eq_of_forall (l : List Task) (tid : Nat)
    (h : ∀ t ∈ l, t.id ≠ tid) : removeTaskById l tid = l := by
  induction l with
  | nil => rfl
  | cons t rest ih =>
    rw [removeTaskById, if_neg (by simpa using h t (List.mem_cons_self t rest)),
      ih (fun u hu => h u (List.mem_cons_of_mem t hu))]

/-- Removing the id of a unique-id queue entry removes exactly that
entry. -/
theorem removeTaskById_split (l : List Task) (t : Task)
    (hmem : t ∈ l) (hnd : (taskIds l).Nodup) :
    ∃ l1 l2, l = l1 ++ t :: l2 ∧ removeTaskById l t.id = l1 ++ l2 ∧
      ∀ u ∈ l1, u.id ≠ t.id := by
  induction l with
  | nil => cases hmem
  | cons a rest ih =>
    rw [taskIds_cons, List.nodup_cons] at hnd
    by_cases ha : a = t
    · subst ha
      refine ⟨[], rest, (List.nil_append (a :: rest)).symm, ?_, by intro u hu; cases hu⟩
      rw [removeTaskById, if_pos (by simp)]
      exact (List.nil_append rest).symm
    · have hmem' : t ∈ rest := by
        rcases List.mem_cons.mp hmem with h | h
        · exact absurd h.symm ha
        · exact h
      have hane : a.id ≠ t.id := by
        intro he
        exact hnd.1 (he ▸ mem_taskIds.mpr ⟨t, hmem', rfl⟩)
      obtain ⟨l1, l2, heq, hrm, hl1⟩ := ih hmem' hnd.2
      refine ⟨a :: l1, l2, by rw [heq]; rfl, ?_, ?_⟩
      · rw [removeTaskById, if_neg (by simpa using hane), hrm]
        exact (List.cons_append a l1 l2).symm
      · intro u hu
        rcases List.mem_cons.mp hu with rfl | hu'
        · exact hane
        · exact hl1 u hu'

theorem removeTaskById_append_left (l l' : List Task) (tid : Nat)
    (h : ∃ u ∈ l, u.id = tid) :
    removeTaskById (l ++ l') tid = removeTaskById l tid ++ l' := by
  induction l with
  | nil =>
    obtain ⟨u, hu, -⟩ := h
    cases hu
  | cons a rest ih =>
    by_cases ha : (a.id == tid) = true
    · rw [List.cons_append, removeTaskById, if_pos ha, removeTaskById,
        if_pos ha]
    · have h' : ∃ u ∈ rest, u.id = tid := by
        obtain ⟨u, hu, he⟩ := h
        rcases List.mem_cons.mp hu with rfl | hu'
        · exact absurd (by simpa using he) ha
        · exact ⟨u, hu', he⟩
      rw [List.cons_append, removeTaskById, if_neg ha, removeTaskById,
        if_neg ha, ih h', List.cons_append]

/-- The Prop-level shape of `setTaskAssigned`'s per-entry update. -/
theorem setTaskAssigned_entry (t : Task) (tid : Nat) (w : Option Nat) :
    (if t.id == tid then { t with assigned := w } else t) =
      (if t.id = tid then { t with assigned := w } else t) := by
  by_cases h : t.id = tid
  · rw [if_pos h, if_pos (by simpa using h)]
  · rw [if_neg h, if_neg (by simpa using h)]

theorem mem_setTaskAssigned_iff {u : Task} {l : List Task} {tid : Nat}
    {w : Option Nat} :
    u ∈ setTaskAssigned l tid w ↔
      ∃ t ∈ l, u = (if t.id = tid then { t with assigned := w } else t) := by
  unfold setTaskAssigned
  rw [List.mem_map]
  constructor
  · rintro ⟨t, hmem, rfl⟩
    exact ⟨t, hmem, setTaskAssigned_entry t tid w⟩
  · rintro ⟨t, hmem, rfl⟩
    exact ⟨t, hmem, setTaskAssigned_entry t tid w⟩

theorem setTaskAssigned_mem_of_ne {l : List Task} {t : Task} {tid : Nat}
    {w : Option Nat} (hmem : t ∈ l) (hne : t.id ≠ tid) :
    t ∈ setTaskAssigned l tid w :=
  mem_setTaskAssigned_iff.mpr ⟨t, hmem, by rw [if_neg hne]⟩

theorem setTaskAssigned_mem_self {l : List Task} {t : Task} {w : Option Nat}
    (hmem : t ∈ l) :
    { t with assigned := w } ∈ setTaskAssigned l t.id w :=
  mem_setTaskAssigned_iff.mpr ⟨t, hmem, by rw [if_pos rfl]⟩

theorem taskIds_setTaskAssigned (l : List Task) (tid : Nat) (w : Option Nat) :
    taskIds (setTaskAssigned l tid w) = taskIds l := by
  unfold taskIds setTaskAssigned
  rw [List.map_map]
  apply List.map_congr_left
  intro t _
  by_cases h : (t.id == tid) = true
  · simp only [Function.comp_apply, if_pos h]
  · simp only [Function.comp_apply, if_neg h]

theorem followIds_setTaskAssigned (l : List Task) (tid : Nat)
    (w : Option Nat) :
    followIds (setTaskAssigned l tid w) = followIds l := by
  unfold followIds setTaskAssigned
  rw [List.filterMap_map]
  apply List.filterMap_congr
  intro t _
  by_cases h : (t.id == tid) = true
  · simp only [Function.comp_apply, if_pos h]
  · simp only [Function.comp_apply, if_neg h]

theorem setTaskAssigned_eq_of_forall (l : List Task) (tid : Nat)
    (w : Option Nat) (h : ∀ t ∈ l, t.id ≠ tid) :
    setTaskAssigned l tid w = l := by
  unfold setTaskAssigned
  conv_rhs => rw [← List.map_id l]
  apply List.map_congr_left
  intro t ht
  rw [if_neg (by simpa using h t ht)]
  rfl

theorem mem_updateCol_iff {c' : Colonist} {cs : List Colonist} {cid : Nat}
    {f : Colonist → Colonist} :
    c' ∈ updateCol cs cid f ↔
      ∃ c ∈ cs, c' = (if c.id = cid then f c else c) := by
  unfold updateCol
  rw [List.mem_map]
  constructor
  · rintro ⟨c, hmem, rfl⟩
    refine ⟨c, hmem, ?_⟩
    by_cases h : c.id = cid
    · rw [if_pos h, if_pos (by simpa using h)]
    · rw [if_neg h, if_neg (by simpa using h)]
  · rintro ⟨c, hmem, rfl⟩
    refine ⟨c, hmem, ?_⟩
    by_cases h : c.id = cid
    · rw [if_pos h, if_pos (by simpa using h)]
    · rw [if_neg h, if_neg (by simpa using h)]

theorem updateCol_ids (cs : List Colonist) (cid : Nat)
    (f : Colonist → Colonist) (hf : ∀ c, (f c).id = c.id) :
    (updateCol cs cid f).map Colonist.id = cs.map Colonist.id := by
  unfold updateCol
  rw [List.map_map]
  apply List.map_congr_left
  intro c _
  by_cases h : (c.id == cid) = true
  · simp only [Function.comp_apply, if_pos h, hf]
  · simp only [Function.comp_apply, if_neg h]

theorem findCol_mem {st : SimState} {cid : Nat} {c : Colonist}
    (h : findCol st cid = some c) : c ∈ st.colonists ∧ c.id = cid := by
  refine ⟨List.mem_of_find?_eq_some h, ?_⟩
  have := List.find?_some h
  simpa using this

end Talos
namespace Talos

/-- What the scheduler maintains: unique colonist ids; unique, bounded
task and pending-follow-up ids; held tasks recorded coherently in the
queue (hauls never in the queue, carrying their assignee and no
follow-up); well-shaped follow-ups; and per-cell / per-stack uniqueness
of gather and pickup tasks. -/
structure TaskInv (tasks : List Task) (cols : List Colonist) (nid : Nat) :
    Prop where
  colNodup : (cols.map Colonist.id).Nodup
  qfNodup : (taskIds tasks ++ followIds tasks).Nodup
  qfLt : ∀ i ∈ taskIds tasks ++ followIds tasks, i < nid
  heldLt : ∀ c ∈ cols, ∀ t : Task, c.task = some t → t.id < nid
  heldQueue : ∀ c ∈ cols, ∀ t : Task, c.task = some t →
    t.kind ≠ TaskKind.haul → t ∈ tasks ∧ t.assigned = some c.id
  heldHaul : ∀ c ∈ cols, ∀ t : Task, c.task = some t →
    t.kind = TaskKind.haul → t.assigned = some c.id ∧
      t.followUpTask = none ∧ t.id ∉ taskIds tasks ++ followIds tasks
  haulDistinct : ∀ c1 ∈ cols, ∀ c2 ∈ cols, ∀ t1 t2 : Task,
    c1.task = some t1 → c2.task = some t2 → t1.kind = TaskKind.haul →
    t2.kind = TaskKind.haul → t1.id = t2.id → c1 = c2
  noHaulQ : ∀ t ∈ tasks, t.kind ≠ TaskKind.haul
  followShape : ∀ t ∈ tasks, ∀ bt : TaskBase, t.followUpTask = some bt →
    t.kind = TaskKind.demolish ∧ bt.kind = TaskKind.build ∧
      bt.assigned = none ∧ bt.pendingAfterDemolish = true
  gatherUnique : ∀ t1 ∈ tasks, ∀ t2 ∈ tasks, t1.kind = TaskKind.gather →
    t2.kind = TaskKind.gather → t1.x = t2.x → t1.y = t2.y → t1 = t2
  pickupUnique : ∀ t1 ∈ tasks, ∀ t2 ∈ tasks, t1.kind = TaskKind.pickup →
    t2.kind = TaskKind.pickup → t1.stackId = t2.stackId → t1 = t2

def SimInv (st : SimState) : Prop :=
  TaskInv st.tasks st.colonists st.nextTaskId

theorem updateEntry_id (cid : Nat) (f : Colonist → Colonist)
    (hid : ∀ c, (f c).id = c.id) (c : Colonist) :
    (if c.id = cid then f c else c).id = c.id := by
  by_cases h : c.id = cid
  · rw [if_pos h, hid]
  · rw [if_neg h]

theorem updateEntry_task (cid : Nat) (f : Colonist → Colonist)
    (htask : ∀ c, (f c).task = c.task) (c : Colonist) :
    (if c.id = cid then f c else c).task = c.task := by
  by_cases h : c.id = cid
  · rw [if_pos h, htask]
  · rw [if_neg h]

theorem clearTaskFields_id (c : Colonist) : (clearTaskFields c).id = c.id := rfl

theorem clearTaskFields_task (c : Colonist) :
    (clearTaskFields c).task = none := rfl

theorem TaskInv.mono {tasks : List Task} {cols : List Colonist}
    {nid nid' : Nat} (h : TaskInv tasks cols nid) (hle : nid ≤ nid') :
    TaskInv tasks cols nid' where
  colNodup := h.colNodup
  qfNodup := h.qfNodup
  qfLt := fun i hi => lt_of_lt_of_le (h.qfLt i hi) hle
  heldLt := fun c hc t ht => lt_of_lt_of_le (h.heldLt c hc t ht) hle
  heldQueue := h.heldQueue
  heldHaul := h.heldHaul
  haulDistinct := h.haulDistinct
  noHaulQ := h.noHaulQ
  followShape := h.followShape
  gatherUnique := h.gatherUnique
  pickupUnique := h.pickupUnique

/-- A colonist update that leaves ids and held tasks alone preserves the
invariant (movement, wandering, work-progress and carrying updates). -/
theorem TaskInv.colupdate {tasks : List Task} {cols : List Colonist}
    {nid : Nat} (h : TaskInv tasks cols nid) (cid : Nat)
    (f : Colonist → Colonist) (hid : ∀ c, (f c).id = c.id)
    (htask : ∀ c, (f c).task = c.task) :
    TaskInv tasks (updateCol cols cid f) nid where
  colNodup := by
    rw [updateCol_ids cols cid f hid]
    exact h.colNodup
  qfNodup := h.qfNodup
  qfLt := h.qfLt
  heldLt := by
    intro c' hc' t ht
    obtain ⟨c, hc, rfl⟩ := mem_updateCol_iff.mp hc'
    rw [updateEntry_task cid f htask] at ht
    exact h.heldLt c hc t ht
  heldQueue := by
    intro c' hc' t ht hk
    obtain ⟨c, hc, rfl⟩ := mem_updateCol_iff.mp hc'
    rw [updateEntry_task cid f htask] at ht
    rw [updateEntry_id cid f hid]
    exact h.heldQueue c hc t ht hk
  heldHaul := by
    intro c' hc' t ht hk
    obtain ⟨c, hc, rfl⟩ := mem_updateCol_iff.mp hc'
    rw [updateEntry_task cid f htask] at ht
    rw [updateEntry_id cid f hid]
    exact h.heldHaul c hc t ht hk
  haulDistinct := by
    intro c1' hc1' c2' hc2' t1 t2 h1 h2 k1 k2 he
    obtain ⟨c1, hc1, rfl⟩ := mem_updateCol_iff.mp hc1'
    obtain ⟨c2, hc2, rfl⟩ := mem_updateCol_iff.mp hc2'
    rw [updateEntry_task cid f htask] at h1
    rw [updateEntry_task cid f htask] at h2
    rw [h.haulDistinct c1 hc1 c2 hc2 t1 t2 h1 h2 k1 k2 he]
  noHaulQ := h.noHaulQ
  followShape := h.followShape
  gatherUnique := h.gatherUnique
  pickupUnique := h.pickupUnique

theorem clearEntry_task (cid : Nat) (c : Colonist) :
    (if c.id = cid then clearTaskFields c else c).task =
      (if c.id = cid then none else c.task) := by
  by_cases h : c.id = cid
  · rw [if_pos h, if_pos h, clearTaskFields_task]
  · rw [if_neg h, if_neg h]

/-- Clearing one colonist's task state (without a queue change)
preserves the invariant. -/
theorem TaskInv.clearcol {tasks : List Task} {cols : List Colonist}
    {nid : Nat} (h : TaskInv tasks cols nid) (cid : Nat) :
    TaskInv tasks (updateCol cols cid clearTaskFields) nid where
  colNodup := by
    rw [updateCol_ids cols cid clearTaskFields clearTaskFields_id]
    exact h.colNodup
  qfNodup := h.qfNodup
  qfLt := h.qfLt
  heldLt := by
    intro c' hc' t ht
    obtain ⟨c, hc, rfl⟩ := mem_updateCol_iff.mp hc'
    rw [clearEntry_task] at ht
    by_cases hcc : c.id = cid
    · rw [if_pos hcc] at ht; cases ht
    · rw [if_neg hcc] at ht
      exact h.heldLt c hc t ht
  heldQueue := by
    intro c' hc' t ht hk
    obtain ⟨c, hc, rfl⟩ := mem_updateCol_iff.mp hc'
    rw [clearEntry_task] at ht
    by_cases hcc : c.id = cid
    · rw [if_pos hcc] at ht; cases ht
    · rw [if_neg hcc] at ht
      rw [updateEntry_id cid clearTaskFields clearTaskFields_id]
      exact h.heldQueue c hc t ht hk
  heldHaul := by
    intro c' hc' t ht hk
    obtain ⟨c, hc, rfl⟩ := mem_updateCol_iff.mp hc'
    rw [clearEntry_task] at ht
    by_cases hcc : c.id = cid
    · rw [if_pos hcc] at ht; cases ht
    · rw [if_neg hcc] at ht
      rw [updateEntry_id cid clearTaskFields clearTaskFields_id]
      exact h.heldHaul c hc t ht hk
  haulDistinct := by
    intro c1' hc1' c2' hc2' t1 t2 h1 h2 k1 k2 he
    obtain ⟨c1, hc1, rfl⟩ := mem_updateCol_iff.mp hc1'
    obtain ⟨c2, hc2, rfl⟩ := mem_updateCol_iff.mp hc2'
    rw [clearEntry_task] at h1
    rw [clearEntry_task] at h2
    by_cases hc1c : c1.id = cid
    · rw [if_pos hc1c] at h1; cases h1
    · rw [if_neg hc1c] at h1
      by_cases hc2c : c2.id = cid
      · rw [if_pos hc2c] at h2; cases h2
      · rw [if_neg hc2c] at h2
        rw [h.haulDistinct c1 hc1 c2 hc2 t1 t2 h1 h2 k1 k2 he]
  noHaulQ := h.noHaulQ
  followShape := h.followShape
  gatherUnique := h.gatherUnique
  pickupUnique := h.pickupUnique

end Talos
namespace Talos

theorem mem_removeTaskById_of_ne {l : List Task} {t' : Task} {tid : Nat}
    (hmem : t' ∈ l) (hne : t'.id ≠ tid) : t' ∈ removeTaskById l tid := by
  induction l with
  | nil => cases hmem
  | cons a rest ih =>
    rw [removeTaskById]
    by_cases ha : (a.id == tid) = true
    · rw [if_pos ha]
      rcases List.mem_cons.mp hmem with rfl | h
      · exact absurd (by simpa using ha) hne
      · exact h
    · rw [if_neg ha]
      rcases List.mem_cons.mp hmem with rfl | h
      · exact List.mem_cons_self _ _
      · exact List.mem_cons_of_mem a (ih h)

theorem followIds_single_none {t : Task} (h : t.followUpTask = none) :
    followIds [t] = [] := by
  simp [followIds, h]

theorem followIds_single_some {t : Task} {bt : TaskBase}
    (h : t.followUpTask = some bt) : followIds [t] = [bt.id] := by
  simp [followIds, h]

/-- Appending a freshly minted task (and bumping the counter past every
id it carries) preserves the invariant. -/
theorem TaskInv.enqueue {tasks : List Task} {cols : List Colonist}
    {nid : Nat} (h : TaskInv tasks cols nid) (t : Task) (k : Nat)
    (hid : t.id = nid) (hk : 1 ≤ k) (hkind : t.kind ≠ TaskKind.haul)
    (hfu : ∀ bt : TaskBase, t.followUpTask = some bt →
      t.kind = TaskKind.demolish ∧ bt.kind = TaskKind.build ∧
      bt.assigned = none ∧ bt.pendingAfterDemolish = true ∧
      bt.id = nid + 1 ∧ bt.id < nid + k)
    (hg : t.kind = TaskKind.gather →
      ∀ u ∈ tasks, u.kind = TaskKind.gather → ¬(u.x = t.x ∧ u.y = t.y))
    (hp : t.kind = TaskKind.pickup →
      ∀ u ∈ tasks, u.kind = TaskKind.pickup → u.stackId ≠ t.stackId) :
    TaskInv (tasks ++ [t]) cols (nid + k) := by
  obtain ⟨hA, hC, hAC⟩ := List.nodup_append.mp h.qfNodup
  have hAlt : ∀ i ∈ taskIds tasks, i < nid := fun i hi =>
    h.qfLt i (List.mem_append.mpr (Or.inl hi))
  have hClt : ∀ i ∈ followIds tasks, i < nid := fun i hi =>
    h.qfLt i (List.mem_append.mpr (Or.inr hi))
  have hD : ∀ i ∈ followIds [t], i = nid + 1 ∧ i < nid + k := by
    intro i hi
    obtain ⟨t', ht', bt, hbt, hbid⟩ := mem_followIds.mp hi
    rw [List.mem_singleton.mp ht'] at hbt
    obtain ⟨-, -, -, -, hb1, hb2⟩ := hfu bt hbt
    exact ⟨hbid ▸ hb1, hbid ▸ hb2⟩
  have hDnd : (followIds [t]).Nodup := by
    cases hft : t.followUpTask with
    | none => rw [followIds_single_none hft]; exact List.nodup_nil
    | some bt => rw [followIds_single_some hft]; exact List.nodup_singleton _
  have hmemsplit : ∀ i, i ∈ taskIds (tasks ++ [t]) ++ followIds (tasks ++ [t]) ↔
      i ∈ taskIds tasks ∨ i = t.id ∨ i ∈ followIds tasks ∨
        i ∈ followIds [t] := by
    intro i
    rw [taskIds_append, followIds_append]
    simp only [List.mem_append, taskIds, List.map_cons, List.map_nil,
      List.mem_singleton]
    constructor
    · rintro (⟨hi | hi⟩ | ⟨hi | hi⟩)
      · exact Or.inl hi
      · exact Or.inr (Or.inl hi)
      · exact Or.inr (Or.inr (Or.inl hi))
      · exact Or.inr (Or.inr (Or.inr hi))
    · rintro (hi | hi | hi | hi)
      · exact Or.inl (Or.inl hi)
      · exact Or.inl (Or.inr hi)
      · exact Or.inr (Or.inl hi)
      · exact Or.inr (Or.inr hi)
  refine ⟨h.colNodup, ?_, ?_, ?_, ?_, ?_, h.haulDistinct, ?_, ?_, ?_, ?_⟩
  · -- qfNodup
    rw [taskIds_append, followIds_append]
    have h1 : (taskIds tasks ++ taskIds [t]).Nodup := by
      refine List.nodup_append.mpr ⟨hA, ?_, ?_⟩
      · show (List.map _ [t]).Nodup
        simp
      · intro i hi
        show i ∉ taskIds [t]
        have : i < nid := hAlt i hi
        simp only [taskIds, List.map_cons, List.map_nil, List.mem_singleton]
        omega
    have h2 : (followIds tasks ++ followIds [t]).Nodup := by
      refine List.nodup_append.mpr ⟨hC, hDnd, ?_⟩
      intro i hi
      have hilt : i < nid := hClt i hi
      intro hid2
      have := (hD i hid2).1
      omega
    refine List.nodup_append.mpr ⟨h1, h2, ?_⟩
    intro i hi
    rcases List.mem_append.mp hi with hi | hi
    · have hilt : i < nid := hAlt i hi
      intro hmem
      rcases List.mem_append.mp hmem with hm | hm
      · exact hAC hi hm
      · have := (hD i hm).1; omega
    · have : i = t.id := by
        simpa [taskIds] using hi
      subst this
      intro hmem
      rcases List.mem_append.mp hmem with hm | hm
      · have := hClt _ hm; omega
      · have := (hD _ hm).1; omega
  · -- qfLt
    intro i hi
    rcases (hmemsplit i).mp hi with hm | hm | hm | hm
    · have := hAlt i hm; omega
    · subst hm; omega
    · have := hClt i hm; omega
    · exact (hD i hm).2
  · -- heldLt
    intro c hc u hu
    have := h.heldLt c hc u hu
    omega
  · -- heldQueue
    intro c hc u hu hk'
    obtain ⟨hm, ha⟩ := h.heldQueue c hc u hu hk'
    exact ⟨List.mem_append.mpr (Or.inl hm), ha⟩
  · -- heldHaul
    intro c hc u hu hk'
    obtain ⟨ha, hf, hni⟩ := h.heldHaul c hc u hu hk'
    refine ⟨ha, hf, ?_⟩
    have hult : u.id < nid := h.heldLt c hc u hu
    rw [hmemsplit]
    push_neg
    refine ⟨?_, ?_, ?_, ?_⟩
    · intro hm
      exact hni (List.mem_append.mpr (Or.inl hm))
    · omega
    · intro hm
      exact hni (List.mem_append.mpr (Or.inr hm))
    · intro hm
      have := (hD _ hm).1
      omega
  · -- noHaulQ
    intro u hu
    rcases List.mem_append.mp hu with hm | hm
    · exact h.noHaulQ u hm
    · rw [List.mem_singleton.mp hm]
      exact hkind
  · -- followShape
    intro u hu bt hbt
    rcases List.mem_append.mp hu with hm | hm
    · exact h.followShape u hm bt hbt
    · rw [List.mem_singleton.mp hm] at hbt ⊢
      obtain ⟨h1, h2, h3, h4, -, -⟩ := hfu bt hbt
      exact ⟨h1, h2, h3, h4⟩
  · -- gatherUnique
    intro t1 h1 t2 h2 k1 k2 hx hy
    rcases List.mem_append.mp h1 with hm1 | hm1 <;>
      rcases List.mem_append.mp h2 with hm2 | hm2
    · exact h.gatherUnique t1 hm1 t2 hm2 k1 k2 hx hy
    · rw [List.mem_singleton.mp hm2] at hx hy k2
      exact absurd ⟨hx, hy⟩ (hg k2 t1 hm1 k1)
    · rw [List.mem_singleton.mp hm1] at hx hy k1
      exact absurd ⟨hx.symm, hy.symm⟩ (hg k1 t2 hm2 k2)
    · rw [List.mem_singleton.mp hm1, List.mem_singleton.mp hm2]
  · -- pickupUnique
    intro t1 h1 t2 h2 k1 k2 hs
    rcases List.mem_append.mp h1 with hm1 | hm1 <;>
      rcases List.mem_append.mp h2 with hm2 | hm2
    · exact h.pickupUnique t1 hm1 t2 hm2 k1 k2 hs
    · rw [List.mem_singleton.mp hm2] at hs k2
      exact absurd hs (hp k2 t1 hm1 k1)
    · rw [List.mem_singleton.mp hm1] at hs k1
      exact absurd hs.symm (hp k1 t2 hm2 k2)
    · rw [List.mem_singleton.mp hm1, List.mem_singleton.mp hm2]

end Talos
namespace Talos

theorem setEntry_data (t0 : Task) (tid : Nat) (w : Option Nat) :
    (if t0.id = tid then { t0 with assigned := w } else t0).id = t0.id ∧
    (if t0.id = tid then { t0 with assigned := w } else t0).kind = t0.kind ∧
    (if t0.id = tid then { t0 with assigned := w } else t0).x = t0.x ∧
    (if t0.id = tid then { t0 with assigned := w } else t0).y = t0.y ∧
    (if t0.id = tid then { t0 with assigned := w } else t0).stackId =
      t0.stackId ∧
    (if t0.id = tid then { t0 with assigned := w } else t0).followUpTask =
      t0.followUpTask := by
  by_cases h : t0.id = tid
  · rw [if_pos h]
    exact ⟨rfl, rfl, rfl, rfl, rfl, rfl⟩
  · rw [if_neg h]
    exact ⟨rfl, rfl, rfl, rfl, rfl, rfl⟩

/-- Force-releasing a held task (`clearTask(colonist, true)`: queue
`assigned` reset plus colonist reset) preserves the invariant. -/
theorem TaskInv.release {tasks : List Task} {cols : List Colonist}
    {nid : Nat} (h : TaskInv tasks cols nid) (c : Colonist) (hc : c ∈ cols)
    (t : Task) (ht : c.task = some t) :
    TaskInv (setTaskAssigned tasks t.id none)
      (updateCol cols c.id clearTaskFields) nid := by
  obtain ⟨hA, hC, hAC⟩ := List.nodup_append.mp h.qfNodup
  have hAmap : (tasks.map (fun u => u.id)).Nodup := hA
  have hne_other : ∀ c0 ∈ cols, c0.id ≠ c.id → ∀ t' : Task,
      c0.task = some t' → t'.kind ≠ TaskKind.haul → t'.id ≠ t.id := by
    intro c0 hc0 hcc t' ht' hk' he
    by_cases hth : t.kind = TaskKind.haul
    · have hni := (h.heldHaul c hc t ht hth).2.2
      obtain ⟨htm', -⟩ := h.heldQueue c0 hc0 t' ht' hk'
      exact hni (List.mem_append.mpr (Or.inl (mem_taskIds.mpr ⟨t', htm', he⟩)))
    · obtain ⟨htm, hta⟩ := h.heldQueue c hc t ht hth
      obtain ⟨htm', hta'⟩ := h.heldQueue c0 hc0 t' ht' hk'
      have : t' = t := nodup_map_inj hAmap t' htm' t htm he
      rw [this] at hta'
      rw [hta'] at hta
      exact hcc (by injection hta)
  refine ⟨?_, ?_, ?_, ?_, ?_, ?_, ?_, ?_, ?_, ?_, ?_⟩
  · rw [updateCol_ids cols c.id clearTaskFields clearTaskFields_id]
    exact h.colNodup
  · rw [taskIds_setTaskAssigned, followIds_setTaskAssigned]
    exact h.qfNodup
  · rw [taskIds_setTaskAssigned, followIds_setTaskAssigned]
    exact h.qfLt
  · intro c' hc' u hu
    obtain ⟨c0, hc0, rfl⟩ := mem_updateCol_iff.mp hc'
    rw [clearEntry_task] at hu
    by_cases hcc : c0.id = c.id
    · rw [if_pos hcc] at hu; cases hu
    · rw [if_neg hcc] at hu
      exact h.heldLt c0 hc0 u hu
  · intro c' hc' u hu hk'
    obtain ⟨c0, hc0, rfl⟩ := mem_updateCol_iff.mp hc'
    rw [clearEntry_task] at hu
    by_cases hcc : c0.id = c.id
    · rw [if_pos hcc] at hu; cases hu
    · rw [if_neg hcc] at hu
      obtain ⟨htm', hta'⟩ := h.heldQueue c0 hc0 u hu hk'
      have hne := hne_other c0 hc0 hcc u hu hk'
      rw [updateEntry_id c.id clearTaskFields clearTaskFields_id]
      exact ⟨setTaskAssigned_mem_of_ne htm' hne, hta'⟩
  · intro c' hc' u hu hk'
    obtain ⟨c0, hc0, rfl⟩ := mem_updateCol_iff.mp hc'
    rw [clearEntry_task] at hu
    by_cases hcc : c0.id = c.id
    · rw [if_pos hcc] at hu; cases hu
    · rw [if_neg hcc] at hu
      obtain ⟨ha, hf, hni⟩ := h.heldHaul c0 hc0 u hu hk'
      rw [updateEntry_id c.id clearTaskFields clearTaskFields_id]
      rw [taskIds_setTaskAssigned, followIds_setTaskAssigned]
      exact ⟨ha, hf, hni⟩
  · intro c1' hc1' c2' hc2' t1 t2 h1 h2 k1 k2 he
    obtain ⟨c1, hc1, rfl⟩ := mem_updateCol_iff.mp hc1'
    obtain ⟨c2, hc2, rfl⟩ := mem_updateCol_iff.mp hc2'
    rw [clearEntry_task] at h1
    rw [clearEntry_task] at h2
    by_cases hc1c : c1.id = c.id
    · rw [if_pos hc1c] at h1; cases h1
    · rw [if_neg hc1c] at h1
      by_cases hc2c : c2.id = c.id
      · rw [if_pos hc2c] at h2; cases h2
      · rw [if_neg hc2c] at h2
        rw [h.haulDistinct c1 hc1 c2 hc2 t1 t2 h1 h2 k1 k2 he]
  · intro u hu
    obtain ⟨t0, hm, rfl⟩ := mem_setTaskAssigned_iff.mp hu
    rw [(setEntry_data t0 t.id none).2.1]
    exact h.noHaulQ t0 hm
  · intro u hu bt hbt
    obtain ⟨t0, hm, rfl⟩ := mem_setTaskAssigned_iff.mp hu
    rw [(setEntry_data t0 t.id none).2.2.2.2.2] at hbt
    rw [(setEntry_data t0 t.id none).2.1]
    exact h.followShape t0 hm bt hbt
  · intro t1 h1 t2 h2 k1 k2 hx hy
    obtain ⟨u1, hm1, rfl⟩ := mem_setTaskAssigned_iff.mp h1
    obtain ⟨u2, hm2, rfl⟩ := mem_setTaskAssigned_iff.mp h2
    rw [(setEntry_data u1 t.id none).2.1] at k1
    rw [(setEntry_data u2 t.id none).2.1] at k2
    rw [(setEntry_data u1 t.id none).2.2.1,
      (setEntry_data u2 t.id none).2.2.1] at hx
    rw [(setEntry_data u1 t.id none).2.2.2.1,
      (setEntry_data u2 t.id none).2.2.2.1] at hy
    rw [h.gatherUnique u1 hm1 u2 hm2 k1 k2 hx hy]
  · intro t1 h1 t2 h2 k1 k2 hs
    obtain ⟨u1, hm1, rfl⟩ := mem_setTaskAssigned_iff.mp h1
    obtain ⟨u2, hm2, rfl⟩ := mem_setTaskAssigned_iff.mp h2
    rw [(setEntry_data u1 t.id none).2.1] at k1
    rw [(setEntry_data u2 t.id none).2.1] at k2
    rw [(setEntry_data u1 t.id none).2.2.2.2.1,
      (setEntry_data u2 t.id none).2.2.2.2.1] at hs
    rw [h.pickupUnique u1 hm1 u2 hm2 k1 k2 hs]

/-- Completing a held non-haul task (queue entry removed, colonist
reset) preserves the invariant. -/
theorem TaskInv.completeRemove {tasks : List Task} {cols : List Colonist}
    {nid : Nat} (h : TaskInv tasks cols nid) (c : Colonist) (hc : c ∈ cols)
    (t : Task) (ht : c.task = some t) (hkind : t.kind ≠ TaskKind.haul) :
    TaskInv (removeTaskById tasks t.id)
      (updateCol cols c.id clearTaskFields) nid := by
  obtain ⟨hA, hC, hAC⟩ := List.nodup_append.mp h.qfNodup
  have hAmap : (tasks.map (fun u => u.id)).Nodup := hA
  obtain ⟨htm, hta⟩ := h.heldQueue c hc t ht hkind
  have hsub : List.Sublist (removeTaskById tasks t.id) tasks :=
    removeTaskById_sublist tasks t.id
  have hqfsub : List.Sublist
      (taskIds (removeTaskById tasks t.id) ++
        followIds (removeTaskById tasks t.id))
      (taskIds tasks ++ followIds tasks) :=
    List.Sublist.append (hsub.map _) (hsub.filterMap _)
  have hne_other : ∀ c0 ∈ cols, c0.id ≠ c.id → ∀ t' : Task,
      c0.task = some t' → t'.kind ≠ TaskKind.haul → t'.id ≠ t.id := by
    intro c0 hc0 hcc t' ht' hk' he
    obtain ⟨htm', hta'⟩ := h.heldQueue c0 hc0 t' ht' hk'
    have : t' = t := nodup_map_inj hAmap t' htm' t htm he
    rw [this] at hta'
    rw [hta'] at hta
    exact hcc (by injection hta)
  refine ⟨?_, ?_, ?_, ?_, ?_, ?_, ?_, ?_, ?_, ?_, ?_⟩
  · rw [updateCol_ids cols c.id clearTaskFields clearTaskFields_id]
    exact h.colNodup
  · exact h.qfNodup.sublist hqfsub
  · intro i hi
    exact h.qfLt i (hqfsub.subset hi)
  · intro c' hc' u hu
    obtain ⟨c0, hc0, rfl⟩ := mem_updateCol_iff.mp hc'
    rw [clearEntry_task] at hu
    by_cases hcc : c0.id = c.id
    · rw [if_pos hcc] at hu; cases hu
    · rw [if_neg hcc] at hu
      exact h.heldLt c0 hc0 u hu
  · intro c' hc' u hu hk'
    obtain ⟨c0, hc0, rfl⟩ := mem_updateCol_iff.mp hc'
    rw [clearEntry_task] at hu
    by_cases hcc : c0.id = c.id
    · rw [if_pos hcc] at hu; cases hu
    · rw [if_neg hcc] at hu
      obtain ⟨htm', hta'⟩ := h.heldQueue c0 hc0 u hu hk'
      have hne := hne_other c0 hc0 hcc u hu hk'
      rw [updateEntry_id c.id clearTaskFields clearTaskFields_id]
      exact ⟨mem_removeTaskById_of_ne htm' hne, hta'⟩
  · intro c' hc' u hu hk'
    obtain ⟨c0, hc0, rfl⟩ := mem_updateCol_iff.mp hc'
    rw [clearEntry_task] at hu
    by_cases hcc : c0.id = c.id
    · rw [if_pos hcc] at hu; cases hu
    · rw [if_neg hcc] at hu
      obtain ⟨ha, hf, hni⟩ := h.heldHaul c0 hc0 u hu hk'
      rw [updateEntry_id c.id clearTaskFields clearTaskFields_id]
      exact ⟨ha, hf, fun hm => hni (hqfsub.subset hm)⟩
  · intro c1' hc1' c2' hc2' t1 t2 h1 h2 k1 k2 he
    obtain ⟨c1, hc1, rfl⟩ := mem_updateCol_iff.mp hc1'
    obtain ⟨c2, hc2, rfl⟩ := mem_updateCol_iff.mp hc2'
    rw [clearEntry_task] at h1
    rw [clearEntry_task] at h2
    by_cases hc1c : c1.id = c.id
    · rw [if_pos hc1c] at h1; cases h1
    · rw [if_neg hc1c] at h1
      by_cases hc2c : c2.id = c.id
      · rw [if_pos hc2c] at h2; cases h2
      · rw [if_neg hc2c] at h2
        rw [h.haulDistinct c1 hc1 c2 hc2 t1 t2 h1 h2 k1 k2 he]
  · intro u hu
    exact h.noHaulQ u (hsub.subset hu)
  · intro u hu bt hbt
    exact h.followShape u (hsub.subset hu) bt hbt
  · intro t1 h1 t2 h2 k1 k2 hx hy
    exact h.gatherUnique t1 (hsub.subset h1) t2 (hsub.subset h2) k1 k2 hx hy
  · intro t1 h1 t2 h2 k1 k2 hs
    exact h.pickupUnique t1 (hsub.subset h1) t2 (hsub.subset h2) k1 k2 hs

end Talos
namespace Talos

theorem payCost_frame (st : SimState) (cost : List (ResourceType × Nat)) :
    (payCost st cost).2.tasks = st.tasks ∧
    (payCost st cost).2.colonists = st.colonists ∧
    (payCost st cost).2.nextTaskId = st.nextTaskId ∧
    (payCost st cost).2.stockpiles = st.stockpiles := by
  rw [payCost]
  split_ifs
  · exact ⟨rfl, rfl, rfl, rfl⟩
  · exact ⟨rfl, rfl, rfl, rfl⟩

theorem createGatherTask_some {st : SimState} {x y : Int} {t : Task}
    (h : createGatherTask st x y = some t) :
    t.id = st.nextTaskId ∧ t.kind = TaskKind.gather ∧ t.x = x ∧ t.y = y ∧
    t.assigned = none ∧ t.followUpTask = none ∧
    ∀ u ∈ st.tasks, ¬(u.kind = TaskKind.gather ∧ u.x = x ∧ u.y = y) := by
  simp only [createGatherTask] at h
  split_ifs at h with h1 h2 h3
  cases h
  refine ⟨rfl, rfl, rfl, rfl, rfl, rfl, ?_⟩
  rintro u hu ⟨hk, hx, hy⟩
  apply h3
  rw [List.any_eq_true]
  exact ⟨u, hu, by simp [hk, hx, hy]⟩

theorem createDemolishTask_some {st : SimState} {x y : Int} {t : Task}
    (h : createDemolishTask st x y = some t) :
    t.id = st.nextTaskId ∧ t.kind = TaskKind.demolish ∧ t.x = x ∧ t.y = y ∧
    t.assigned = none ∧ t.followUpTask = none ∧
    ∀ u ∈ st.tasks, ¬(u.kind = TaskKind.demolish ∧ u.x = x ∧ u.y = y) := by
  simp only [createDemolishTask] at h
  split_ifs at h with h1 h2 h3
  cases h
  refine ⟨rfl, rfl, rfl, rfl, rfl, rfl, ?_⟩
  rintro u hu ⟨hk, hx, hy⟩
  apply h3
  rw [List.any_eq_true]
  exact ⟨u, hu, by simp [hk, hx, hy]⟩

theorem createPickupTask_some {st : SimState} {s : Stack} {t : Task}
    (h : createPickupTask st s = some t) :
    t.id = st.nextTaskId ∧ t.kind = TaskKind.pickup ∧
    t.stackId = some s.id ∧ t.x = s.x ∧ t.y = s.y ∧ t.assigned = none ∧
    t.followUpTask = none ∧
    ∀ u ∈ st.tasks, ¬(u.kind = TaskKind.pickup ∧ u.stackId = some s.id) := by
  simp only [createPickupTask] at h
  split_ifs at h with h1
  cases h
  refine ⟨rfl, rfl, rfl, rfl, rfl, rfl, rfl, ?_⟩
  rintro u hu ⟨hk, hs⟩
  apply h1
  rw [List.any_eq_true]
  exact ⟨u, hu, by simp [hk, hs]⟩

theorem createHaulTask_some {st : SimState} {c : Colonist} {t : Task}
    (h : createHaulTask st c = some t) :
    t.id = st.nextTaskId ∧ t.kind = TaskKind.haul ∧
    t.assigned = some c.id ∧ t.followUpTask = none := by
  unfold createHaulTask at h
  cases hcc : c.carrying with
  | none => rw [hcc] at h; exact Option.noConfusion h
  | some carry =>
    rw [hcc] at h
    simp only at h
    cases hfs : findAvailableStockpile st carry.1 (getColonistTile c).1
        (getColonistTile c).2 with
    | none => rw [hfs] at h; exact Option.noConfusion h
    | some sp =>
      rw [hfs] at h
      simp only at h
      cases h
      exact ⟨rfl, rfl, rfl, rfl⟩

theorem createBuildTask_spec (st : SimState) (x y : Int) (b : BuildKind) :
    createBuildTask st x y b = (none, st) ∨
    ∃ t st' k, createBuildTask st x y b = (some t, st') ∧
      st'.tasks = st.tasks ∧ st'.colonists = st.colonists ∧
      st'.nextTaskId = st.nextTaskId + k ∧ 1 ≤ k ∧
      t.id = st.nextTaskId ∧ t.kind ≠ TaskKind.haul ∧
      t.kind ≠ TaskKind.gather ∧ t.kind ≠ TaskKind.pickup ∧
      (∀ bt : TaskBase, t.followUpTask = some bt →
        t.kind = TaskKind.demolish ∧ bt.kind = TaskKind.build ∧
        bt.assigned = none ∧ bt.pendingAfterDemolish = true ∧
        bt.id = st.nextTaskId + 1 ∧ bt.id < st.nextTaskId + k) := by
  simp only [createBuildTask]
  split_ifs with h1 h2 h3 h4
  · exact Or.inl rfl
  · exact Or.inl rfl
  · refine Or.inr ⟨_, _, 2, rfl, ?_, ?_, ?_, by omega, rfl, ?_, ?_, ?_, ?_⟩
    · exact (payCost_frame st (buildingCost b)).1
    · exact (payCost_frame st (buildingCost b)).2.1
    · rfl
    · intro hco
      cases hco
    · intro hco
      cases hco
    · intro hco
      cases hco
    · intro bt hbt
      cases hbt
      refine ⟨rfl, rfl, rfl, rfl, rfl, ?_⟩
      show st.nextTaskId + 1 < st.nextTaskId + 2
      omega
  · exact Or.inl rfl
  · exact Or.inl rfl
  · refine Or.inr ⟨_, _, 1, rfl, ?_, ?_, ?_, le_refl 1, rfl, ?_, ?_, ?_, ?_⟩
    · exact (payCost_frame st (buildingCost b)).1
    · exact (payCost_frame st (buildingCost b)).2.1
    · rfl
    · intro hco
      cases hco
    · intro hco
      cases hco
    · intro hco
      cases hco
    · intro bt hbt
      cases hbt

theorem inv_clearTask (st : SimState) (cid : Nat) (b : Bool)
    (h : SimInv st) : SimInv (clearTask st cid b) := by
  unfold clearTask
  cases hf : findCol st cid with
  | none => exact h
  | some c =>
    obtain ⟨hc, hcid⟩ := findCol_mem hf
    cases b with
    | false =>
      simp only [if_neg (by decide : ¬(false = true))]
      rw [← hcid]
      exact h.clearcol c.id
    | true =>
      simp only [if_pos rfl]
      cases htk : c.task with
      | none =>
        rw [← hcid]
        exact h.clearcol c.id
      | some t =>
        rw [← hcid]
        exact h.release c hc t htk

theorem inv_applyCreateGather (st : SimState) (x y : Int) (h : SimInv st) :
    SimInv (applyCreateGather st x y) := by
  unfold applyCreateGather
  cases hcg : createGatherTask st x y with
  | none => exact h
  | some t =>
    obtain ⟨hid, hkind, hx, hy, -, hfu, hded⟩ := createGatherTask_some hcg
    refine h.enqueue t 1 hid (le_refl 1) (by rw [hkind]; decide) ?_ ?_ ?_
    · intro bt hbt
      rw [hfu] at hbt
      cases hbt
    · intro _ u hu huk
      rintro ⟨h1, h2⟩
      rw [hx] at h1
      rw [hy] at h2
      exact hded u hu ⟨huk, h1, h2⟩
    · intro hpk
      rw [hkind] at hpk
      cases hpk

theorem inv_applyCreateDemolish (st : SimState) (x y : Int) (h : SimInv st) :
    SimInv (applyCreateDemolish st x y) := by
  unfold applyCreateDemolish
  cases hcg : createDemolishTask st x y with
  | none => exact h
  | some t =>
    obtain ⟨hid, hkind, -, -, -, hfu, -⟩ := createDemolishTask_some hcg
    refine h.enqueue t 1 hid (le_refl 1) (by rw [hkind]; decide) ?_ ?_ ?_
    · intro bt hbt
      rw [hfu] at hbt
      cases hbt
    · intro hgk
      rw [hkind] at hgk
      cases hgk
    · intro hpk
      rw [hkind] at hpk
      cases hpk

theorem inv_applyCreatePickup (st : SimState) (s : Stack) (h : SimInv st) :
    SimInv (applyCreatePickup st s) := by
  unfold applyCreatePickup
  cases hcg : createPickupTask st s with
  | none => exact h
  | some t =>
    obtain ⟨hid, hkind, hsid, -, -, -, hfu, hded⟩ := createPickupTask_some hcg
    refine h.enqueue t 1 hid (le_refl 1) (by rw [hkind]; decide) ?_ ?_ ?_
    · intro bt hbt
      rw [hfu] at hbt
      cases hbt
    · intro hgk
      rw [hkind] at hgk
      cases hgk
    · intro _ u hu huk hus
      rw [hsid] at hus
      exact hded u hu ⟨huk, hus⟩

theorem inv_applyCreateBuild (st : SimState) (x y : Int) (b : BuildKind)
    (h : SimInv st) : SimInv (applyCreateBuild st x y b) := by
  unfold applyCreateBuild
  rcases createBuildTask_spec st x y b with hn |
    ⟨t, st', k, heq, htasks, hcols, hnid, hk, hid, hhaul, hgather, hpickup, hfu⟩
  · rw [hn]
    exact h
  · rw [heq]
    show TaskInv (st'.tasks ++ [t]) st'.colonists st'.nextTaskId
    rw [htasks, hcols, hnid]
    refine h.enqueue t k hid hk hhaul hfu ?_ ?_
    · intro hgk
      exact absurd hgk hgather
    · intro hpk
      exact absurd hpk hpickup

theorem inv_applyColMutate (st : SimState) (cid : Nat) (x y : Int)
    (path : List Pos) (pIdx : Nat) (tx ty : Option Int) (w : Bool)
    (h : SimInv st) : SimInv (applyColMutate st cid x y path pIdx tx ty w) :=
  h.colupdate cid _ (fun c => rfl) (fun c => rfl)

theorem inv_applyWorkTick (st : SimState) (cid : Nat) (h : SimInv st) :
    SimInv (applyWorkTick st cid) := by
  unfold applyWorkTick
  cases hf : findCol st cid with
  | none => exact h
  | some c =>
    dsimp only
    by_cases hts : c.task.isSome = true
    · rw [if_pos hts]
      exact h.colupdate cid _ (fun c => rfl) (fun c => rfl)
    · rw [if_neg hts]
      exact h

end Talos
namespace Talos

theorem followIds_cons_some {t : Task} {bt : TaskBase}
    (hbt : t.followUpTask = some bt) (l : List Task) :
    followIds (t :: l) = bt.id :: followIds l := by
  simp [followIds, hbt]

/-- Completing a held demolish task that carries a follow-up: the
follow-up is pushed, the demolish entry removed, the colonist reset. -/
theorem TaskInv.demolishFollow {tasks : List Task} {cols : List Colonist}
    {nid : Nat} (h : TaskInv tasks cols nid) (c : Colonist) (hc : c ∈ cols)
    (t : Task) (ht : c.task = some t) (hkind : t.kind ≠ TaskKind.haul)
    (bt : TaskBase) (hbt : t.followUpTask = some bt) :
    TaskInv (removeTaskById (tasks ++ [({ toTaskBase := bt } : Task)]) t.id)
      (updateCol cols c.id clearTaskFields) nid := by
  obtain ⟨hA, hC, hAC⟩ := List.nodup_append.mp h.qfNodup
  have hAmap : (tasks.map (fun u => u.id)).Nodup := hA
  obtain ⟨htm, hta⟩ := h.heldQueue c hc t ht hkind
  obtain ⟨-, hbk, -, -⟩ := h.followShape t htm bt hbt
  have hbtC : bt.id ∈ followIds tasks := mem_followIds.mpr ⟨t, htm, bt, hbt, rfl⟩
  have hbtA : bt.id ∉ taskIds tasks := fun hm => hAC hm hbtC
  have hrw : removeTaskById (tasks ++ [({ toTaskBase := bt } : Task)]) t.id =
      removeTaskById tasks t.id ++ [({ toTaskBase := bt } : Task)] :=
    removeTaskById_append_left _ _ _ ⟨t, htm, rfl⟩
  rw [hrw]
  obtain ⟨l1, l2, hsplit, hrm, hl1⟩ := removeTaskById_split tasks t htm hA
  have hsubR : List.Sublist (removeTaskById tasks t.id) tasks :=
    removeTaskById_sublist tasks t.id
  have hCsplit : followIds tasks = followIds l1 ++ bt.id :: followIds l2 := by
    rw [hsplit, followIds_append, followIds_cons_some hbt]
  have hCparts := List.nodup_append.mp (hCsplit ▸ hC)
  have hbtnotl2 : bt.id ∉ followIds l2 := (List.nodup_cons.mp hCparts.2.1).1
  have hbtnotl1 : bt.id ∉ followIds l1 := fun hm =>
    hCparts.2.2 hm (List.mem_cons_self _ _)
  have hfR : followIds (removeTaskById tasks t.id) =
      followIds l1 ++ followIds l2 := by
    rw [hrm, followIds_append]
  have hbtnotRf : bt.id ∉ followIds (removeTaskById tasks t.id) := by
    rw [hfR]
    intro hm
    rcases List.mem_append.mp hm with hm | hm
    · exact hbtnotl1 hm
    · exact hbtnotl2 hm
  have hbtnotRt : bt.id ∉ taskIds (removeTaskById tasks t.id) := fun hm =>
    hbtA ((hsubR.map _).subset hm)
  have htIds : taskIds (removeTaskById tasks t.id ++
      [({ toTaskBase := bt } : Task)]) =
      taskIds (removeTaskById tasks t.id) ++ [bt.id] := by
    rw [taskIds_append]
    rfl
  have hfIds : followIds (removeTaskById tasks t.id ++
      [({ toTaskBase := bt } : Task)]) =
      followIds (removeTaskById tasks t.id) := by
    rw [followIds_append, followIds_single_none rfl, List.append_nil]
  have hne_other : ∀ c0 ∈ cols, c0.id ≠ c.id → ∀ t' : Task,
      c0.task = some t' → t'.kind ≠ TaskKind.haul → t'.id ≠ t.id := by
    intro c0 hc0 hcc t' ht' hk' he
    obtain ⟨htm', hta'⟩ := h.heldQueue c0 hc0 t' ht' hk'
    have : t' = t := nodup_map_inj hAmap t' htm' t htm he
    rw [this] at hta'
    rw [hta'] at hta
    exact hcc (by injection hta)
  refine ⟨?_, ?_, ?_, ?_, ?_, ?_, ?_, ?_, ?_, ?_, ?_⟩
  · rw [updateCol_ids cols c.id clearTaskFields clearTaskFields_id]
    exact h.colNodup
  · rw [htIds, hfIds]
    refine List.nodup_append.mpr ⟨?_, ?_, ?_⟩
    · refine List.nodup_append.mpr ⟨?_, List.nodup_singleton _, ?_⟩
      · exact hA.sublist (hsubR.map _)
      · intro i hi hm
        rw [List.mem_singleton.mp hm] at hi
        exact hbtnotRt hi
    · exact hC.sublist (hsubR.filterMap _)
    · intro i hi
      rcases List.mem_append.mp hi with hm | hm
      · intro hmf
        exact hAC ((hsubR.map _).subset hm) ((hsubR.filterMap _).subset hmf)
      · rw [List.mem_singleton.mp hm]
        exact hbtnotRf
  · intro i hi
    rw [htIds, hfIds] at hi
    rcases List.mem_append.mp hi with hm | hm
    · rcases List.mem_append.mp hm with hm' | hm'
      · exact h.qfLt i (List.mem_append.mpr
          (Or.inl ((hsubR.map _).subset hm')))
      · rw [List.mem_singleton.mp hm']
        exact h.qfLt bt.id (List.mem_append.mpr (Or.inr hbtC))
    · exact h.qfLt i (List.mem_append.mpr
        (Or.inr ((hsubR.filterMap _).subset hm)))
  · intro c' hc' u hu
    obtain ⟨c0, hc0, rfl⟩ := mem_updateCol_iff.mp hc'
    rw [clearEntry_task] at hu
    by_cases hcc : c0.id = c.id
    · rw [if_pos hcc] at hu; cases hu
    · rw [if_neg hcc] at hu
      exact h.heldLt c0 hc0 u hu
  · intro c' hc' u hu hk'
    obtain ⟨c0, hc0, rfl⟩ := mem_updateCol_iff.mp hc'
    rw [clearEntry_task] at hu
    by_cases hcc : c0.id = c.id
    · rw [if_pos hcc] at hu; cases hu
    · rw [if_neg hcc] at hu
      obtain ⟨htm', hta'⟩ := h.heldQueue c0 hc0 u hu hk'
      have hne := hne_other c0 hc0 hcc u hu hk'
      rw [updateEntry_id c.id clearTaskFields clearTaskFields_id]
      exact ⟨List.mem_append.mpr (Or.inl (mem_removeTaskById_of_ne htm' hne)),
        hta'⟩
  · intro c' hc' u hu hk'
    obtain ⟨c0, hc0, rfl⟩ := mem_updateCol_iff.mp hc'
    rw [clearEntry_task] at hu
    by_cases hcc : c0.id = c.id
    · rw [if_pos hcc] at hu; cases hu
    · rw [if_neg hcc] at hu
      obtain ⟨ha, hfu, hni⟩ := h.heldHaul c0 hc0 u hu hk'
      rw [updateEntry_id c.id clearTaskFields clearTaskFields_id]
      refine ⟨ha, hfu, ?_⟩
      rw [htIds, hfIds]
      intro hm
      rcases List.mem_append.mp hm with hm | hm
      · rcases List.mem_append.mp hm with hm' | hm'
        · exact hni (List.mem_append.mpr
            (Or.inl ((hsubR.map _).subset hm')))
        · rw [List.mem_singleton.mp hm'] at hni
          exact hni (List.mem_append.mpr (Or.inr hbtC))
      · exact hni (List.mem_append.mpr
          (Or.inr ((hsubR.filterMap _).subset hm)))
  · intro c1' hc1' c2' hc2' t1 t2 h1 h2 k1 k2 he
    obtain ⟨c1, hc1, rfl⟩ := mem_updateCol_iff.mp hc1'
    obtain ⟨c2, hc2, rfl⟩ := mem_updateCol_iff.mp hc2'
    rw [clearEntry_task] at h1
    rw [clearEntry_task] at h2
    by_cases hc1c : c1.id = c.id
    · rw [if_pos hc1c] at h1; cases h1
    · rw [if_neg hc1c] at h1
      by_cases hc2c : c2.id = c.id
      · rw [if_pos hc2c] at h2; cases h2
      · rw [if_neg hc2c] at h2
        rw [h.haulDistinct c1 hc1 c2 hc2 t1 t2 h1 h2 k1 k2 he]
  · intro u hu
    rcases List.mem_append.mp hu with hm | hm
    · exact h.noHaulQ u (hsubR.subset hm)
    · rw [List.mem_singleton.mp hm]
      show bt.kind ≠ TaskKind.haul
      rw [hbk]
      intro hco
      cases hco
  · intro u hu bt' hbt'
    rcases List.mem_append.mp hu with hm | hm
    · exact h.followShape u (hsubR.subset hm) bt' hbt'
    · rw [List.mem_singleton.mp hm] at hbt'
      cases hbt'
  · intro t1 h1 t2 h2 k1 k2 hx hy
    rcases List.mem_append.mp h1 with hm1 | hm1 <;>
      rcases List.mem_append.mp h2 with hm2 | hm2
    · exact h.gatherUnique t1 (hsubR.subset hm1) t2 (hsubR.subset hm2)
        k1 k2 hx hy
    · rw [List.mem_singleton.mp hm2] at k2
      rw [show ({ toTaskBase := bt } : Task).kind = TaskKind.build from hbk]
        at k2
      cases k2
    · rw [List.mem_singleton.mp hm1] at k1
      rw [show ({ toTaskBase := bt } : Task).kind = TaskKind.build from hbk]
        at k1
      cases k1
    · rw [List.mem_singleton.mp hm1, List.mem_singleton.mp hm2]
  · intro t1 h1 t2 h2 k1 k2 hs
    rcases List.mem_append.mp h1 with hm1 | hm1 <;>
      rcases List.mem_append.mp h2 with hm2 | hm2
    · exact h.pickupUnique t1 (hsubR.subset hm1) t2 (hsubR.subset hm2)
        k1 k2 hs
    · rw [List.mem_singleton.mp hm2] at k2
      rw [show ({ toTaskBase := bt } : Task).kind = TaskKind.build from hbk]
        at k2
      cases k2
    · rw [List.mem_singleton.mp hm1] at k1
      rw [show ({ toTaskBase := bt } : Task).kind = TaskKind.build from hbk]
        at k1
      cases k1
    · rw [List.mem_singleton.mp hm1, List.mem_singleton.mp hm2]

end Talos
namespace Talos

theorem find?_updateCol {cs : List Colonist} {cid : Nat} {c : Colonist}
    (hf : cs.find? (fun c' => c'.id == cid) = some c)
    (f : Colonist → Colonist) (hid : ∀ c', (f c').id = c'.id) :
    (updateCol cs cid f).find? (fun c' => c'.id == cid) = some (f c) := by
  induction cs with
  | nil => cases hf
  | cons a rest ih =>
    rw [find?_cons_ite] at hf
    unfold updateCol
    rw [List.map_cons, find?_cons_ite]
    by_cases ha : (a.id == cid) = true
    · rw [if_pos ha] at hf
      injection hf with hf'
      subst hf'
      rw [show (if a.id == cid then f a else a) = f a from if_pos ha]
      rw [if_pos (by rw [hid]; exact ha)]
    · rw [if_neg ha] at hf
      rw [show (if a.id == cid then f a else a) = a from if_neg ha]
      rw [if_neg ha]
      exact ih hf

/-- Evaluating the final `clearTask(colonist)` of a completion handler:
the mid-state's queue with the cleared colonist already satisfies the
invariant. -/
theorem inv_clearTask_false_mid (st' : SimState) (cid : Nat) (c' : Colonist)
    (hf : findCol st' cid = some c')
    (hT : TaskInv st'.tasks (updateCol st'.colonists cid clearTaskFields)
      st'.nextTaskId) :
    SimInv (clearTask st' cid false) := by
  unfold clearTask
  rw [hf]
  dsimp only
  rw [if_neg (by decide : ¬(false = true))]
  exact hT

theorem inv_completeGather (st : SimState) (cid : Nat) (h : SimInv st) :
    SimInv (completeGather st cid) := by
  unfold completeGather
  cases hf : findCol st cid with
  | none => exact h
  | some c =>
    dsimp only
    obtain ⟨hc, hcid⟩ := findCol_mem hf
    cases htk : c.task with
    | none => exact h
    | some t =>
      dsimp only
      by_cases hkd : (t.kind == TaskKind.gather) = true
      · rw [if_pos hkd]
        cases hres : t.resource with
        | none => exact h
        | some r =>
          dsimp only
          have hkind : t.kind ≠ TaskKind.haul := by
            have hg : t.kind = TaskKind.gather := by simpa using hkd
            rw [hg]
            intro hco
            cases hco
          have hT := h.completeRemove c hc t htk hkind
          rw [hcid] at hT
          exact inv_clearTask_false_mid _ cid c hf hT
      · rw [if_neg hkd]
        exact h

theorem inv_completePickup (st : SimState) (cid : Nat) (h : SimInv st) :
    SimInv (completePickup st cid) := by
  unfold completePickup
  cases hf : findCol st cid with
  | none => exact h
  | some c =>
    dsimp only
    obtain ⟨hc, hcid⟩ := findCol_mem hf
    cases htk : c.task with
    | none => exact h
    | some t =>
      dsimp only
      by_cases hkd : (t.kind == TaskKind.pickup) = true
      · rw [if_pos hkd]
        have hkind : t.kind ≠ TaskKind.haul := by
          have hg : t.kind = TaskKind.pickup := by simpa using hkd
          rw [hg]
          intro hco
          cases hco
        cases hfs : st.itemStacks.find? (fun s => t.stackId == some s.id) with
        | none =>
          dsimp only
          have hT := h.completeRemove c hc t htk hkind
          rw [hcid] at hT
          exact inv_clearTask_false_mid _ cid c hf hT
        | some stack =>
          dsimp only
          have hstep : TaskInv st.tasks
              (updateCol st.colonists cid (fun c' =>
                { c' with carrying := some (stack.type, stack.amount),
                          carryingStackId := some stack.id }))
              st.nextTaskId :=
            h.colupdate cid _ (fun c' => rfl) (fun c' => rfl)
          have hmem2 : (fun c' : Colonist =>
              { c' with carrying := some (stack.type, stack.amount),
                        carryingStackId := some stack.id }) c ∈
              updateCol st.colonists cid (fun c' =>
                { c' with carrying := some (stack.type, stack.amount),
                          carryingStackId := some stack.id }) :=
            mem_updateCol_iff.mpr ⟨c, hc, by rw [if_pos hcid]⟩
          have htk2 : ((fun c' : Colonist =>
              { c' with carrying := some (stack.type, stack.amount),
                        carryingStackId := some stack.id }) c).task =
              some t := htk
          have hT := hstep.completeRemove _ hmem2 t htk2 hkind
          have hid2 : ((fun c' : Colonist =>
              { c' with carrying := some (stack.type, stack.amount),
                        carryingStackId := some stack.id }) c).id = cid := hcid
          rw [hid2] at hT
          have hf2 : findCol
              { st with
                colonists := updateCol st.colonists cid (fun c' =>
                  { c' with carrying := some (stack.type, stack.amount),
                            carryingStackId := some stack.id }),
                itemStacks := removeStackById st.itemStacks stack.id } cid =
              some ((fun c' : Colonist =>
              { c' with carrying := some (stack.type, stack.amount),
                        carryingStackId := some stack.id }) c) :=
            find?_updateCol hf _ (fun c' => rfl)
          exact inv_clearTask_false_mid _ cid _ hf2 hT
      · rw [if_neg hkd]
        exact h

theorem inv_completeHaul (st : SimState) (cid : Nat) (h : SimInv st) :
    SimInv (completeHaul st cid) := by
  unfold completeHaul
  cases hf : findCol st cid with
  | none => exact h
  | some c =>
    dsimp only
    obtain ⟨hc, hcid⟩ := findCol_mem hf
    cases htk : c.task with
    | none => exact h
    | some t =>
      dsimp only
      by_cases hkd : (t.kind == TaskKind.haul) = true
      · rw [if_pos hkd]
        cases hcar : c.carrying with
        | none =>
          dsimp only
          exact inv_clearTask st cid false h
        | some carry =>
          dsimp only
          cases hfs : findStockpileStackAt st t.x t.y with
          | some es =>
            dsimp only
            have hstep : SimInv { st with
                itemStacks := st.itemStacks.map (fun s =>
                  if s.id == es.id then { s with amount := s.amount + carry.2 }
                  else s),
                colonists := updateCol st.colonists cid (fun c' =>
                  { c' with carrying := none, carryingStackId := none }) } :=
              h.colupdate cid _ (fun c' => rfl) (fun c' => rfl)
            exact inv_clearTask _ cid false hstep
          | none =>
            dsimp only
            have hstep : SimInv { st with
                itemStacks := st.itemStacks ++
                  [{ id := st.nextStackId, type := carry.1, amount := carry.2,
                     location := .stockpile, x := t.x, y := t.y }],
                nextStackId := st.nextStackId + 1,
                colonists := updateCol st.colonists cid (fun c' =>
                  { c' with carrying := none, carryingStackId := none }) } :=
              h.colupdate cid _ (fun c' => rfl) (fun c' => rfl)
            exact inv_clearTask _ cid false hstep
      · rw [if_neg hkd]
        exact h

theorem inv_completeBuild (st : SimState) (cid : Nat) (h : SimInv st) :
    SimInv (completeBuild st cid) := by
  unfold completeBuild
  cases hf : findCol st cid with
  | none => exact h
  | some c =>
    dsimp only
    obtain ⟨hc, hcid⟩ := findCol_mem hf
    cases htk : c.task with
    | none => exact h
    | some t =>
      dsimp only
      by_cases hkd : (t.kind == TaskKind.build) = true
      · rw [if_pos hkd]
        have hkind : t.kind ≠ TaskKind.haul := by
          have hg : t.kind = TaskKind.build := by simpa using hkd
          rw [hg]
          intro hco
          cases hco
        have hT := h.completeRemove c hc t htk hkind
        rw [hcid] at hT
        cases hbt : t.buildType with
        | none =>
          dsimp only
          exact inv_clearTask_false_mid _ cid c hf hT
        | some b =>
          dsimp only
          by_cases hsp : (b == BuildKind.stockpile) = true
          · rw [if_pos hsp]
            exact inv_clearTask_false_mid _ cid c hf hT
          · rw [if_neg hsp]
            exact inv_clearTask_false_mid _ cid c hf hT
      · rw [if_neg hkd]
        exact h

theorem inv_completeDemolish (st : SimState) (cid : Nat) (h : SimInv st) :
    SimInv (completeDemolish st cid) := by
  unfold completeDemolish
  cases hf : findCol st cid with
  | none => exact h
  | some c =>
    dsimp only
    obtain ⟨hc, hcid⟩ := findCol_mem hf
    cases htk : c.task with
    | none => exact h
    | some t =>
      dsimp only
      by_cases hkd : (t.kind == TaskKind.demolish) = true
      · rw [if_pos hkd]
        have hkind : t.kind ≠ TaskKind.haul := by
          have hg : t.kind = TaskKind.demolish := by simpa using hkd
          rw [hg]
          intro hco
          cases hco
        cases hft : t.followUpTask with
        | none =>
          dsimp only
          have hT := h.completeRemove c hc t htk hkind
          rw [hcid] at hT
          exact inv_clearTask_false_mid _ cid c hf hT
        | some bt =>
          dsimp only
          have hT := h.demolishFollow c hc t htk hkind bt hft
          rw [hcid] at hT
          exact inv_clearTask_false_mid _ cid c hf hT
      · rw [if_neg hkd]
        exact h

theorem inv_updateColonistMovement (st : SimState) (cid : Nat)
    (h : SimInv st) : SimInv (updateColonistMovement st cid) := by
  unfold updateColonistMovement
  cases hf : findCol st cid with
  | none => exact h
  | some c =>
    dsimp only
    cases htx : c.targetX with
    | none => exact h
    | some tx =>
      cases hty : c.targetY with
      | none => exact h
      | some ty =>
        dsimp only
        split
        · exact inv_clearTask st cid true h
        · split
          · split
            · exact h.colupdate cid _ (fun c' => rfl) (fun c' => rfl)
            · exact inv_clearTask st cid true h
          · have hsnap : SimInv { st with colonists := updateCol st.colonists cid (fun c' => { c' with x := tx, y := ty }) } :=
              h.colupdate cid _ (fun c' => rfl) (fun c' => rfl)
            split
            · split
              · split
                · exact hsnap.colupdate cid _ (fun c' => rfl) (fun c' => rfl)
                · exact inv_clearTask _ cid true hsnap
              · exact hsnap
            · exact hsnap

end Talos
namespace Talos

theorem setPathTarget_id (c : Colonist) (t : Task) (path : List Pos) :
    (setPathTarget c t path).id = c.id := by
  cases path <;> rfl

theorem setPathTarget_task {path : List Pos} (hp : path ≠ []) (c : Colonist)
    (t : Task) : (setPathTarget c t path).task = some t := by
  cases path with
  | nil => exact absurd rfl hp
  | cons p rest => rfl

/-- Assigning a freshly minted haul task directly to a colonist (and
bumping the counter) preserves the invariant. -/
theorem TaskInv.assignHaul {tasks : List Task} {cols : List Colonist}
    {nid : Nat} (h : TaskInv tasks cols nid) (c0id : Nat) (ht : Task)
    (path : List Pos) (hp : path ≠ []) (hid : ht.id = nid)
    (hkind : ht.kind = TaskKind.haul) (hass : ht.assigned = some c0id)
    (hfu : ht.followUpTask = none) :
    TaskInv tasks (updateCol cols c0id (fun c => setPathTarget c ht path))
      (nid + 1) := by
  have hIdf : ∀ c : Colonist,
      ((fun c => setPathTarget c ht path) c).id = c.id := fun c =>
    setPathTarget_id c ht path
  have hTf : ∀ c : Colonist,
      (if c.id = c0id then setPathTarget c ht path else c).task =
        (if c.id = c0id then some ht else c.task) := by
    intro c
    by_cases hcc : c.id = c0id
    · rw [if_pos hcc, if_pos hcc, setPathTarget_task hp]
    · rw [if_neg hcc, if_neg hcc]
  refine ⟨?_, h.qfNodup, ?_, ?_, ?_, ?_, ?_, h.noHaulQ, h.followShape,
    h.gatherUnique, h.pickupUnique⟩
  · rw [updateCol_ids cols c0id _ hIdf]
    exact h.colNodup
  · intro i hi
    exact lt_trans (h.qfLt i hi) (Nat.lt_succ_self nid)
  · intro c' hc' u hu
    obtain ⟨c, hc, rfl⟩ := mem_updateCol_iff.mp hc'
    rw [hTf] at hu
    by_cases hcc : c.id = c0id
    · rw [if_pos hcc] at hu
      injection hu with hu'
      rw [← hu', hid]
      omega
    · rw [if_neg hcc] at hu
      exact lt_trans (h.heldLt c hc u hu) (Nat.lt_succ_self nid)
  · intro c' hc' u hu hk'
    obtain ⟨c, hc, rfl⟩ := mem_updateCol_iff.mp hc'
    rw [hTf] at hu
    by_cases hcc : c.id = c0id
    · rw [if_pos hcc] at hu
      injection hu with hu'
      exact absurd (hu' ▸ hkind) hk'
    · rw [if_neg hcc] at hu
      rw [updateEntry_id c0id _ hIdf]
      exact h.heldQueue c hc u hu hk'
  · intro c' hc' u hu hk'
    obtain ⟨c, hc, rfl⟩ := mem_updateCol_iff.mp hc'
    rw [hTf] at hu
    rw [updateEntry_id c0id _ hIdf]
    by_cases hcc : c.id = c0id
    · rw [if_pos hcc] at hu
      injection hu with hu'
      subst hu'
      refine ⟨by rw [hass, hcc], hfu, ?_⟩
      intro hm
      have hlt := h.qfLt _ hm
      rw [hid] at hlt
      omega
    · rw [if_neg hcc] at hu
      exact h.heldHaul c hc u hu hk'
  · intro c1' hc1' c2' hc2' t1 t2 h1 h2 k1 k2 he
    obtain ⟨c1, hc1, rfl⟩ := mem_updateCol_iff.mp hc1'
    obtain ⟨c2, hc2, rfl⟩ := mem_updateCol_iff.mp hc2'
    rw [hTf] at h1
    rw [hTf] at h2
    by_cases h1c : c1.id = c0id <;> by_cases h2c : c2.id = c0id
    · have hc12 : c1 = c2 :=
        nodup_map_inj h.colNodup c1 hc1 c2 hc2 (by rw [h1c, h2c])
      rw [hc12]
    · rw [if_pos h1c] at h1
      injection h1 with h1'
      rw [if_neg h2c] at h2
      have hlt := h.heldLt c2 hc2 t2 h2
      exfalso
      rw [← h1', hid] at he
      omega
    · rw [if_neg h1c] at h1
      rw [if_pos h2c] at h2
      injection h2 with h2'
      have hlt := h.heldLt c1 hc1 t1 h1
      exfalso
      rw [← h2', hid] at he
      omega
    · rw [if_neg h1c] at h1
      rw [if_neg h2c] at h2
      rw [h.haulDistinct c1 hc1 c2 hc2 t1 t2 h1 h2 k1 k2 he]

/-- Claiming an unassigned queue task for a colonist (queue `assigned`
write plus colonist task/route setup) preserves the invariant. -/
theorem TaskInv.assignQueue {tasks : List Task} {cols : List Colonist}
    {nid : Nat} (h : TaskInv tasks cols nid) (c0id : Nat) (t : Task)
    (htm : t ∈ tasks) (hta : t.assigned = none) (path : List Pos)
    (hp : path ≠ []) :
    TaskInv (setTaskAssigned tasks t.id (some c0id))
      (updateCol cols c0id (fun c =>
        setPathTarget c { t with assigned := some c0id } path)) nid := by
  obtain ⟨hA, hC, hAC⟩ := List.nodup_append.mp h.qfNodup
  have hAmap : (tasks.map (fun u => u.id)).Nodup := hA
  have hknh : t.kind ≠ TaskKind.haul := h.noHaulQ t htm
  have hIdf : ∀ c : Colonist,
      ((fun c => setPathTarget c { t with assigned := some c0id } path) c).id =
        c.id := fun c => setPathTarget_id c _ path
  have hTf : ∀ c : Colonist,
      (if c.id = c0id then
        setPathTarget c { t with assigned := some c0id } path else c).task =
        (if c.id = c0id then some { t with assigned := some c0id }
          else c.task) := by
    intro c
    by_cases hcc : c.id = c0id
    · rw [if_pos hcc, if_pos hcc, setPathTarget_task hp]
    · rw [if_neg hcc, if_neg hcc]
  have hne_other : ∀ c0 ∈ cols, ∀ t' : Task, c0.task = some t' →
      t'.kind ≠ TaskKind.haul → t'.id ≠ t.id := by
    intro c0 hc0 t' ht' hk' he
    obtain ⟨htm', hta'⟩ := h.heldQueue c0 hc0 t' ht' hk'
    have : t' = t := nodup_map_inj hAmap t' htm' t htm he
    rw [this] at hta'
    rw [hta'] at hta
    cases hta
  refine ⟨?_, ?_, ?_, ?_, ?_, ?_, ?_, ?_, ?_, ?_, ?_⟩
  · rw [updateCol_ids cols c0id _ hIdf]
    exact h.colNodup
  · rw [taskIds_setTaskAssigned, followIds_setTaskAssigned]
    exact h.qfNodup
  · rw [taskIds_setTaskAssigned, followIds_setTaskAssigned]
    exact h.qfLt
  · intro c' hc' u hu
    obtain ⟨c, hc, rfl⟩ := mem_updateCol_iff.mp hc'
    rw [hTf] at hu
    by_cases hcc : c.id = c0id
    · rw [if_pos hcc] at hu
      injection hu with hu'
      rw [← hu']
      exact h.qfLt t.id (List.mem_append.mpr
        (Or.inl (mem_taskIds.mpr ⟨t, htm, rfl⟩)))
    · rw [if_neg hcc] at hu
      exact h.heldLt c hc u hu
  · intro c' hc' u hu hk'
    obtain ⟨c, hc, rfl⟩ := mem_updateCol_iff.mp hc'
    rw [hTf] at hu
    rw [updateEntry_id c0id _ hIdf]
    by_cases hcc : c.id = c0id
    · rw [if_pos hcc] at hu
      injection hu with hu'
      rw [← hu']
      rw [hcc]
      exact ⟨setTaskAssigned_mem_self htm, rfl⟩
    · rw [if_neg hcc] at hu
      obtain ⟨htm', hta'⟩ := h.heldQueue c hc u hu hk'
      have hne := hne_other c hc u hu hk'
      exact ⟨setTaskAssigned_mem_of_ne htm' hne, hta'⟩
  · intro c' hc' u hu hk'
    obtain ⟨c, hc, rfl⟩ := mem_updateCol_iff.mp hc'
    rw [hTf] at hu
    rw [updateEntry_id c0id _ hIdf]
    by_cases hcc : c.id = c0id
    · rw [if_pos hcc] at hu
      injection hu with hu'
      exfalso
      apply hknh
      rw [← hk']
      rw [← hu']
    · rw [if_neg hcc] at hu
      obtain ⟨ha, hfu, hni⟩ := h.heldHaul c hc u hu hk'
      rw [taskIds_setTaskAssigned, followIds_setTaskAssigned]
      exact ⟨ha, hfu, hni⟩
  · intro c1' hc1' c2' hc2' t1 t2 h1 h2 k1 k2 he
    obtain ⟨c1, hc1, rfl⟩ := mem_updateCol_iff.mp hc1'
    obtain ⟨c2, hc2, rfl⟩ := mem_updateCol_iff.mp hc2'
    rw [hTf] at h1
    rw [hTf] at h2
    by_cases h1c : c1.id = c0id
    · rw [if_pos h1c] at h1
      injection h1 with h1'
      exfalso
      apply hknh
      rw [show t.kind = t1.kind from by rw [← h1']]
      exact k1
    · rw [if_neg h1c] at h1
      by_cases h2c : c2.id = c0id
      · rw [if_pos h2c] at h2
        injection h2 with h2'
        exfalso
        apply hknh
        rw [show t.kind = t2.kind from by rw [← h2']]
        exact k2
      · rw [if_neg h2c] at h2
        rw [h.haulDistinct c1 hc1 c2 hc2 t1 t2 h1 h2 k1 k2 he]
  · intro u hu
    obtain ⟨t0, hm, rfl⟩ := mem_setTaskAssigned_iff.mp hu
    rw [(setEntry_data t0 t.id (some c0id)).2.1]
    exact h.noHaulQ t0 hm
  · intro u hu bt hbt
    obtain ⟨t0, hm, rfl⟩ := mem_setTaskAssigned_iff.mp hu
    rw [(setEntry_data t0 t.id (some c0id)).2.2.2.2.2] at hbt
    rw [(setEntry_data t0 t.id (some c0id)).2.1]
    exact h.followShape t0 hm bt hbt
  · intro t1 h1 t2 h2 k1 k2 hx hy
    obtain ⟨u1, hm1, rfl⟩ := mem_setTaskAssigned_iff.mp h1
    obtain ⟨u2, hm2, rfl⟩ := mem_setTaskAssigned_iff.mp h2
    rw [(setEntry_data u1 t.id (some c0id)).2.1] at k1
    rw [(setEntry_data u2 t.id (some c0id)).2.1] at k2
    rw [(setEntry_data u1 t.id (some c0id)).2.2.1,
      (setEntry_data u2 t.id (some c0id)).2.2.1] at hx
    rw [(setEntry_data u1 t.id (some c0id)).2.2.2.1,
      (setEntry_data u2 t.id (some c0id)).2.2.2.1] at hy
    rw [h.gatherUnique u1 hm1 u2 hm2 k1 k2 hx hy]
  · intro t1 h1 t2 h2 k1 k2 hs
    obtain ⟨u1, hm1, rfl⟩ := mem_setTaskAssigned_iff.mp h1
    obtain ⟨u2, hm2, rfl⟩ := mem_setTaskAssigned_iff.mp h2
    rw [(setEntry_data u1 t.id (some c0id)).2.1] at k1
    rw [(setEntry_data u2 t.id (some c0id)).2.1] at k2
    rw [(setEntry_data u1 t.id (some c0id)).2.2.2.2.1,
      (setEntry_data u2 t.id (some c0id)).2.2.2.2.1] at hs
    rw [h.pickupUnique u1 hm1 u2 hm2 k1 k2 hs]

theorem scanTasks_some {st : SimState} {ct : Pos} :
    ∀ {l : List Task} {t : Task} {path : List Pos},
    scanTasks st ct l = some (t, path) →
    t ∈ l ∧ t.assigned = none ∧ path ≠ [] := by
  intro l
  induction l with
  | nil =>
    intro t path h
    cases h
  | cons a rest ih =>
    intro t path h
    rw [scanTasks] at h
    by_cases has : (a.assigned == none) = true
    · rw [if_pos has] at h
      cases htg : taskTarget st ct a with
      | none =>
        rw [htg] at h
        obtain ⟨h1, h2, h3⟩ := ih h
        exact ⟨List.mem_cons_of_mem a h1, h2, h3⟩
      | some tgt =>
        rw [htg] at h
        dsimp only at h
        cases hfp : findPath st.tiles ct.1 ct.2 tgt.1 tgt.2 with
        | none =>
          rw [hfp] at h
          obtain ⟨h1, h2, h3⟩ := ih h
          exact ⟨List.mem_cons_of_mem a h1, h2, h3⟩
        | some p =>
          rw [hfp] at h
          dsimp only at h
          by_cases hemp : p.isEmpty = true
          · rw [if_pos hemp] at h
            obtain ⟨h1, h2, h3⟩ := ih h
            exact ⟨List.mem_cons_of_mem a h1, h2, h3⟩
          · rw [if_neg hemp] at h
            injection h with h'
            cases h'
            refine ⟨List.mem_cons_self _ _, by simpa using has, ?_⟩
            intro hnil
            rw [hnil] at hemp
            exact hemp rfl
    · rw [if_neg has] at h
      obtain ⟨h1, h2, h3⟩ := ih h
      exact ⟨List.mem_cons_of_mem a h1, h2, h3⟩

theorem inv_colonistAssignStep (st : SimState) (c0 : Colonist)
    (h : SimInv st) : SimInv (colonistAssignStep st c0) := by
  unfold colonistAssignStep
  by_cases hidle : (!(isIdle c0)) = true
  · rw [if_pos hidle]
    exact h
  · rw [if_neg hidle]
    by_cases hcar : isCarrying c0 = true
    · rw [if_pos hcar]
      cases hht : createHaulTask st c0 with
      | none => exact h
      | some ht =>
        dsimp only
        obtain ⟨hid, hkind, hass, hfu⟩ := createHaulTask_some hht
        cases hfp : findPath st.tiles (getColonistTile c0).1
            (getColonistTile c0).2 ht.x ht.y with
        | none => exact h.mono (Nat.le_succ _)
        | some path =>
          dsimp only
          by_cases hemp : path.isEmpty = true
          · rw [if_pos hemp]
            exact h.mono (Nat.le_succ _)
          · rw [if_neg hemp]
            refine h.assignHaul c0.id ht path ?_ hid hkind hass hfu
            intro hnil
            rw [hnil] at hemp
            exact hemp rfl
    · rw [if_neg hcar]
      cases hsc : scanTasks st (getColonistTile c0) st.tasks with
      | none => exact h
      | some pr =>
        obtain ⟨t, path⟩ := pr
        dsimp only
        obtain ⟨htm, hta, hp⟩ := scanTasks_some hsc
        exact h.assignQueue c0.id t htm hta path hp

theorem inv_pickupSynthStep (st : SimState) (s : Stack) (h : SimInv st) :
    SimInv (pickupSynthStep st s) := by
  unfold pickupSynthStep
  by_cases hany : (st.tasks.any fun t =>
      t.kind == TaskKind.pickup && t.stackId == some s.id) = true
  · rw [if_pos hany]
    exact h
  · rw [if_neg hany]
    cases hfs : findAvailableStockpile st s.type s.x s.y with
    | none => exact h
    | some sp => exact inv_applyCreatePickup st s h

theorem inv_pickup_fold :
    ∀ (l : List Stack) (st : SimState), SimInv st →
      SimInv (l.foldl pickupSynthStep st) := by
  intro l
  induction l with
  | nil => intro st h; exact h
  | cons s rest ih =>
    intro st h
    rw [List.foldl_cons]
    exact ih _ (inv_pickupSynthStep st s h)

theorem inv_colonist_fold :
    ∀ (l : List Colonist) (st : SimState), SimInv st →
      SimInv (l.foldl colonistAssignStep st) := by
  intro l
  induction l with
  | nil => intro st h; exact h
  | cons c rest ih =>
    intro st h
    rw [List.foldl_cons]
    exact ih _ (inv_colonistAssignStep st c h)

theorem inv_assignTasks (st : SimState) (h : SimInv st) :
    SimInv (assignTasks st) := by
  unfold assignTasks
  exact inv_colonist_fold _ _ (inv_pickup_fold (getGroundStacks st) st h)

end Talos
namespace Talos

theorem inv_step {st st' : SimState} (hstep : Step st st') (h : SimInv st) :
    SimInv st' := by
  cases hstep with
  | createGather x y => exact inv_applyCreateGather st x y h
  | createDemolish x y => exact inv_applyCreateDemolish st x y h
  | createBuild x y b => exact inv_applyCreateBuild st x y b h
  | createPickup s => exact inv_applyCreatePickup st s h
  | assign => exact inv_assignTasks st h
  | move cid => exact inv_updateColonistMovement st cid h
  | mutate cid x y path pIdx tx ty w =>
    exact inv_applyColMutate st cid x y path pIdx tx ty w h
  | workTick cid => exact inv_applyWorkTick st cid h
  | release cid => exact inv_clearTask st cid true h
  | finishGather cid => exact inv_completeGather st cid h
  | finishPickup cid => exact inv_completePickup st cid h
  | finishHaul cid => exact inv_completeHaul st cid h
  | finishBuild cid => exact inv_completeBuild st cid h
  | finishDemolish cid => exact inv_completeDemolish st cid h

theorem inv_init {st : SimState} (h : Init st) : SimInv st := by
  obtain ⟨htasks, -, -, hcol, hcoltask, -, -⟩ := h
  refine ⟨hcol, ?_, ?_, ?_, ?_, ?_, ?_, ?_, ?_, ?_, ?_⟩
  · rw [htasks]
    exact List.nodup_nil
  · intro i hi
    rw [htasks] at hi
    cases hi
  · intro c hc t ht
    rw [(hcoltask c hc).1] at ht
    cases ht
  · intro c hc t ht
    rw [(hcoltask c hc).1] at ht
    cases ht
  · intro c hc t ht
    rw [(hcoltask c hc).1] at ht
    cases ht
  · intro c1 hc1 c2 hc2 t1 t2 h1 h2
    rw [(hcoltask c1 hc1).1] at h1
    cases h1
  · intro t ht
    rw [htasks] at ht
    cases ht
  · intro t ht
    rw [htasks] at ht
    cases ht
  · intro t1 h1
    rw [htasks] at h1
    cases h1
  · intro t1 h1
    rw [htasks] at h1
    cases h1

theorem inv_reachable {st : SimState} (h : ReachableSim st) : SimInv st := by
  obtain ⟨st0, hinit, hsteps⟩ := h
  induction hsteps with
  | refl => exact inv_init hinit
  | tail hst hstep ih => exact inv_step hstep ih

end Talos
namespace Talos

/-- No two distinct colonists ever hold tasks with the same id. -/
theorem SimInv.heldDistinct {st : SimState} (h : SimInv st) :
    ∀ c1 ∈ st.colonists, ∀ c2 ∈ st.colonists, ∀ t1 t2 : Task,
    c1.task = some t1 → c2.task = some t2 → t1.id = t2.id → c1 = c2 := by
  intro c1 hc1 c2 hc2 t1 t2 h1 h2 he
  by_cases k1 : t1.kind = TaskKind.haul <;>
    by_cases k2 : t2.kind = TaskKind.haul
  · exact h.haulDistinct c1 hc1 c2 hc2 t1 t2 h1 h2 k1 k2 he
  · exfalso
    obtain ⟨-, -, hni⟩ := h.heldHaul c1 hc1 t1 h1 k1
    obtain ⟨htm2, -⟩ := h.heldQueue c2 hc2 t2 h2 k2
    exact hni (List.mem_append.mpr
      (Or.inl (mem_taskIds.mpr ⟨t2, htm2, he.symm⟩)))
  · exfalso
    obtain ⟨-, -, hni⟩ := h.heldHaul c2 hc2 t2 h2 k2
    obtain ⟨htm1, -⟩ := h.heldQueue c1 hc1 t1 h1 k1
    exact hni (List.mem_append.mpr
      (Or.inl (mem_taskIds.mpr ⟨t1, htm1, he⟩)))
  · obtain ⟨htm1, hta1⟩ := h.heldQueue c1 hc1 t1 h1 k1
    obtain ⟨htm2, hta2⟩ := h.heldQueue c2 hc2 t2 h2 k2
    have hA := (List.nodup_append.mp h.qfNodup).1
    have h12 : t1 = t2 := nodup_map_inj hA t1 htm1 t2 htm2 he
    rw [h12] at hta1
    rw [hta2] at hta1
    have hcid : c2.id = c1.id := by injection hta1
    exact nodup_map_inj h.colNodup c1 hc1 c2 hc2 hcid.symm

/-- C3 (amended): in every reachable state no two distinct agents hold
tasks with the same task id, and at most one unassigned gather task
targets a given cell, and at most one unassigned pickup task references
a given stack.  (The original claim also asserted per-cell uniqueness of
unassigned demolish tasks; that part is false — see the
counterexample.) -/
theorem C3_task_exclusivity (st : SimState) (h : ReachableSim st) :
    (∀ c1 ∈ st.colonists, ∀ c2 ∈ st.colonists, ∀ t1 t2 : Task,
      c1.task = some t1 → c2.task = some t2 → t1.id = t2.id → c1 = c2) ∧
    (∀ t1 ∈ st.tasks, ∀ t2 ∈ st.tasks, t1.kind = TaskKind.gather →
      t2.kind = TaskKind.gather → t1.assigned = none → t2.assigned = none →
      t1.x = t2.x → t1.y = t2.y → t1 = t2) ∧
    (∀ t1 ∈ st.tasks, ∀ t2 ∈ st.tasks, t1.kind = TaskKind.pickup →
      t2.kind = TaskKind.pickup → t1.assigned = none → t2.assigned = none →
      t1.stackId = t2.stackId → t1 = t2) := by
  have hinv := inv_reachable h
  refine ⟨hinv.heldDistinct, ?_, ?_⟩
  · intro t1 h1 t2 h2 k1 k2 _ _ hx hy
    exact hinv.gatherUnique t1 h1 t2 h2 k1 k2 hx hy
  · intro t1 h1 t2 h2 k1 k2 _ _ hs
    exact hinv.pickupUnique t1 h1 t2 h2 k1 k2 hs

/-- A fresh game: one colonist at the centre of tile (1, 0), nothing
else. -/
def simInit : SimState :=
  { tiles := openGrid
    colonists := [{ id := 0, x := 48, y := 16 }]
    tasks := []
    stockpiles := []
    itemStacks := []
    nextTaskId := 0
    nextStackId := 0 }

theorem simInit_init : Init simInit := by
  refine ⟨rfl, rfl, rfl, by decide, ?_, rfl, rfl⟩
  intro c hc
  fin_cases hc
  exact ⟨rfl, rfl⟩

theorem C3_task_exclusivity_witness :
    Init simInit ∧
    ((∀ c1 ∈ simInit.colonists, ∀ c2 ∈ simInit.colonists, ∀ t1 t2 : Task,
      c1.task = some t1 → c2.task = some t2 → t1.id = t2.id → c1 = c2) ∧
    (∀ t1 ∈ simInit.tasks, ∀ t2 ∈ simInit.tasks,
      t1.kind = TaskKind.gather → t2.kind = TaskKind.gather →
      t1.assigned = none → t2.assigned = none →
      t1.x = t2.x → t1.y = t2.y → t1 = t2) ∧
    (∀ t1 ∈ simInit.tasks, ∀ t2 ∈ simInit.tasks,
      t1.kind = TaskKind.pickup → t2.kind = TaskKind.pickup →
      t1.assigned = none → t2.assigned = none →
      t1.stackId = t2.stackId → t1 = t2)) :=
  ⟨simInit_init, C3_task_exclusivity simInit
    ⟨simInit, simInit_init, Relation.ReflTransGen.refl⟩⟩

/-- C9: movement-blocked recovery.  Whenever a colonist has a movement
target whose tile is no longer walkable, the movement update equals the
forced release: the held task's queue entry (matched by id) is set back
to unassigned, and the colonist's task, work progress, route, waypoint
index and movement target are all reset, before any position change. -/
theorem C9_blocked_recovery (st : SimState) (cid : Nat) (c : Colonist)
    (hf : findCol st cid = some c) (tx ty : Int)
    (htx : c.targetX = some tx) (hty : c.targetY = some ty)
    (hblocked : isWalkable st.tiles (pixelToTile tx ty).1
      (pixelToTile tx ty).2 = false) :
    updateColonistMovement st cid = clearTask st cid true ∧
    (∀ t : Task, c.task = some t →
      ∀ u ∈ (updateColonistMovement st cid).tasks, u.id = t.id →
        u.assigned = none) ∧
    (∀ c' ∈ (updateColonistMovement st cid).colonists, c'.id = cid →
      c'.task = none ∧ c'.workProgress = 0 ∧ c'.path = [] ∧
      c'.pathIndex = 0 ∧ c'.targetX = none ∧ c'.targetY = none) := by
  obtain ⟨hc, hcid⟩ := findCol_mem hf
  have heq : updateColonistMovement st cid = clearTask st cid true := by
    unfold updateColonistMovement
    rw [hf]
    dsimp only
    rw [htx, hty]
    dsimp only
    rw [if_pos (by rw [hblocked]; rfl)]
  refine ⟨heq, ?_, ?_⟩
  · intro t ht u hu hid
    rw [heq] at hu
    unfold clearTask at hu
    rw [hf] at hu
    dsimp only at hu
    rw [if_pos rfl, ht] at hu
    dsimp only at hu
    obtain ⟨t0, hm, rfl⟩ := mem_setTaskAssigned_iff.mp hu
    by_cases h0 : t0.id = t.id
    · rw [if_pos h0]
    · rw [if_neg h0] at hid ⊢
      exact absurd hid h0
  · intro c' hc' hcid'
    rw [heq] at hc'
    unfold clearTask at hc'
    rw [hf] at hc'
    dsimp only at hc'
    rw [if_pos rfl] at hc'
    cases ht : c.task with
    | none =>
      rw [ht] at hc'
      dsimp only at hc'
      obtain ⟨c0, hc0, rfl⟩ := mem_updateCol_iff.mp hc'
      by_cases h0 : c0.id = cid
      · rw [if_pos h0]
        exact ⟨rfl, rfl, rfl, rfl, rfl, rfl⟩
      · rw [if_neg h0] at hcid' ⊢
        exact absurd hcid' h0
    | some t =>
      rw [ht] at hc'
      dsimp only at hc'
      obtain ⟨c0, hc0, rfl⟩ := mem_updateCol_iff.mp hc'
      by_cases h0 : c0.id = cid
      · rw [if_pos h0]
        exact ⟨rfl, rfl, rfl, rfl, rfl, rfl⟩
      · rw [if_neg h0] at hcid' ⊢
        exact absurd hcid' h0

/-- A colonist en route to tile (2, 0) of `cexGrid9` (a tree — not
walkable), holding the gather task that is also queued as assigned. -/
def cexGrid9 : Grid := fun x y =>
  if x = 2 ∧ y = 0 then Tile.TREE else Tile.GRASS

def c9Task : Task :=
  { id := 0, kind := .gather, x := 2, y := 0,
    resource := some ResourceType.wood, assigned := some 0 }

def c9Col : Colonist :=
  { id := 0, x := 48, y := 16, task := some c9Task,
    path := [(1, 0), (2, 0)], pathIndex := 1,
    targetX := some 80, targetY := some 16 }

def c9State : SimState :=
  { tiles := cexGrid9
    colonists := [c9Col]
    tasks := [c9Task]
    stockpiles := []
    itemStacks := []
    nextTaskId := 1
    nextStackId := 0 }

theorem C9_blocked_recovery_witness :
    findCol c9State 0 = some c9Col ∧ c9Col.targetX = some 80 ∧
    c9Col.targetY = some 16 ∧
    isWalkable c9State.tiles (pixelToTile 80 16).1 (pixelToTile 80 16).2 =
      false ∧
    (updateColonistMovement c9State 0 = clearTask c9State 0 true ∧
    (∀ t : Task, c9Col.task = some t →
      ∀ u ∈ (updateColonistMovement c9State 0).tasks, u.id = t.id →
        u.assigned = none) ∧
    (∀ c' ∈ (updateColonistMovement c9State 0).colonists, c'.id = 0 →
      c'.task = none ∧ c'.workProgress = 0 ∧ c'.path = [] ∧
      c'.pathIndex = 0 ∧ c'.targetX = none ∧ c'.targetY = none)) :=
  ⟨by decide, rfl, rfl, by decide,
    C9_blocked_recovery c9State 0 c9Col (by decide) 80 16 rfl rfl (by decide)⟩

end Talos
namespace Talos

/-! ### A concrete run of the simulation

Two trees, one wall, one colonist.  The colonist builds a stockpile,
gathers and hauls two wood, and then the player queues a plain demolish
of the wall followed by a door build over the same wall — which mints a
second, independent demolish task for that cell. -/

def cexGrid : Grid := fun x y =>
  if x = 2 ∧ y = 0 then Tile.TREE
  else if x = 3 ∧ y = 0 then Tile.TREE
  else if x = 1 ∧ y = 1 then Tile.WALL
  else Tile.GRASS

def cexInit : SimState :=
  { tiles := cexGrid
    colonists := [{ id := 0, x := 48, y := 16 }]
    tasks := []
    stockpiles := []
    itemStacks := []
    nextTaskId := 0
    nextStackId := 0 }

def cexS1 := applyCreateBuild cexInit 0 0 BuildKind.stockpile
def cexS2 := assignTasks cexS1
def cexS3 := completeBuild cexS2 0
def cexS4 := applyCreateGather cexS3 2 0
def cexS5 := assignTasks cexS4
def cexS6 := completeGather cexS5 0
def cexS7 := assignTasks cexS6
def cexS8 := completePickup cexS7 0
def cexS9 := assignTasks cexS8
def cexS10 := completeHaul cexS9 0
def cexS11 := applyCreateGather cexS10 3 0
def cexS12 := assignTasks cexS11
def cexS13 := completeGather cexS12 0
def cexS14 := assignTasks cexS13
def cexS15 := completePickup cexS14 0
def cexS16 := assignTasks cexS15
def cexS17 := completeHaul cexS16 0
def cexS18 := applyCreateDemolish cexS17 1 1
def cexS19 := applyCreateBuild cexS18 1 1 BuildKind.door
def cexS20 := assignTasks cexS19
def cexS21 := completeDemolish cexS20 0
def cexS22 := assignTasks cexS21

theorem cexInit_init : Init cexInit := by
  refine ⟨rfl, rfl, rfl, by decide, ?_, rfl, rfl⟩
  intro c hc
  fin_cases hc
  exact ⟨rfl, rfl⟩

theorem cex_reach_16 : Relation.ReflTransGen Step cexInit cexS16 :=
  (((((((((((((((Relation.ReflTransGen.refl.tail
    (Step.createBuild cexInit 0 0 BuildKind.stockpile)).tail
    (Step.assign cexS1)).tail
    (Step.finishBuild cexS2 0)).tail
    (Step.createGather cexS3 2 0)).tail
    (Step.assign cexS4)).tail
    (Step.finishGather cexS5 0)).tail
    (Step.assign cexS6)).tail
    (Step.finishPickup cexS7 0)).tail
    (Step.assign cexS8)).tail
    (Step.finishHaul cexS9 0)).tail
    (Step.createGather cexS10 3 0)).tail
    (Step.assign cexS11)).tail
    (Step.finishGather cexS12 0)).tail
    (Step.assign cexS13)).tail
    (Step.finishPickup cexS14 0)).tail
    (Step.assign cexS15)

theorem cex_reach_19 : Relation.ReflTransGen Step cexInit cexS19 :=
  ((cex_reach_16.tail
    (Step.finishHaul cexS16 0)).tail
    (Step.createDemolish cexS17 1 1)).tail
    (Step.createBuild cexS18 1 1 BuildKind.door)

theorem cex_reach_22 : Relation.ReflTransGen Step cexInit cexS22 :=
  ((cex_reach_19.tail
    (Step.assign cexS19)).tail
    (Step.finishDemolish cexS20 0)).tail
    (Step.assign cexS21)

/-- C3 counterexample: the state `cexS19` is reachable, yet its queue
holds two distinct unassigned demolish tasks for the same cell (1, 1):
the player-queued demolish and the demolish minted by the door-over-wall
build, whose creation path performs no duplicate check. -/
theorem C3_task_exclusivity_cex :
    ReachableSim cexS19 ∧
    ∃ t1 ∈ cexS19.tasks, ∃ t2 ∈ cexS19.tasks,
      t1.kind = TaskKind.demolish ∧ t2.kind = TaskKind.demolish ∧
      t1.assigned = none ∧ t2.assigned = none ∧
      t1.x = t2.x ∧ t1.y = t2.y ∧ t1 ≠ t2 :=
  ⟨⟨cexInit, cexInit_init, cex_reach_19⟩, by decide⟩

/-- The haul task held at `cexS16` and its holder. -/
def haul6T : Task :=
  { id := 6, kind := .haul, x := 0, y := 0, assigned := some 0 }

def c16 : Colonist :=
  { id := 0, x := 48, y := 16, task := some haul6T,
    carrying := some (ResourceType.wood, 1), carryingStackId := some 2,
    path := [(1, 0), (0, 0)], pathIndex := 0,
    targetX := some 48, targetY := some 16 }

/-- A carrying colonist used to exercise `createHaulTask` directly. -/
def haulQueryCol : Colonist :=
  { id := 5, x := 16, y := 16, carrying := some (ResourceType.wood, 1) }

/-- C10: haul tasks never enter the shared task queue.  In every
reachable state the queue holds no haul-kind task; `createHaulTask`
returns a task already assigned to the requesting colonist; and
force-releasing a held haul task leaves the queue unchanged — the task
is discarded rather than returned to the claimable pool. -/
theorem C10_no_haul_in_queue :
    (∀ st : SimState, ReachableSim st → ∀ t ∈ st.tasks,
      t.kind ≠ TaskKind.haul) ∧
    (∀ (st : SimState) (c : Colonist) (t : Task),
      createHaulTask st c = some t →
      t.kind = TaskKind.haul ∧ t.assigned = some c.id) ∧
    (∀ (st : SimState) (cid : Nat) (c : Colonist) (t : Task),
      ReachableSim st → findCol st cid = some c → c.task = some t →
      t.kind = TaskKind.haul → (clearTask st cid true).tasks = st.tasks) := by
  refine ⟨?_, ?_, ?_⟩
  · intro st h t ht
    exact (inv_reachable h).noHaulQ t ht
  · intro st c t h
    obtain ⟨-, hk, ha, -⟩ := createHaulTask_some h
    exact ⟨hk, ha⟩
  · intro st cid c t h hf htk hkind
    have hinv := inv_reachable h
    obtain ⟨hc, hcid⟩ := findCol_mem hf
    obtain ⟨-, -, hni⟩ := hinv.heldHaul c hc t htk hkind
    unfold clearTask
    rw [hf]
    dsimp only
    rw [if_pos rfl, htk]
    dsimp only
    show setTaskAssigned st.tasks t.id none = st.tasks
    apply setTaskAssigned_eq_of_forall
    intro u hu he
    exact hni (List.mem_append.mpr (Or.inl (mem_taskIds.mpr ⟨u, hu, he⟩)))

theorem C10_no_haul_in_queue_witness :
    (∀ t ∈ cexS16.tasks, t.kind ≠ TaskKind.haul) ∧
    (createHaulTask storageState haulQueryCol =
        some { id := 0, kind := .haul, x := 5, y := 0, assigned := some 5 } ∧
      ({ id := 0, kind := .haul, x := 5, y := 0,
          assigned := some 5 } : Task).kind = TaskKind.haul ∧
      ({ id := 0, kind := .haul, x := 5, y := 0,
          assigned := some 5 } : Task).assigned = some haulQueryCol.id) ∧
    (findCol cexS16 0 = some c16 ∧ c16.task = some haul6T ∧
      haul6T.kind = TaskKind.haul ∧
      (clearTask cexS16 0 true).tasks = cexS16.tasks) := by
  refine ⟨?_, ⟨by decide, ?_⟩, ⟨by decide, rfl, rfl, ?_⟩⟩
  · exact C10_no_haul_in_queue.1 cexS16 ⟨cexInit, cexInit_init, cex_reach_16⟩
  · exact C10_no_haul_in_queue.2.1 storageState haulQueryCol _ (by decide)
  · exact C10_no_haul_in_queue.2.2 cexS16 0 c16 haul6T
      ⟨cexInit, cexInit_init, cex_reach_16⟩ (by decide) rfl rfl

end Talos
namespace Talos

/-- A successful `payCost` deducts exactly the cost map's per-type
amounts from the stockpile totals. -/
theorem payCost_total (st : SimState) (cost : List (ResourceType × Nat))
    (hnd : (cost.map Prod.fst).Nodup)
    (hpos : ∀ s ∈ st.itemStacks, 0 < s.amount)
    (hca : canAfford st cost = true) :
    ∀ r, getTotalStockpileResources (payCost st cost).2 r + costAmt cost r =
      getTotalStockpileResources st r := by
  have hpc : payCost st cost =
      (true, { st with itemStacks := cost.foldl (fun acc e => (drainStacks e.1 acc e.2).filter (fun s => decide (0 < s.amount))) st.itemStacks }) := by
    unfold payCost
    rw [if_neg (by rw [hca]; exact (by decide : ¬((!true) = true)))]
  have hsuff' : ∀ e ∈ cost, e.2 ≤ totalList e.1 st.itemStacks := by
    intro e he
    rw [← getTotal_eq_totalList]
    exact (canAfford_iff st cost).mp hca e he
  obtain ⟨htot, -, -⟩ := payFold_props cost st.itemStacks hnd hsuff' hpos
  intro r
  rw [hpc, getTotal_eq_totalList, getTotal_eq_totalList]
  exact htot r

theorem clearTask_false_tasks (S : SimState) (cid : Nat) :
    (clearTask S cid false).tasks = S.tasks := by
  unfold clearTask
  cases hf : findCol S cid with
  | none => rfl
  | some c =>
    dsimp only
    rw [if_neg (by decide : ¬(false = true))]

theorem removeTaskById_id_ne {tasks : List Task} {t : Task}
    (hmem : t ∈ tasks) (hnd : (taskIds tasks).Nodup) :
    ∀ u ∈ removeTaskById tasks t.id, u.id ≠ t.id := by
  obtain ⟨l1, l2, hsplit, hrm, hl1⟩ := removeTaskById_split tasks t hmem hnd
  rw [hrm]
  rw [hsplit, taskIds_append, taskIds_cons] at hnd
  obtain ⟨-, hcons, -⟩ := List.nodup_append.mp hnd
  have hnl2 : t.id ∉ taskIds l2 := (List.nodup_cons.mp hcons).1
  intro u hu he
  rcases List.mem_append.mp hu with hm | hm
  · exact hl1 u hm he
  · exact hnl2 (mem_taskIds.mpr ⟨u, hm, he⟩)

/-- The pending follow-up build task minted by the door-over-wall branch
of `createBuildTask`, for counter value `n`. -/
def doorFollowUp (n : Nat) (x y : Int) : TaskBase :=
  { id := n + 1, kind := .build, x := x, y := y,
    buildType := some BuildKind.door, pendingAfterDemolish := true }

/-- The demolish task minted by the door-over-wall branch of
`createBuildTask`, carrying the pending door build as follow-up. -/
def doorDemolish (n : Nat) (x y : Int) : Task :=
  { id := n, kind := .demolish, x := x, y := y,
    followUpTask := some (doorFollowUp n x y) }

/-- C4: door-over-wall two-phase ordering.  Requesting a door on a wall
cell (affordably) deducts the door cost at creation time and returns a
demolish task carrying the pending door build task as follow-up payload,
without touching the queue; in every reachable state no queue entry
shares an id with a pending follow-up (so the queue never holds a
demolish task and its follow-up simultaneously); and completing a held
demolish with a follow-up enqueues exactly that follow-up while the
demolish leaves the queue. -/
theorem C4_door_two_phase :
    (∀ (st : SimState) (x y : Int), isInBounds x y = true →
      st.tiles x y = Tile.WALL →
      (∀ s ∈ st.itemStacks, 0 < s.amount) →
      canAfford st (buildingCost BuildKind.door) = true →
      ∃ dt st', createBuildTask st x y BuildKind.door = (some dt, st') ∧
        dt.kind = TaskKind.demolish ∧ dt.x = x ∧ dt.y = y ∧
        dt.assigned = none ∧
        (∃ bt : TaskBase, dt.followUpTask = some bt ∧
          bt.kind = TaskKind.build ∧ bt.buildType = some BuildKind.door ∧
          bt.x = x ∧ bt.y = y ∧ bt.assigned = none ∧
          bt.pendingAfterDemolish = true) ∧
        (∀ r, getTotalStockpileResources st' r +
            costAmt (buildingCost BuildKind.door) r =
          getTotalStockpileResources st r) ∧
        st'.tasks = st.tasks) ∧
    (∀ st : SimState, ReachableSim st → ∀ t ∈ st.tasks,
      ∀ bt : TaskBase, t.followUpTask = some bt →
        ∀ t' ∈ st.tasks, t'.id ≠ bt.id) ∧
    (∀ (st : SimState) (cid : Nat) (c : Colonist) (t : Task)
      (bt : TaskBase), ReachableSim st → findCol st cid = some c →
      c.task = some t → t.kind = TaskKind.demolish →
      t.followUpTask = some bt →
      ({ toTaskBase := bt } : Task) ∈ (completeDemolish st cid).tasks ∧
      ∀ t' ∈ (completeDemolish st cid).tasks, t'.id ≠ t.id) := by
  refine ⟨?_, ?_, ?_⟩
  · intro st x y hin hwall hpos hca
    have hp1 : (payCost st (buildingCost BuildKind.door)).1 = true := by
      unfold payCost
      rw [if_neg (by rw [hca]; exact (by decide : ¬((!true) = true)))]
    have heq : createBuildTask st x y BuildKind.door =
        (some (doorDemolish st.nextTaskId x y), { (payCost st (buildingCost BuildKind.door)).2 with nextTaskId := st.nextTaskId + 2 }) := by
      simp only [createBuildTask]
      rw [if_neg (by rw [hin]; exact (by decide : ¬((!true) = true)))]
      rw [if_pos (by rw [hwall]; rfl)]
      rw [if_neg (by rw [hp1]; exact (by decide : ¬((!true) = true)))]
      rfl
    refine ⟨_, _, heq, rfl, rfl, rfl, rfl, ⟨_, rfl, rfl, rfl, rfl, rfl,
      rfl, rfl⟩, ?_, ?_⟩
    · exact payCost_total st (buildingCost BuildKind.door) (by decide)
        hpos hca
    · exact (payCost_frame st (buildingCost BuildKind.door)).1
  · intro st h t ht bt hbt t' ht' he
    have hinv := inv_reachable h
    obtain ⟨-, -, hAC⟩ := List.nodup_append.mp hinv.qfNodup
    exact hAC (mem_taskIds.mpr ⟨t', ht', he⟩)
      (mem_followIds.mpr ⟨t, ht, bt, hbt, rfl⟩)
  · intro st cid c t bt h hf htk hkd hft
    have hinv := inv_reachable h
    obtain ⟨hc, hcid⟩ := findCol_mem hf
    have hknh : t.kind ≠ TaskKind.haul := by
      rw [hkd]
      intro hco
      cases hco
    obtain ⟨htm, -⟩ := hinv.heldQueue c hc t htk hknh
    obtain ⟨hA, -, hAC⟩ := List.nodup_append.mp hinv.qfNodup
    have hbtC : bt.id ∈ followIds st.tasks :=
      mem_followIds.mpr ⟨t, htm, bt, hft, rfl⟩
    have hne : bt.id ≠ t.id := by
      intro he
      exact hAC (mem_taskIds.mpr ⟨t, htm, he.symm⟩) hbtC
    have hcd : completeDemolish st cid = clearTask { st with tiles := setTileG st.tiles t.x t.y Tile.RUBBLE, tasks := removeTaskById (st.tasks ++ [({ toTaskBase := bt } : Task)]) t.id } cid false := by
      unfold completeDemolish
      rw [hf]
      dsimp only
      rw [htk]
      dsimp only
      rw [if_pos (by rw [hkd]; rfl)]
      rw [hft]
    rw [hcd, clearTask_false_tasks]
    constructor
    · show ({ toTaskBase := bt } : Task) ∈
        removeTaskById (st.tasks ++ [({ toTaskBase := bt } : Task)]) t.id
      apply mem_removeTaskById_of_ne
      · exact List.mem_append.mpr (Or.inr (List.mem_singleton.mpr rfl))
      · exact hne
    · show ∀ t' ∈ removeTaskById
        (st.tasks ++ [({ toTaskBase := bt } : Task)]) t.id, t'.id ≠ t.id
      rw [removeTaskById_append_left _ _ _ ⟨t, htm, rfl⟩]
      intro t' ht' he
      rcases List.mem_append.mp ht' with hm | hm
      · exact removeTaskById_id_ne htm hA t' hm he
      · rw [List.mem_singleton.mp hm] at he
        exact hne he

/-- A wall at (1, 1) and two wood in the stockpile at (0, 0). -/
def doorState : SimState :=
  { tiles := cexGrid
    colonists := []
    tasks := []
    stockpiles := [(0, 0)]
    itemStacks := [⟨0, ResourceType.wood, 2, StackLocation.stockpile, 0, 0⟩]
    nextTaskId := 0
    nextStackId := 1 }

theorem C4_door_two_phase_witness :
    (isInBounds 1 1 = true ∧ doorState.tiles 1 1 = Tile.WALL ∧
      (∀ s ∈ doorState.itemStacks, 0 < s.amount) ∧
      canAfford doorState (buildingCost BuildKind.door) = true ∧
      (∃ dt st', createBuildTask doorState 1 1 BuildKind.door =
          (some dt, st') ∧
        dt.kind = TaskKind.demolish ∧ dt.x = 1 ∧ dt.y = 1 ∧
        dt.assigned = none ∧
        (∃ bt : TaskBase, dt.followUpTask = some bt ∧
          bt.kind = TaskKind.build ∧ bt.buildType = some BuildKind.door ∧
          bt.x = 1 ∧ bt.y = 1 ∧ bt.assigned = none ∧
          bt.pendingAfterDemolish = true) ∧
        (∀ r, getTotalStockpileResources st' r +
            costAmt (buildingCost BuildKind.door) r =
          getTotalStockpileResources doorState r) ∧
        st'.tasks = doorState.tasks)) ∧
    (ReachableSim cexS19 ∧
      ∀ t ∈ cexS19.tasks, ∀ bt : TaskBase, t.followUpTask = some bt →
        ∀ t' ∈ cexS19.tasks, t'.id ≠ bt.id) ∧
    (ReachableSim cexS22 ∧
      ∀ (c : Colonist) (t : Task) (bt : TaskBase),
        findCol cexS22 0 = some c → c.task = some t →
        t.kind = TaskKind.demolish → t.followUpTask = some bt →
        ({ toTaskBase := bt } : Task) ∈ (completeDemolish cexS22 0).tasks ∧
        ∀ t' ∈ (completeDemolish cexS22 0).tasks, t'.id ≠ t.id) := by
  have hr19 : ReachableSim cexS19 := ⟨cexInit, cexInit_init, cex_reach_19⟩
  have hr22 : ReachableSim cexS22 := ⟨cexInit, cexInit_init, cex_reach_22⟩
  refine ⟨⟨by decide, by decide, ?_, by decide, ?_⟩, ⟨hr19, ?_⟩, hr22, ?_⟩
  · intro s hs
    fin_cases hs
    decide
  · exact C4_door_two_phase.1 doorState 1 1 (by decide) (by decide)
      (by intro s hs; fin_cases hs; decide) (by decide)
  · exact C4_door_two_phase.2.1 cexS19 hr19
  · intro c t bt hf htk hkd hft
    exact C4_door_two_phase.2.2 cexS22 0 c t bt hr22 hf htk hkd hft

end Talos
namespace Talos

/-! ### Flood-fill analysis (rooms.js): invariants of the stack loop -/

/-- The four cells `floodFill` pushes for a visited cell, in push order. -/
def nbrs (p : Pos) : List Pos :=
  [(p.1, p.2 - 1), (p.1, p.2 + 1), (p.1 - 1, p.2), (p.1 + 1, p.2)]

/-- A cell the flood fill will enter: in bounds and not wall/tree/rock. -/
def openCell (g : Grid) (p : Pos) : Bool := isInterior g p.1 p.2

/-- `p` is reachable from `s` through 4-adjacent open cells (every cell
after `s` open). -/
def ReachO (g : Grid) (s p : Pos) : Prop :=
  Relation.ReflTransGen (fun a b => b ∈ nbrs a ∧ openCell g b = true) s p

/-- A cell on the outermost ring of the map, where a flood-fill visit
sets `touchesEdge`. -/
def borderB (p : Pos) : Bool :=
  decide (p.1 = 0 ∨ p.1 = mapWidth - 1 ∨ p.2 = 0 ∨ p.2 = mapHeight - 1)

/-- Open in-bounds cells not yet in the visited set; the loop's
termination measure counts them. -/
def unvisCount (g : Grid) (v : List Pos) : Nat :=
  (allCells.filter (fun q => openCell g q && !(v.contains q))).length

theorem ffl_nil (g : Grid) (b : Bool) (v til : List Pos) (fuel : Nat) :
    floodFillLoop g fuel [] v til b = (til, b, v) := by
  cases fuel <;> rfl

theorem ffl_cons (g : Grid) (b : Bool) (v til rest : List Pos)
    (fuel : Nat) (x y : Int) :
    floodFillLoop g (fuel + 1) ((x, y) :: rest) v til b =
    (if v.contains (x, y) then floodFillLoop g fuel rest v til b
     else if !(isInBounds x y) then floodFillLoop g fuel rest v til true
     else if isWall g x y then floodFillLoop g fuel rest v til b
     else if !(isInterior g x y) then floodFillLoop g fuel rest v til b
     else floodFillLoop g fuel
       ((x, y - 1) :: (x, y + 1) :: (x - 1, y) :: (x + 1, y) :: rest)
       ((x, y) :: v) (til ++ [(x, y)])
       (b || decide (x = 0 ∨ x = mapWidth - 1 ∨ y = 0 ∨ y = mapHeight - 1))) :=
  rfl

theorem interior_inBounds {g : Grid} {x y : Int}
    (h : isInterior g x y = true) : isInBounds x y = true := by
  unfold isInterior at h
  rw [Bool.and_eq_true, Bool.and_eq_true, Bool.and_eq_true] at h
  exact h.1.1.1

theorem interior_not_wall {g : Grid} {x y : Int}
    (h : isInterior g x y = true) : isWall g x y = false := by
  have hnw : (g x y == Tile.WALL) = false := by
    unfold isInterior at h
    rw [Bool.and_eq_true, Bool.and_eq_true, Bool.and_eq_true] at h
    have := h.1.1.2
    cases hgw : (g x y == Tile.WALL) with
    | false => rfl
    | true => rw [hgw] at this; exact absurd this (by decide)
  unfold isWall
  rw [hnw, Bool.and_false]

theorem wall_inBounds {g : Grid} {x y : Int}
    (h : isWall g x y = true) : isInBounds x y = true := by
  unfold isWall at h
  exact (Bool.and_eq_true _ _ |>.mp h).1

/-- The visited set only grows through the loop. -/
theorem ffl_visited_mono (g : Grid) :
    ∀ (fuel : Nat) (stack v til : List Pos) (b : Bool) (p : Pos),
      p ∈ v → p ∈ (floodFillLoop g fuel stack v til b).2.2 := by
  intro fuel
  induction fuel with
  | zero => intro stack v til b p hp; exact hp
  | succ n ih =>
    intro stack v til b p hp
    cases stack with
    | nil => exact hp
    | cons hd rest =>
      obtain ⟨x, y⟩ := hd
      rw [ffl_cons]
      split_ifs
      · exact ih rest v til b p hp
      · exact ih rest v til true p hp
      · exact ih rest v til b p hp
      · exact ih rest v til b p hp
      · exact ih _ _ _ _ p (List.mem_cons_of_mem _ hp)

/-- Every cell the loop adds to the visited set satisfies any predicate
that holds on the open stack cells and is closed under stepping to open
neighbours. -/
theorem ffl_visited_sound (g : Grid) (R : Pos → Prop)
    (hcl : ∀ a, R a → ∀ q ∈ nbrs a, openCell g q = true → R q) :
    ∀ (fuel : Nat) (stack v til : List Pos) (b : Bool),
      (∀ q ∈ stack, openCell g q = true → R q) →
      ∀ p ∈ (floodFillLoop g fuel stack v til b).2.2, p ∈ v ∨ R p := by
  intro fuel
  induction fuel with
  | zero => intro stack v til b _ p hp; exact Or.inl hp
  | succ n ih =>
    intro stack v til b hst
    cases stack with
    | nil => intro p hp; exact Or.inl hp
    | cons hd rest =>
      obtain ⟨x, y⟩ := hd
      have hrest : ∀ q ∈ rest, openCell g q = true → R q :=
        fun q hq => hst q (List.mem_cons_of_mem _ hq)
      rw [ffl_cons]
      split_ifs with h1 h2 h3 h4
      · exact ih rest v til b hrest
      · exact ih rest v til true hrest
      · exact ih rest v til b hrest
      · exact ih rest v til b hrest
      · have hint : isInterior g x y = true := by
          cases hxy : isInterior g x y with
          | true => rfl
          | false => exact absurd (by rw [hxy]; rfl) h4
        have hRxy : R (x, y) :=
          hst (x, y) (List.mem_cons_self _ _) hint
        have hst' : ∀ q ∈ (x, y - 1) :: (x, y + 1) :: (x - 1, y) ::
            (x + 1, y) :: rest, openCell g q = true → R q := by
          intro q hq hoq
          simp only [List.mem_cons] at hq
          rcases hq with rfl | rfl | rfl | rfl | hq'
          · exact hcl (x, y) hRxy (x, y - 1) (by unfold nbrs; simp) hoq
          · exact hcl (x, y) hRxy (x, y + 1) (by unfold nbrs; simp) hoq
          · exact hcl (x, y) hRxy (x - 1, y) (by unfold nbrs; simp) hoq
          · exact hcl (x, y) hRxy (x + 1, y) (by unfold nbrs; simp) hoq
          · exact hrest q hq' hoq
        intro p hp
        rcases ih _ _ _ _ hst' p hp with hv | hr
        · rcases List.mem_cons.mp hv with rfl | hv2
          · exact Or.inr hRxy
          · exact Or.inl hv2
        · exact Or.inr hr

/-- Once set, `touchesEdge` stays set. -/
theorem ffl_touches_mono (g : Grid) :
    ∀ (fuel : Nat) (stack v til : List Pos),
      (floodFillLoop g fuel stack v til true).2.1 = true := by
  intro fuel
  induction fuel with
  | zero => intro stack v til; rfl
  | succ n ih =>
    intro stack v til
    cases stack with
    | nil => rfl
    | cons hd rest =>
      obtain ⟨x, y⟩ := hd
      rw [ffl_cons]
      split_ifs
      · exact ih rest v til
      · exact ih rest v til
      · exact ih rest v til
      · exact ih rest v til
      · rw [Bool.true_or]
        exact ih _ _ _

/-- Visiting a border cell sets `touchesEdge`. -/
theorem ffl_border_touches (g : Grid) :
    ∀ (fuel : Nat) (stack v til : List Pos) (b : Bool) (p : Pos),
      p ∈ (floodFillLoop g fuel stack v til b).2.2 → p ∉ v →
      borderB p = true → (floodFillLoop g fuel stack v til b).2.1 = true := by
  intro fuel
  induction fuel with
  | zero => intro stack v til b p hp hnv _; exact absurd hp hnv
  | succ n ih =>
    intro stack v til b p hp hnv hbp
    cases stack with
    | nil => exact absurd hp hnv
    | cons hd rest =>
      obtain ⟨x, y⟩ := hd
      rw [ffl_cons] at hp ⊢
      split_ifs at hp ⊢
      · exact ih rest v til b p hp hnv hbp
      · exact ih rest v til true p hp hnv hbp
      · exact ih rest v til b p hp hnv hbp
      · exact ih rest v til b p hp hnv hbp
      · by_cases hpe : p = (x, y)
        · have hd : decide (x = 0 ∨ x = mapWidth - 1 ∨ y = 0 ∨
              y = mapHeight - 1) = true := by
            subst hpe
            exact hbp
          rw [hd, Bool.or_true]
          exact ffl_touches_mono g n _ _ _
        · exact ih _ _ _ _ p hp
            (fun hc => (List.mem_cons.mp hc).elim hpe hnv) hbp

end Talos
namespace Talos

/-- Visiting a fresh open cell strictly shrinks the unvisited count. -/
theorem unvisCount_visit (g : Grid) (v : List Pos) (x y : Int)
    (hint : isInterior g x y = true)
    (hnc : v.contains (x, y) = false) :
    unvisCount g ((x, y) :: v) < unvisCount g v := by
  unfold unvisCount
  have hfun : (fun q : Pos => openCell g q && !(((x, y) :: v).contains q)) =
      (fun q : Pos => !(q == (x, y)) && (openCell g q && !(v.contains q))) := by
    funext q
    rw [show ((x, y) :: v).contains q = (q == (x, y) || v.contains q) from rfl]
    cases openCell g q <;> cases q == (x, y) <;> cases v.contains q <;> rfl
  rw [hfun, ← List.filter_filter]
  have hmem : ((x, y) : Pos) ∈
      allCells.filter (fun q => openCell g q && !(v.contains q)) := by
    refine List.mem_filter.mpr ⟨mem_allCells (interior_inBounds hint), ?_⟩
    have ho : openCell g ((x, y) : Pos) = true := hint
    rw [ho, hnc]
    rfl
  exact List.length_filter_lt_length_iff_exists.mpr
    ⟨(x, y), hmem, by simp⟩

/-- With fuel above the loop's measure, every open cell on the stack is
in the final visited set. -/
theorem ffl_stack_visited (g : Grid) :
    ∀ (fuel : Nat) (stack v til : List Pos) (b : Bool),
      stack.length + 4 * unvisCount g v < fuel →
      ∀ q ∈ stack, openCell g q = true →
        q ∈ (floodFillLoop g fuel stack v til b).2.2 := by
  intro fuel
  induction fuel with
  | zero => intro stack v til b hf; exact absurd hf (Nat.not_lt_zero _)
  | succ n ih =>
    intro stack v til b hf q hq hoq
    cases stack with
    | nil => cases hq
    | cons hd rest =>
      obtain ⟨x, y⟩ := hd
      rw [List.length_cons] at hf
      rw [ffl_cons]
      split_ifs with h1 h2 h3 h4
      · rcases List.mem_cons.mp hq with rfl | hq'
        · exact ffl_visited_mono g n rest v til b (x, y) (List.elem_iff.mp h1)
        · exact ih rest v til b (by omega) q hq' hoq
      · rcases List.mem_cons.mp hq with rfl | hq'
        · have hb := interior_inBounds (show isInterior g x y = true from hoq)
          rw [hb] at h2
          exact absurd h2 (by decide)
        · exact ih rest v til true (by omega) q hq' hoq
      · rcases List.mem_cons.mp hq with rfl | hq'
        · have hw := interior_not_wall (show isInterior g x y = true from hoq)
          rw [hw] at h3
          exact absurd h3 (by decide)
        · exact ih rest v til b (by omega) q hq' hoq
      · rcases List.mem_cons.mp hq with rfl | hq'
        · have ho : isInterior g x y = true := hoq
          rw [ho] at h4
          exact absurd h4 (by decide)
        · exact ih rest v til b (by omega) q hq' hoq
      · have hint : isInterior g x y = true := by
          cases hxy : isInterior g x y with
          | true => rfl
          | false => exact absurd (by rw [hxy]; rfl) h4
        have hnc : v.contains (x, y) = false := by
          cases hc : v.contains (x, y) with
          | false => rfl
          | true => exact absurd hc h1
        have hdec := unvisCount_visit g v x y hint hnc
        rcases List.mem_cons.mp hq with rfl | hq'
        · exact ffl_visited_mono g n _ _ _ _ (x, y) (List.mem_cons_self _ _)
        · refine ih _ _ _ _ ?_ q ?_ hoq
          · simp only [List.length_cons]
            omega
          · exact List.mem_cons_of_mem _ (List.mem_cons_of_mem _
              (List.mem_cons_of_mem _ (List.mem_cons_of_mem _ hq')))

/-- With fuel above the loop's measure, the final visited set is closed
under stepping to open neighbours, given the same closure holds of the
initial visited set up to the initial stack. -/
theorem ffl_closed (g : Grid) :
    ∀ (fuel : Nat) (stack v til : List Pos) (b : Bool),
      stack.length + 4 * unvisCount g v < fuel →
      (∀ a ∈ v, ∀ q ∈ nbrs a, openCell g q = true → q ∈ v ∨ q ∈ stack) →
      ∀ a ∈ (floodFillLoop g fuel stack v til b).2.2, ∀ q ∈ nbrs a,
        openCell g q = true → q ∈ (floodFillLoop g fuel stack v til b).2.2 := by
  intro fuel
  induction fuel with
  | zero => intro stack v til b hf; exact absurd hf (Nat.not_lt_zero _)
  | succ n ih =>
    intro stack v til b hf hinv
    cases stack with
    | nil =>
      intro a ha q hq hoq
      rcases hinv a ha q hq hoq with hv | hs
      · exact hv
      · cases hs
    | cons hd rest =>
      obtain ⟨x, y⟩ := hd
      rw [List.length_cons] at hf
      rw [ffl_cons]
      split_ifs with h1 h2 h3 h4
      · refine ih rest v til b (by omega) ?_
        intro a ha q hq hoq
        rcases hinv a ha q hq hoq with hv | hs
        · exact Or.inl hv
        · rcases List.mem_cons.mp hs with rfl | hs'
          · exact Or.inl (List.elem_iff.mp h1)
          · exact Or.inr hs'
      · refine ih rest v til true (by omega) ?_
        intro a ha q hq hoq
        rcases hinv a ha q hq hoq with hv | hs
        · exact Or.inl hv
        · rcases List.mem_cons.mp hs with rfl | hs'
          · have hb := interior_inBounds (show isInterior g x y = true from hoq)
            rw [hb] at h2
            exact absurd h2 (by decide)
          · exact Or.inr hs'
      · refine ih rest v til b (by omega) ?_
        intro a ha q hq hoq
        rcases hinv a ha q hq hoq with hv | hs
        · exact Or.inl hv
        · rcases List.mem_cons.mp hs with rfl | hs'
          · have hw := interior_not_wall (show isInterior g x y = true from hoq)
            rw [hw] at h3
            exact absurd h3 (by decide)
          · exact Or.inr hs'
      · refine ih rest v til b (by omega) ?_
        intro a ha q hq hoq
        rcases hinv a ha q hq hoq with hv | hs
        · exact Or.inl hv
        · rcases List.mem_cons.mp hs with rfl | hs'
          · have ho : isInterior g x y = true := hoq
            rw [ho] at h4
            exact absurd h4 (by decide)
          · exact Or.inr hs'
      · have hint : isInterior g x y = true := by
          cases hxy : isInterior g x y with
          | true => rfl
          | false => exact absurd (by rw [hxy]; rfl) h4
        have hnc : v.contains (x, y) = false := by
          cases hc : v.contains (x, y) with
          | false => rfl
          | true => exact absurd hc h1
        have hdec := unvisCount_visit g v x y hint hnc
        refine ih _ _ _ _ ?_ ?_
        · simp only [List.length_cons]
          omega
        · intro a ha q hq hoq
          rcases List.mem_cons.mp ha with rfl | ha'
          · right
            have hq' : q ∈ [((x, y - 1) : Pos), (x, y + 1), (x - 1, y),
                (x + 1, y)] := hq
            simp only [List.mem_cons] at hq'
            rcases hq' with rfl | rfl | rfl | rfl | h0
            · exact List.mem_cons_self _ _
            · exact List.mem_cons_of_mem _ (List.mem_cons_self _ _)
            · exact List.mem_cons_of_mem _ (List.mem_cons_of_mem _
                (List.mem_cons_self _ _))
            · exact List.mem_cons_of_mem _ (List.mem_cons_of_mem _
                (List.mem_cons_of_mem _ (List.mem_cons_self _ _)))
            · cases h0
          · rcases hinv a ha' q hq hoq with hv | hs
            · exact Or.inl (List.mem_cons_of_mem _ hv)
            · rcases List.mem_cons.mp hs with rfl | hs'
              · exact Or.inl (List.mem_cons_self _ _)
              · exact Or.inr (List.mem_cons_of_mem _ (List.mem_cons_of_mem _
                  (List.mem_cons_of_mem _ (List.mem_cons_of_mem _ hs'))))

end Talos
namespace Talos

/-- Everything `floodFill` visits from a fresh start is reachable from
the start through open cells. -/
theorem flood_sound (g : Grid) (sx sy : Int) :
    ∀ p ∈ (floodFill g sx sy []).2.2, ReachO g (sx, sy) p := by
  intro p hp
  have hcl : ∀ a, ReachO g (sx, sy) a → ∀ q ∈ nbrs a,
      openCell g q = true → ReachO g (sx, sy) q :=
    fun a hra q hq hoq => Relation.ReflTransGen.tail hra ⟨hq, hoq⟩
  have hst : ∀ q ∈ [((sx, sy) : Pos)], openCell g q = true →
      ReachO g (sx, sy) q := by
    intro q hq _
    rcases List.mem_singleton.mp hq with rfl
    exact Relation.ReflTransGen.refl
  rcases ffl_visited_sound g (ReachO g (sx, sy)) hcl floodFillFuel
      [(sx, sy)] [] [] false hst p hp with h0 | hr
  · cases h0
  · exact hr

theorem floodFillFuel_eq : floodFillFuel = 2642 := by decide

/-- Everything reachable from an open start is visited by `floodFill`
from that start with an empty visited set. -/
theorem flood_complete (g : Grid) (sx sy : Int) (p : Pos)
    (hs : openCell g (sx, sy) = true)
    (hr : ReachO g (sx, sy) p) : p ∈ (floodFill g sx sy []).2.2 := by
  have hle : unvisCount g [] ≤ 660 := by
    have h := List.length_filter_le
      (fun q => openCell g q && !(([] : List Pos).contains q)) allCells
    rw [allCells_length] at h
    exact h
  have hfuel : 1 + 4 * unvisCount g [] < floodFillFuel := by
    rw [floodFillFuel_eq]
    omega
  have hstart : ((sx, sy) : Pos) ∈ (floodFill g sx sy []).2.2 :=
    ffl_stack_visited g floodFillFuel [(sx, sy)] [] [] false hfuel
      (sx, sy) (List.mem_singleton.mpr rfl) hs
  induction hr with
  | refl => exact hstart
  | tail hab hstep ih =>
    obtain ⟨hmem, hop⟩ := hstep
    exact ffl_closed g floodFillFuel [(sx, sy)] [] [] false hfuel
      (by intro a ha; cases ha) _ ih _ hmem hop

/-- A flood fill started on an open border cell reports touching the
edge. -/
theorem flood_touches (g : Grid) (sx sy : Int)
    (hs : openCell g (sx, sy) = true)
    (hb : borderB (sx, sy) = true) : (floodFill g sx sy []).2.1 = true := by
  have hstart : ((sx, sy) : Pos) ∈ (floodFill g sx sy []).2.2 :=
    flood_complete g sx sy (sx, sy) hs Relation.ReflTransGen.refl
  exact ffl_border_touches g floodFillFuel [(sx, sy)] [] [] false (sx, sy)
    hstart (by intro h; cases h) hb

theorem nbrs_mem1 (x y : Int) : ((x, y - 1) : Pos) ∈ nbrs (x, y) :=
  List.mem_cons_self _ _

theorem nbrs_mem2 (x y : Int) : ((x, y + 1) : Pos) ∈ nbrs (x, y) :=
  List.mem_cons_of_mem _ (List.mem_cons_self _ _)

theorem nbrs_mem3 (x y : Int) : ((x - 1, y) : Pos) ∈ nbrs (x, y) :=
  List.mem_cons_of_mem _ (List.mem_cons_of_mem _ (List.mem_cons_self _ _))

theorem nbrs_mem4 (x y : Int) : ((x + 1, y) : Pos) ∈ nbrs (x, y) :=
  List.mem_cons_of_mem _ (List.mem_cons_of_mem _ (List.mem_cons_of_mem _ (List.mem_cons_self _ _)))

/-- Popping a wall cell leaves the loop state unchanged. -/
theorem ffl_skip_wall (g : Grid) (fuel : Nat) (q : Pos)
    (rest v til : List Pos) (b : Bool) (h : isWall g q.1 q.2 = true) :
    floodFillLoop g (fuel + 1) (q :: rest) v til b =
      floodFillLoop g fuel rest v til b := by
  obtain ⟨qx, qy⟩ := q
  have h' : isWall g qx qy = true := h
  rw [ffl_cons]
  by_cases h1 : v.contains (qx, qy) = true
  · rw [if_pos h1]
  · rw [if_neg h1, wall_inBounds h']
    rw [if_neg (by decide : ¬((!true) = true))]
    rw [if_pos h']

/-- A fresh open cell whose four neighbours are all walls floods to a
singleton component. -/
theorem ffl_center_loop (g : Grid) (fuel : Nat) (x y : Int)
    (V til : List Pos) (b : Bool)
    (hnc : V.contains (x, y) = false)
    (hint : isInterior g x y = true)
    (hnb : ∀ q ∈ nbrs (x, y), isWall g q.1 q.2 = true) :
    floodFillLoop g (fuel + 5) [(x, y)] V til b =
      (til ++ [(x, y)],
       b || decide (x = 0 ∨ x = mapWidth - 1 ∨ y = 0 ∨ y = mapHeight - 1),
       (x, y) :: V) := by
  rw [show fuel + 5 = (fuel + 4) + 1 from rfl, ffl_cons]
  rw [if_neg (by rw [hnc]; exact (by decide : ¬(false = true)))]
  rw [interior_inBounds hint]
  rw [if_neg (by decide : ¬((!true) = true))]
  rw [interior_not_wall hint]
  rw [if_neg (by decide : ¬(false = true))]
  rw [hint]
  rw [if_neg (by decide : ¬((!true) = true))]
  rw [show fuel + 4 = (fuel + 3) + 1 from rfl,
    ffl_skip_wall g (fuel + 3) (x, y - 1) _ _ _ _ (hnb (x, y - 1) (nbrs_mem1 x y))]
  rw [show fuel + 3 = (fuel + 2) + 1 from rfl,
    ffl_skip_wall g (fuel + 2) (x, y + 1) _ _ _ _ (hnb (x, y + 1) (nbrs_mem2 x y))]
  rw [show fuel + 2 = (fuel + 1) + 1 from rfl,
    ffl_skip_wall g (fuel + 1) (x - 1, y) _ _ _ _ (hnb (x - 1, y) (nbrs_mem3 x y))]
  rw [ffl_skip_wall g fuel (x + 1, y) _ _ _ _ (hnb (x + 1, y) (nbrs_mem4 x y))]
  rw [ffl_nil]

theorem ffl_center (g : Grid) (x y : Int) (V : List Pos)
    (hnc : V.contains (x, y) = false)
    (hint : isInterior g x y = true)
    (hnb : ∀ q ∈ nbrs (x, y), isWall g q.1 q.2 = true) :
    floodFill g x y V =
      ([(x, y)],
       decide (x = 0 ∨ x = mapWidth - 1 ∨ y = 0 ∨ y = mapHeight - 1),
       (x, y) :: V) := by
  unfold floodFill
  rw [show floodFillFuel = 2637 + 5 from by decide]
  rw [ffl_center_loop g 2637 x y V [] false hnc hint hnb]
  rw [List.nil_append, Bool.false_or]

/-- `detectRooms` skips a cell that is already visited or a wall. -/
theorem detectStep_sk (g : Grid) (v : List Pos) (rooms : List Room) (n : Nat)
    (p : Pos) (h : v.contains p = true ∨ isWall g p.1 p.2 = true) :
    detectStep g (v, rooms, n) p = (v, rooms, n) := by
  unfold detectStep
  rcases h with hc | hw
  · rw [if_pos (show ((v, rooms, n).1.contains p) = true from hc)]
  · by_cases hc : v.contains p = true
    · rw [if_pos (show ((v, rooms, n).1.contains p) = true from hc)]
    · rw [if_neg (show ¬(((v, rooms, n).1.contains p) = true) from hc),
        if_pos hw]

theorem detectFold_sk (g : Grid) :
    ∀ (cells : List Pos) (v : List Pos) (rooms : List Room) (n : Nat),
      (∀ p ∈ cells, v.contains p = true ∨ isWall g p.1 p.2 = true) →
      cells.foldl (detectStep g) (v, rooms, n) = (v, rooms, n) := by
  intro cells
  induction cells with
  | nil => intro v rooms n _; rfl
  | cons p rest ih =>
    intro v rooms n h
    rw [List.foldl_cons, detectStep_sk g v rooms n p (h p (List.mem_cons_self _ _))]
    exact ih v rooms n (fun q hq => h q (List.mem_cons_of_mem _ hq))

/-- Extending reachability one step to an open neighbour. -/
theorem reach_tail {g : Grid} {s a c : Pos} (h : ReachO g s a)
    (hn : c ∈ nbrs a) (hc : openCell g c = true) : ReachO g s c :=
  Relation.ReflTransGen.tail h ⟨hn, hc⟩

/-- Walking right along a row of open cells. -/
theorem reach_right (g : Grid) (s : Pos) (x y : Int) :
    ∀ n : Nat, ReachO g s (x, y) →
      (∀ k : Nat, k < n → openCell g (x + k + 1, y) = true) →
      ReachO g s (x + n, y) := by
  intro n
  induction n with
  | zero => intro h _; simpa using h
  | succ m ih =>
    intro h hop
    have hm : ReachO g s (x + m, y) := ih h (fun k hk => hop k (by omega))
    have hcast : (x + ((m : Nat) + 1 : Nat) : Int) = x + m + 1 := by
      push_cast
      ring
    rw [hcast]
    exact reach_tail hm (nbrs_mem4 _ _) (hop m (by omega))

/-- Walking down along a column of open cells. -/
theorem reach_down (g : Grid) (s : Pos) (x y : Int) :
    ∀ n : Nat, ReachO g s (x, y) →
      (∀ k : Nat, k < n → openCell g (x, y + k + 1) = true) →
      ReachO g s (x, y + n) := by
  intro n
  induction n with
  | zero => intro h _; simpa using h
  | succ m ih =>
    intro h hop
    have hm : ReachO g s (x, y + m) := ih h (fun k hk => hop k (by omega))
    have hcast : (y + ((m : Nat) + 1 : Nat) : Int) = y + m + 1 := by
      push_cast
      ring
    rw [hcast]
    exact reach_tail hm (nbrs_mem2 _ _) (hop m (by omega))

/-- Route: right along row 0 from the origin, then down column `x`. -/
theorem reach_rtd (g : Grid) (x y : Int) (hx : 0 ≤ x) (hy : 0 ≤ y)
    (hrow : ∀ k : Nat, k < x.toNat → openCell g ((k : Int) + 1, 0) = true)
    (hcol : ∀ k : Nat, k < y.toNat → openCell g (x, (k : Int) + 1) = true) :
    ReachO g (0, 0) (x, y) := by
  have h1 : ReachO g (0, 0) ((0 + (x.toNat : Int), 0) : Pos) := by
    refine reach_right g (0, 0) 0 0 x.toNat Relation.ReflTransGen.refl ?_
    intro k hk
    rw [show ((0 : Int) + (k : Int) + 1) = (k : Int) + 1 from by ring]
    exact hrow k hk
  rw [show ((0 : Int) + (x.toNat : Int), (0 : Int)) = ((x, 0) : Pos) from by
    rw [Prod.mk.injEq]; exact ⟨by omega, rfl⟩] at h1
  have h2 : ReachO g (0, 0) ((x, 0 + (y.toNat : Int)) : Pos) := by
    refine reach_down g (0, 0) x 0 y.toNat h1 ?_
    intro k hk
    rw [show ((0 : Int) + (k : Int) + 1) = (k : Int) + 1 from by ring]
    exact hcol k hk
  rw [show ((x, (0 : Int) + (y.toNat : Int)) : Pos) = ((x, y) : Pos) from by
    rw [Prod.mk.injEq]; exact ⟨rfl, by omega⟩] at h2
  exact h2

/-- Route: down column 0 from the origin, then right along row `y`. -/
theorem reach_dtr (g : Grid) (x y : Int) (hx : 0 ≤ x) (hy : 0 ≤ y)
    (hcol : ∀ k : Nat, k < y.toNat → openCell g (0, (k : Int) + 1) = true)
    (hrow : ∀ k : Nat, k < x.toNat → openCell g ((k : Int) + 1, y) = true) :
    ReachO g (0, 0) (x, y) := by
  have h1 : ReachO g (0, 0) ((0, 0 + (y.toNat : Int)) : Pos) := by
    refine reach_down g (0, 0) 0 0 y.toNat Relation.ReflTransGen.refl ?_
    intro k hk
    rw [show ((0 : Int) + (k : Int) + 1) = (k : Int) + 1 from by ring]
    exact hcol k hk
  rw [show (((0 : Int), (0 : Int) + (y.toNat : Int)) : Pos) =
      (((0 : Int), y) : Pos) from by
    rw [Prod.mk.injEq]; exact ⟨rfl, by omega⟩] at h1
  have h2 : ReachO g (0, 0) ((0 + (x.toNat : Int), y) : Pos) := by
    refine reach_right g (0, 0) 0 y x.toNat h1 ?_
    intro k hk
    rw [show ((0 : Int) + (k : Int) + 1) = (k : Int) + 1 from by ring]
    exact hrow k hk
  rw [show (((0 : Int) + (x.toNat : Int), y) : Pos) = ((x, y) : Pos) from by
    rw [Prod.mk.injEq]; exact ⟨by omega, rfl⟩] at h2
  exact h2

end Talos
namespace Talos

/-- C6 scenario grid: a 3×3 rectangle outline of walls spanning
(1,1)–(3,3) with the single interior open cell (2,2); all other cells
grass. -/
def ringGrid : Grid := fun x y =>
  if (1 ≤ x ∧ x ≤ 3 ∧ 1 ≤ y ∧ y ≤ 3) ∧ ¬(x = 2 ∧ y = 2) then Tile.WALL
  else Tile.GRASS

/-- The same rectangle with the wall cell (2,1) removed, opening a gap
from the interior to the map edge. -/
def ringGapGrid : Grid := fun x y =>
  if ((1 ≤ x ∧ x ≤ 3 ∧ 1 ≤ y ∧ y ≤ 3) ∧ ¬(x = 2 ∧ y = 2)) ∧ ¬(x = 2 ∧ y = 1)
  then Tile.WALL else Tile.GRASS

theorem ringGrid_open_iff (x y : Int) :
    openCell ringGrid (x, y) = true ↔
      (0 ≤ x ∧ x < 30 ∧ 0 ≤ y ∧ y < 22) ∧
        ¬((1 ≤ x ∧ x ≤ 3 ∧ 1 ≤ y ∧ y ≤ 3) ∧ ¬(x = 2 ∧ y = 2)) := by
  show isInterior ringGrid x y = true ↔ _
  unfold isInterior ringGrid
  by_cases hc : (1 ≤ x ∧ x ≤ 3 ∧ 1 ≤ y ∧ y ≤ 3) ∧ ¬(x = 2 ∧ y = 2)
  · rw [if_pos hc]
    constructor
    · intro h
      rw [Bool.and_eq_true, Bool.and_eq_true, Bool.and_eq_true] at h
      exact absurd h.1.1.2 (by decide)
    · intro h
      exact absurd hc h.2
  · rw [if_neg hc]
    simp only [isInBounds, mapWidth, mapHeight]
    constructor
    · intro h
      rw [Bool.and_eq_true, Bool.and_eq_true, Bool.and_eq_true] at h
      exact ⟨of_decide_eq_true h.1.1.1, hc⟩
    · intro h
      rw [Bool.and_eq_true, Bool.and_eq_true, Bool.and_eq_true]
      exact ⟨⟨⟨decide_eq_true h.1, by decide⟩, by decide⟩, by decide⟩

theorem ringGrid_wall_iff (x y : Int) :
    isWall ringGrid x y = true ↔
      (0 ≤ x ∧ x < 30 ∧ 0 ≤ y ∧ y < 22) ∧
        ((1 ≤ x ∧ x ≤ 3 ∧ 1 ≤ y ∧ y ≤ 3) ∧ ¬(x = 2 ∧ y = 2)) := by
  unfold isWall ringGrid
  by_cases hc : (1 ≤ x ∧ x ≤ 3 ∧ 1 ≤ y ∧ y ≤ 3) ∧ ¬(x = 2 ∧ y = 2)
  · rw [if_pos hc]
    simp only [isInBounds, mapWidth, mapHeight]
    rw [Bool.and_eq_true]
    constructor
    · intro h
      exact ⟨of_decide_eq_true h.1, hc⟩
    · intro h
      exact ⟨decide_eq_true h.1, by decide⟩
  · rw [if_neg hc]
    constructor
    · intro h
      rw [Bool.and_eq_true] at h
      exact absurd h.2 (by decide)
    · intro h
      exact absurd h.2 hc

theorem ring_dichot (x y : Int) (h : 0 ≤ x ∧ x < 30 ∧ 0 ≤ y ∧ y < 22) :
    isWall ringGrid x y = true ∨ openCell ringGrid (x, y) = true := by
  by_cases hc : (1 ≤ x ∧ x ≤ 3 ∧ 1 ≤ y ∧ y ≤ 3) ∧ ¬(x = 2 ∧ y = 2)
  · exact Or.inl ((ringGrid_wall_iff x y).mpr ⟨h, hc⟩)
  · exact Or.inr ((ringGrid_open_iff x y).mpr ⟨h, hc⟩)

theorem gapGrid_open_iff (x y : Int) :
    openCell ringGapGrid (x, y) = true ↔
      (0 ≤ x ∧ x < 30 ∧ 0 ≤ y ∧ y < 22) ∧
        ¬(((1 ≤ x ∧ x ≤ 3 ∧ 1 ≤ y ∧ y ≤ 3) ∧ ¬(x = 2 ∧ y = 2)) ∧
          ¬(x = 2 ∧ y = 1)) := by
  show isInterior ringGapGrid x y = true ↔ _
  unfold isInterior ringGapGrid
  by_cases hc : ((1 ≤ x ∧ x ≤ 3 ∧ 1 ≤ y ∧ y ≤ 3) ∧ ¬(x = 2 ∧ y = 2)) ∧
      ¬(x = 2 ∧ y = 1)
  · rw [if_pos hc]
    constructor
    · intro h
      rw [Bool.and_eq_true, Bool.and_eq_true, Bool.and_eq_true] at h
      exact absurd h.1.1.2 (by decide)
    · intro h
      exact absurd hc h.2
  · rw [if_neg hc]
    simp only [isInBounds, mapWidth, mapHeight]
    constructor
    · intro h
      rw [Bool.and_eq_true, Bool.and_eq_true, Bool.and_eq_true] at h
      exact ⟨of_decide_eq_true h.1.1.1, hc⟩
    · intro h
      rw [Bool.and_eq_true, Bool.and_eq_true, Bool.and_eq_true]
      exact ⟨⟨⟨decide_eq_true h.1, by decide⟩, by decide⟩, by decide⟩

theorem gapGrid_wall_iff (x y : Int) :
    isWall ringGapGrid x y = true ↔
      (0 ≤ x ∧ x < 30 ∧ 0 ≤ y ∧ y < 22) ∧
        (((1 ≤ x ∧ x ≤ 3 ∧ 1 ≤ y ∧ y ≤ 3) ∧ ¬(x = 2 ∧ y = 2)) ∧
          ¬(x = 2 ∧ y = 1)) := by
  unfold isWall ringGapGrid
  by_cases hc : ((1 ≤ x ∧ x ≤ 3 ∧ 1 ≤ y ∧ y ≤ 3) ∧ ¬(x = 2 ∧ y = 2)) ∧
      ¬(x = 2 ∧ y = 1)
  · rw [if_pos hc]
    simp only [isInBounds, mapWidth, mapHeight]
    rw [Bool.and_eq_true]
    constructor
    · intro h
      exact ⟨of_decide_eq_true h.1, hc⟩
    · intro h
      exact ⟨decide_eq_true h.1, by decide⟩
  · rw [if_neg hc]
    constructor
    · intro h
      rw [Bool.and_eq_true] at h
      exact absurd h.2 (by decide)
    · intro h
      exact absurd h.2 hc

theorem gap_dichot (x y : Int) (h : 0 ≤ x ∧ x < 30 ∧ 0 ≤ y ∧ y < 22) :
    isWall ringGapGrid x y = true ∨ openCell ringGapGrid (x, y) = true := by
  by_cases hc : ((1 ≤ x ∧ x ≤ 3 ∧ 1 ≤ y ∧ y ≤ 3) ∧ ¬(x = 2 ∧ y = 2)) ∧
      ¬(x = 2 ∧ y = 1)
  · exact Or.inl ((gapGrid_wall_iff x y).mpr ⟨h, hc⟩)
  · exact Or.inr ((gapGrid_open_iff x y).mpr ⟨h, hc⟩)

/-- Nothing reachable from the origin on the ring grid is the enclosed
cell (2,2): its four neighbours are all walls. -/
theorem ring_reach_ne (p : Pos) (h : ReachO ringGrid (0, 0) p) :
    (p = (((0 : Int), (0 : Int)) : Pos) ∨ openCell ringGrid p = true) ∧
      p ≠ (((2 : Int), (2 : Int)) : Pos) := by
  induction h with
  | refl => exact ⟨Or.inl rfl, by decide⟩
  | @tail b c hab hstep ih =>
    obtain ⟨hmem, hop⟩ := hstep
    refine ⟨Or.inr hop, ?_⟩
    intro he
    subst he
    obtain ⟨b1, b2⟩ := b
    unfold nbrs at hmem
    simp only [List.mem_cons, List.not_mem_nil, or_false] at hmem
    rcases hmem with h1 | h1 | h1 | h1
    · rw [Prod.mk.injEq] at h1
      rw [show ((b1, b2) : Pos) = (((2 : Int), (3 : Int)) : Pos) from by
        rw [Prod.mk.injEq]; omega] at ih
      rcases ih.1 with h0 | ho
      · exact absurd h0 (by decide)
      · exact absurd ho (by decide)
    · rw [Prod.mk.injEq] at h1
      rw [show ((b1, b2) : Pos) = (((2 : Int), (1 : Int)) : Pos) from by
        rw [Prod.mk.injEq]; omega] at ih
      rcases ih.1 with h0 | ho
      · exact absurd h0 (by decide)
      · exact absurd ho (by decide)
    · rw [Prod.mk.injEq] at h1
      rw [show ((b1, b2) : Pos) = (((3 : Int), (2 : Int)) : Pos) from by
        rw [Prod.mk.injEq]; omega] at ih
      rcases ih.1 with h0 | ho
      · exact absurd h0 (by decide)
      · exact absurd ho (by decide)
    · rw [Prod.mk.injEq] at h1
      rw [show ((b1, b2) : Pos) = (((1 : Int), (2 : Int)) : Pos) from by
        rw [Prod.mk.injEq]; omega] at ih
      rcases ih.1 with h0 | ho
      · exact absurd h0 (by decide)
      · exact absurd ho (by decide)

/-- Every open cell of the ring grid other than (2,2) is reachable from
the origin. -/
theorem ring_reach (x y : Int)
    (hin : 0 ≤ x ∧ x < 30 ∧ 0 ≤ y ∧ y < 22)
    (hnw : ¬((1 ≤ x ∧ x ≤ 3 ∧ 1 ≤ y ∧ y ≤ 3) ∧ ¬(x = 2 ∧ y = 2)))
    (hne : ¬(x = 2 ∧ y = 2)) :
    ReachO ringGrid (0, 0) (x, y) := by
  have hsplit : ¬(1 ≤ x ∧ x ≤ 3) ∨ y = 0 ∨ 4 ≤ y := by omega
  rcases hsplit with hcx | hy0 | hy4
  · exact reach_rtd ringGrid x y (by omega) (by omega)
      (fun k hk => (ringGrid_open_iff _ _).mpr ⟨by omega, by omega⟩)
      (fun k hk => (ringGrid_open_iff _ _).mpr ⟨by omega, by omega⟩)
  · exact reach_rtd ringGrid x y (by omega) (by omega)
      (fun k hk => (ringGrid_open_iff _ _).mpr ⟨by omega, by omega⟩)
      (fun k hk => (ringGrid_open_iff _ _).mpr ⟨by omega, by omega⟩)
  · exact reach_dtr ringGrid x y (by omega) (by omega)
      (fun k hk => (ringGrid_open_iff _ _).mpr ⟨by omega, by omega⟩)
      (fun k hk => (ringGrid_open_iff _ _).mpr ⟨by omega, by omega⟩)

/-- Every open cell of the gapped grid is reachable from the origin. -/
theorem gap_reach (x y : Int)
    (hin : 0 ≤ x ∧ x < 30 ∧ 0 ≤ y ∧ y < 22)
    (hnw : ¬(((1 ≤ x ∧ x ≤ 3 ∧ 1 ≤ y ∧ y ≤ 3) ∧ ¬(x = 2 ∧ y = 2)) ∧
      ¬(x = 2 ∧ y = 1))) :
    ReachO ringGapGrid (0, 0) (x, y) := by
  have hsplit : ¬(1 ≤ x ∧ x ≤ 3) ∨ y = 0 ∨ 4 ≤ y ∨ (x = 2 ∧ y ≤ 2) := by
    omega
  rcases hsplit with hcx | hy0 | hy4 | hx2
  · exact reach_rtd ringGapGrid x y (by omega) (by omega)
      (fun k hk => (gapGrid_open_iff _ _).mpr ⟨by omega, by omega⟩)
      (fun k hk => (gapGrid_open_iff _ _).mpr ⟨by omega, by omega⟩)
  · exact reach_rtd ringGapGrid x y (by omega) (by omega)
      (fun k hk => (gapGrid_open_iff _ _).mpr ⟨by omega, by omega⟩)
      (fun k hk => (gapGrid_open_iff _ _).mpr ⟨by omega, by omega⟩)
  · exact reach_dtr ringGapGrid x y (by omega) (by omega)
      (fun k hk => (gapGrid_open_iff _ _).mpr ⟨by omega, by omega⟩)
      (fun k hk => (gapGrid_open_iff _ _).mpr ⟨by omega, by omega⟩)
  · exact reach_rtd ringGapGrid x y (by omega) (by omega)
      (fun k hk => (gapGrid_open_iff _ _).mpr ⟨by omega, by omega⟩)
      (fun k hk => (gapGrid_open_iff _ _).mpr ⟨by omega, by omega⟩)

end Talos
namespace Talos

theorem pos_contains_of_mem {l : List Pos} {a : Pos} (h : a ∈ l) :
    l.contains a = true := by
  induction l with
  | nil => cases h
  | cons b bs ih =>
    rw [show ((b :: bs).contains a) = (a == b || bs.contains a) from rfl]
    rcases List.mem_cons.mp h with rfl | h'
    · rw [show (a == a) = true from by simp, Bool.true_or]
    · rw [ih h', Bool.or_true]

theorem pos_mem_of_contains {l : List Pos} {a : Pos}
    (h : l.contains a = true) : a ∈ l := by
  induction l with
  | nil => exact Bool.noConfusion (show false = true from h)
  | cons b bs ih =>
    rw [show ((b :: bs).contains a) = (a == b || bs.contains a) from rfl] at h
    cases hab : (a == b) with
    | true => exact List.mem_cons.mpr (Or.inl (by simpa using hab))
    | false =>
      rw [hab, Bool.false_or] at h
      exact List.mem_cons_of_mem _ (ih h)

/-- A `detectRooms` visit whose flood fill touches the edge discards the
component but keeps its cells visited. -/
theorem detectStep_touch (g : Grid) (v : List Pos) (rooms : List Room)
    (n : Nat) (px py : Int)
    (hnc : v.contains (px, py) = false)
    (hnw : isWall g px py = false)
    (hint : isInterior g px py = true)
    (htch : (floodFill g px py v).2.1 = true) :
    detectStep g (v, rooms, n) (px, py) =
      ((floodFill g px py v).2.2, rooms, n) := by
  simp only [detectStep]
  rw [if_neg (by rw [hnc]; exact (by decide : ¬(false = true)))]
  rw [if_neg (by rw [hnw]; exact (by decide : ¬(false = true)))]
  rw [if_neg (by rw [hint]; exact (by decide : ¬((!true) = true)))]
  rw [htch, Bool.not_true, Bool.false_and]
  rw [if_neg (by decide : ¬(false = true))]

/-- A `detectRooms` visit whose flood fill stays enclosed records a
room built from the component. -/
theorem detectStep_room (g : Grid) (v : List Pos) (rooms : List Room)
    (n : Nat) (px py : Int)
    (hnc : v.contains (px, py) = false)
    (hnw : isWall g px py = false)
    (hint : isInterior g px py = true)
    (T V : List Pos)
    (hff : floodFill g px py v = (T, false, V))
    (hlen : 0 < T.length) :
    detectStep g (v, rooms, n) (px, py) =
      (V, rooms ++ [⟨n, T, findBoundingWalls g T, getBounds T, T.length,
        "Room " ++ toString (n + 1)⟩], n + 1) := by
  simp only [detectStep]
  rw [if_neg (by rw [hnc]; exact (by decide : ¬(false = true)))]
  rw [if_neg (by rw [hnw]; exact (by decide : ¬(false = true)))]
  rw [if_neg (by rw [hint]; exact (by decide : ¬((!true) = true)))]
  rw [hff]
  dsimp only
  rw [if_pos (by simp [hlen])]

/-- The single room the ring grid produces: the enclosed cell and its
four cardinally adjacent walls. -/
def ringRoom : Room :=
  ⟨0, [(2, 2)], [(3, 2), (1, 2), (2, 3), (2, 1)], ⟨2, 2, 2, 2, 1, 1⟩, 1,
    "Room 1"⟩

def cellsA : List Pos := (allCells.drop 1).take 61

def cellsB : List Pos := allCells.drop 63

def cellsR : List Pos := allCells.drop 1

set_option maxRecDepth 10000 in
theorem ring_split :
    allCells = (((0, 0)) : Pos) :: (cellsA ++ (((2, 2)) : Pos) :: cellsB) := by
  decide

set_option maxRecDepth 10000 in
theorem gap_split : allCells = (((0, 0)) : Pos) :: cellsR := by
  decide

set_option maxRecDepth 10000 in
theorem cellsA_bounds : ∀ q ∈ cellsA,
    (0 ≤ q.1 ∧ q.1 < 30 ∧ 0 ≤ q.2 ∧ q.2 < 22) ∧
      q ≠ (((2 : Int), (2 : Int)) : Pos) := by
  decide

set_option maxRecDepth 10000 in
theorem cellsB_bounds : ∀ q ∈ cellsB,
    (0 ≤ q.1 ∧ q.1 < 30 ∧ 0 ≤ q.2 ∧ q.2 < 22) ∧
      q ≠ (((2 : Int), (2 : Int)) : Pos) := by
  decide

set_option maxRecDepth 10000 in
theorem cellsR_bounds : ∀ q ∈ cellsR,
    0 ≤ q.1 ∧ q.1 < 30 ∧ 0 ≤ q.2 ∧ q.2 < 22 := by
  decide

/-- The opening flood fill of the ring grid: touches the edge, covers
every open cell except (2,2), and misses (2,2). -/
theorem ring_flood0 :
    (floodFill ringGrid 0 0 []).2.1 = true ∧
    (∀ p, openCell ringGrid p = true → p ≠ (((2 : Int), (2 : Int)) : Pos) →
      p ∈ (floodFill ringGrid 0 0 []).2.2) ∧
    (((2 : Int), (2 : Int)) : Pos) ∉ (floodFill ringGrid 0 0 []).2.2 := by
  have hopen00 : openCell ringGrid ((0, 0) : Pos) = true := by decide
  refine ⟨?_, ?_, ?_⟩
  · exact flood_touches ringGrid 0 0 hopen00 (by decide)
  · intro p hp hne
    obtain ⟨x, y⟩ := p
    have hb := (ringGrid_open_iff x y).mp hp
    refine flood_complete ringGrid 0 0 (x, y) hopen00 ?_
    refine ring_reach x y hb.1 hb.2 ?_
    intro hc
    exact hne (by rw [Prod.mk.injEq]; exact hc)
  · intro hmem
    exact (ring_reach_ne _ (flood_sound ringGrid 0 0 _ hmem)).2 rfl

/-- The opening flood fill of the gapped grid: touches the edge and
covers every open cell, including the formerly enclosed one. -/
theorem gap_flood0 :
    (floodFill ringGapGrid 0 0 []).2.1 = true ∧
    ∀ p, openCell ringGapGrid p = true →
      p ∈ (floodFill ringGapGrid 0 0 []).2.2 := by
  have hopen00 : openCell ringGapGrid ((0, 0) : Pos) = true := by decide
  constructor
  · exact flood_touches ringGapGrid 0 0 hopen00 (by decide)
  · intro p hp
    obtain ⟨x, y⟩ := p
    have hb := (gapGrid_open_iff x y).mp hp
    exact flood_complete ringGapGrid 0 0 (x, y) hopen00
      (gap_reach x y hb.1 hb.2)

set_option maxRecDepth 10000 in
theorem detectRooms_ring : detectRooms ringGrid 0 = ([ringRoom], 1) := by
  obtain ⟨htch, hcomp, hne22⟩ := ring_flood0
  have hnc22 : ((floodFill ringGrid 0 0 []).2.2).contains
      (((2 : Int), (2 : Int)) : Pos) = false := by
    cases hc : ((floodFill ringGrid 0 0 []).2.2).contains
        (((2 : Int), (2 : Int)) : Pos) with
    | false => rfl
    | true => exact absurd (pos_mem_of_contains hc) hne22
  have hff22 : floodFill ringGrid 2 2 (floodFill ringGrid 0 0 []).2.2 =
      ([((2 : Int), (2 : Int))], false,
        (((2 : Int), (2 : Int)) : Pos) :: (floodFill ringGrid 0 0 []).2.2) := by
    rw [ffl_center ringGrid 2 2 (floodFill ringGrid 0 0 []).2.2 hnc22
      (by decide) (by decide)]
    rw [show (decide ((2 : Int) = 0 ∨ (2 : Int) = mapWidth - 1 ∨
      (2 : Int) = 0 ∨ (2 : Int) = mapHeight - 1)) = false from by decide]
  have hstep0 : detectStep ringGrid (([] : List Pos), ([] : List Room), 0)
      ((0, 0) : Pos) = ((floodFill ringGrid 0 0 []).2.2, ([] : List Room), 0) := by
    rw [detectStep_touch ringGrid [] [] 0 0 0 (by decide) (by decide)
      (by decide) htch]
  have hstep22 : detectStep ringGrid
      ((floodFill ringGrid 0 0 []).2.2, ([] : List Room), 0) ((2, 2) : Pos) =
      ((((2 : Int), (2 : Int)) : Pos) :: (floodFill ringGrid 0 0 []).2.2,
        [ringRoom], 1) := by
    rw [detectStep_room ringGrid (floodFill ringGrid 0 0 []).2.2 [] 0
      2 2 hnc22 (by decide) (by decide) [((2 : Int), (2 : Int))]
      ((((2 : Int), (2 : Int)) : Pos) :: (floodFill ringGrid 0 0 []).2.2)
      hff22 (by decide)]
    rw [Prod.mk.injEq, Prod.mk.injEq]
    exact ⟨rfl, by decide, rfl⟩
  have hA : cellsA.foldl (detectStep ringGrid)
      ((floodFill ringGrid 0 0 []).2.2, ([] : List Room), 0) =
      ((floodFill ringGrid 0 0 []).2.2, ([] : List Room), 0) := by
    refine detectFold_sk ringGrid cellsA (floodFill ringGrid 0 0 []).2.2 [] 0 ?_
    intro p hp
    obtain ⟨hb, hnp⟩ := cellsA_bounds p hp
    obtain ⟨x, y⟩ := p
    rcases ring_dichot x y hb with hw | ho
    · exact Or.inr hw
    · exact Or.inl (pos_contains_of_mem (hcomp (x, y) ho hnp))
  have hB : cellsB.foldl (detectStep ringGrid)
      ((((2 : Int), (2 : Int)) : Pos) :: (floodFill ringGrid 0 0 []).2.2,
        [ringRoom], 1) =
      ((((2 : Int), (2 : Int)) : Pos) :: (floodFill ringGrid 0 0 []).2.2,
        [ringRoom], 1) := by
    refine detectFold_sk ringGrid cellsB ((((2 : Int), (2 : Int)) : Pos) :: (floodFill ringGrid 0 0 []).2.2) [ringRoom] 1 ?_
    intro p hp
    obtain ⟨hb, hnp⟩ := cellsB_bounds p hp
    obtain ⟨x, y⟩ := p
    rcases ring_dichot x y hb with hw | ho
    · exact Or.inr hw
    · exact Or.inl (pos_contains_of_mem
        (List.mem_cons_of_mem _ (hcomp (x, y) ho hnp)))
  unfold detectRooms
  rw [ring_split, List.foldl_cons, hstep0, List.foldl_append, hA,
    List.foldl_cons, hstep22, hB]

set_option maxRecDepth 10000 in
theorem detectRooms_gap : detectRooms ringGapGrid 0 = ([], 0) := by
  obtain ⟨htch, hcomp⟩ := gap_flood0
  have hstep0 : detectStep ringGapGrid (([] : List Pos), ([] : List Room), 0)
      ((0, 0) : Pos) =
      ((floodFill ringGapGrid 0 0 []).2.2, ([] : List Room), 0) := by
    rw [detectStep_touch ringGapGrid [] [] 0 0 0 (by decide)
      (by decide) (by decide) htch]
  have hR : cellsR.foldl (detectStep ringGapGrid)
      ((floodFill ringGapGrid 0 0 []).2.2, ([] : List Room), 0) =
      ((floodFill ringGapGrid 0 0 []).2.2, ([] : List Room), 0) := by
    refine detectFold_sk ringGapGrid cellsR (floodFill ringGapGrid 0 0 []).2.2 [] 0 ?_
    intro p hp
    have hb := cellsR_bounds p hp
    obtain ⟨x, y⟩ := p
    rcases gap_dichot x y hb with hw | ho
    · exact Or.inr hw
    · exact Or.inl (pos_contains_of_mem (hcomp (x, y) ho))
  unfold detectRooms
  rw [gap_split, List.foldl_cons, hstep0, hR]

end Talos
namespace Talos

/-- C6 (amended): on the grid whose only walls are the 3×3 rectangle
outline around the single interior open cell (2,2), `detectRooms` yields
exactly one room, of size 1, containing exactly (2,2); but its
boundary-wall set is the four cardinally adjacent wall cells, of count
4, not the rectangle's full 8-cell wall perimeter, because
`findBoundingWalls` only collects 4-adjacent walls.  After removing the
wall cell (2,1), the next `detectRooms` yields no room at all, so no
room contains (2,2). -/
theorem C6_region_closure :
    ((detectRooms ringGrid 0).1 = [ringRoom] ∧
      ringRoom.tiles = [(((2 : Int), (2 : Int)) : Pos)] ∧
      ringRoom.size = 1 ∧ ringRoom.walls.length = 4 ∧
      (∀ w ∈ ringRoom.walls, isWall ringGrid w.1 w.2 = true)) ∧
    ((detectRooms ringGapGrid 0).1 = [] ∧
      ∀ r ∈ (detectRooms ringGapGrid 0).1,
        (((2 : Int), (2 : Int)) : Pos) ∉ r.tiles) := by
  refine ⟨⟨?_, by decide, by decide, by decide, by decide⟩, ?_, ?_⟩
  · rw [detectRooms_ring]
  · rw [detectRooms_gap]
  · intro r hr
    rw [detectRooms_gap] at hr
    cases hr

/-- The spec's claim that the room's boundary-wall count equals the
rectangle's full wall perimeter fails: the room records 4 bounding
walls while the rectangle outline comprises 8 wall cells. -/
theorem C6_region_closure_cex :
    (detectRooms ringGrid 0).1 = [ringRoom] ∧
    ringRoom.walls.length = 4 ∧
    (allCells.filter (fun p => isWall ringGrid p.1 p.2)).length = 8 ∧
    ringRoom.walls.length ≠
      (allCells.filter (fun p => isWall ringGrid p.1 p.2)).length := by
  refine ⟨?_, by decide, ?_, ?_⟩
  · rw [detectRooms_ring]
  · set_option maxRecDepth 10000 in decide
  · set_option maxRecDepth 10000 in decide

end Talos
